import Mathlib

/-!
Decision tree induction and inference (`src/decision.cpp`).

A shallow embedding of the classes `Table`, `Node` and `DecisionTree` of
`src/decision.cpp`, followed by the verification of their documented behaviour.

Modelling conventions.

* `vector<T>` is `List T`; a vector position is a `Nat`.  Reading a vector out of
  range (undefined behaviour in the source) is the fault `Fault.outOfRange`.
* An `int` that can hold a negative value in the source (`criteriaAttrIndex`, the
  result of `dfs`, the result of `getSelectedAttribute`) is an `Int`.
* A member left unassigned by the constructor `Node()` is `none`.
* `std::map<string, T>` is an association list kept in strictly increasing key order.
* The doubles of the scoring methods are not reproduced bit by bit.  `getInfoD`,
  `getInfoAttrD`, `getGain`, `getSplitInfoAttrD` and `getGainRatio` are the formulas of
  the source read over exact real arithmetic (the arithmetic in which the scores are
  specified); only the division of `getGainRatio` keeps the IEEE-754 special results
  (NaN, infinities) of a division by zero.  What the machine selects and builds is
  described for an arbitrary outcome of the floating-point computation: the loop of
  `getSelectedAttribute` is `getSelectedAttributeWith`, for any gain ratios
  `gainRatio table i`, and `run` and the constructor are `runWith` and `buildWith`, for
  any selection `sel`.  `getSelectedAttribute`, `run` and `build` are their instances
  for the exact-real scores.
* Recursion that the source does not bound is bounded by a fuel argument; running out
  of fuel is the fault `Fault.outOfFuel`, which is never confused with a result.
-/

namespace Crop

/-! ## Data model -/

/-- One record of the table: `vector<string>`. -/
abbrev Row := List String

/-- Class `Table`. -/
structure Table where
  attrName : List String := []
  data : List Row := []
  attrValueList : List (List String) := []
  deriving DecidableEq, Repr

/-- Class `Node`.  The constructor `Node()` only sets `isLeaf = false`; the two `int`
members stay unassigned (`none`), the string and the vector are empty. -/
structure Node where
  criteriaAttrIndex : Option Int := none
  attrValue : String := ""
  treeIndex : Option Nat := none
  isLeaf : Bool := false
  label : String := ""
  children : List Nat := []
  deriving DecidableEq, Repr

/-- Ways in which an execution of the source fails to produce a value. -/
inductive Fault where
  | outOfRange
  | indeterminate
  | outOfFuel
  deriving DecidableEq, Repr

deriving instance DecidableEq for Except

/-- Read of `xs[i]` for a vector `xs` and a vector position `i`. -/
def vecAt {α : Type} (xs : List α) (i : Nat) : Except Fault α :=
  match xs[i]? with
  | some x => .ok x
  | none => .error .outOfRange

/-- Read of `xs[i]` for a vector `xs` and an `int` index `i`. -/
def vecAtInt {α : Type} (xs : List α) (i : Int) : Except Fault α :=
  if i < 0 then .error .outOfRange else vecAt xs i.toNat

/-- Read of a member that the constructor leaves unassigned. -/
def assigned {α : Type} (x : Option α) : Except Fault α :=
  match x with
  | some a => .ok a
  | none => .error .indeterminate

/-- Write to `tree[i]`: the element at position `i` is replaced by its image under `f`. -/
def setNode (tree : List Node) (i : Nat) (f : Node → Node) : Except Fault (List Node) :=
  match tree[i]? with
  | some node => .ok (tree.set i (f node))
  | none => .error .outOfRange

/-- Result of `v.back()`. -/
def lastOf {α : Type} (xs : List α) : Except Fault α :=
  match xs.getLast? with
  | some x => .ok x
  | none => .error .outOfRange

/-- The label `row.back()` inside the functions that return no fault (`isLeafNode`,
`getMajorityLabel`, the scoring functions).  Every row of a table has its label as last
field; for a row without any field the source is undefined and the model reads the empty
string. -/
def back (row : Row) : String := row.getLastD ""

/-- The field `row[j]` inside the functions that return no fault (`extractAttrValue` and
the scoring functions).  They are only called with `j` below the number of attributes;
for a shorter row the source is undefined and the model reads the empty string. -/
def cell (row : Row) (j : Nat) : String := row.getD j ""

/-! ## `std::map<string, T>` -/

/-- Lexicographic comparison of two character sequences. -/
def charsLt : List Char → List Char → Bool
  | [], [] => false
  | [], _ :: _ => true
  | _ :: _, [] => false
  | a :: as, b :: bs => if a < b then true else if b < a then false else charsLt as bs

/-- The comparison `a < b` of two `std::string`, which orders the keys of a `std::map`:
lexicographic on the characters, a proper prefix coming first (for UTF-8 text the order
of the bytes is the order of the characters). -/
def strLt (a b : String) : Bool := charsLt a.data b.data

/-- A `std::map<string, α>`: the entries in strictly increasing key order. -/
abbrev StrMap (α : Type) := List (String × α)

namespace StrMap

/-- Value of `m[k]` read as an rvalue: the stored value, or the value-initialised `dflt`
when the key is absent (the empty entry that `operator[]` then inserts is never read
again in the source). -/
def get {α : Type} (m : StrMap α) (k : String) (dflt : α) : α :=
  match m with
  | [] => dflt
  | (k', v) :: rest => if k = k' then v else get rest k dflt

/-- Effect of `m[k] = f(m[k])`: the entry of `k` is created from `dflt` when absent, at
its place in key order. -/
def modify {α : Type} (m : StrMap α) (k : String) (dflt : α) (f : α → α) : StrMap α :=
  match m with
  | [] => [(k, f dflt)]
  | (k', v) :: rest =>
    if strLt k k' then (k, f dflt) :: (k', v) :: rest
    else if k = k' then (k', f v) :: rest
    else (k', v) :: modify rest k dflt f

end StrMap

/-- Method `Table::extractAttrValue`, the `resize` of `attrValueList`. -/
def resizeLists (xs : List (List String)) (n : Nat) : List (List String) :=
  xs.take n ++ List.replicate (n - xs.length) []

/-- Method `Table::extractAttrValue`, the keys of the local map `value` for column `j`,
in iteration order. -/
def columnValues (data : List Row) (j : Nat) : List String :=
  (data.foldl (fun (value : StrMap Nat) row => value.modify (cell row j) 0 (fun _ => 1)) []).map
    Prod.fst

/-- Method `Table::extractAttrValue`. -/
def Table.extractAttrValue (self : Table) : Table :=
  { self with
    attrValueList :=
      (List.range self.attrName.length).map (fun j =>
        (resizeLists self.attrValueList self.attrName.length).getD j []
          ++ columnValues self.data j) }

/-! ## Scoring -/

/-- The local map `labelCount` of `getInfoD` after its first loop. -/
def countLabels (data : List Row) : StrMap Nat :=
  data.foldl (fun (labelCount : StrMap Nat) row => labelCount.modify (back row) 0 (· + 1)) []

/-- The local map `attrValueMap` of `getInfoAttrD` and `getSplitInfoAttrD`: for every
observed value of attribute `attrIndex` the positions of the rows holding it; `i` is the
position of the first row of `rows`. -/
def groupRows (attrIndex : Nat) : Nat → List Row → StrMap (List Nat) → StrMap (List Nat)
  | _, [], m => m
  | i, row :: rest, m =>
    groupRows attrIndex (i + 1) rest (m.modify (cell row attrIndex) [] (· ++ [i]))

/-- The rows `table.data[candi[0]], table.data[candi[1]], ...` pushed to `nextTable`
inside the scoring functions (the positions come from `groupRows` and are in range). -/
def rowsAt (data : List Row) (candi : List Nat) : List Row :=
  candi.map (fun i => data.getD i [])

/-- Method `getInfoD`, over exact real arithmetic. -/
noncomputable def getInfoD (table : Table) : ℝ :=
  let itemCount : ℝ := (table.data.length : ℝ)
  (countLabels table.data).foldl
    (fun ret entry =>
      let p : ℝ := (entry.2 : ℝ) / itemCount
      ret + -1.0 * p * Real.log p / Real.log 2) 0.0

/-- Method `getInfoAttrD`, over exact real arithmetic. -/
noncomputable def getInfoAttrD (table : Table) (attrIndex : Nat) : ℝ :=
  let itemCount : ℝ := (table.data.length : ℝ)
  (groupRows attrIndex 0 table.data []).foldl
    (fun ret entry =>
      let nextTable : Table := { data := rowsAt table.data entry.2 }
      let nextItemCount : ℝ := (nextTable.data.length : ℝ)
      ret + nextItemCount / itemCount * getInfoD nextTable) 0.0

/-- Method `getGain`, over exact real arithmetic. -/
noncomputable def getGain (table : Table) (attrIndex : Nat) : ℝ :=
  getInfoD table - getInfoAttrD table attrIndex

/-- Method `getSplitInfoAttrD`, over exact real arithmetic. -/
noncomputable def getSplitInfoAttrD (table : Table) (attrIndex : Nat) : ℝ :=
  let itemCount : ℝ := (table.data.length : ℝ)
  (groupRows attrIndex 0 table.data []).foldl
    (fun ret entry =>
      let nextTable : Table := { data := rowsAt table.data entry.2 }
      let nextItemCount : ℝ := (nextTable.data.length : ℝ)
      let d : ℝ := nextItemCount / itemCount
      ret + -1.0 * d * Real.log d / Real.log 2) 0.0

/-- Value of a `double` division: a finite quotient, or one of the IEEE-754 special
results of a division by zero. -/
inductive Dbl where
  | nan
  | negInf
  | posInf
  | fin (x : ℝ)

namespace Dbl

/-- IEEE-754 division `x / y` of two finite values; a zero divisor is `+0.0` (the
accumulator of `getSplitInfoAttrD` starts from `0.0`). -/
noncomputable def div (x y : ℝ) : Dbl :=
  if y = 0 then
    if x = 0 then nan else if 0 < x then posInf else negInf
  else fin (x / y)

/-- IEEE-754 comparison `a < b`: false as soon as one side is NaN. -/
def lt : Dbl → Dbl → Prop
  | fin x, fin y => x < y
  | fin _, posInf => True
  | negInf, fin _ => True
  | negInf, posInf => True
  | _, _ => False

noncomputable instance decLt (a b : Dbl) : Decidable (lt a b) := Classical.propDecidable _

end Dbl

/-- Method `getGainRatio`, over exact real arithmetic but for the division. -/
noncomputable def getGainRatio (table : Table) (attrIndex : Nat) : Dbl :=
  Dbl.div (getGain table attrIndex) (getSplitInfoAttrD table attrIndex)

/-- Value of the `size_t` expression `attrName.size() - 1` (64 bits) for a vector of `n`
elements: for the empty vector the subtraction wraps around. -/
def sizeMinusOne (n : Nat) : Nat :=
  if n = 0 then 2 ^ 64 - 1 else n - 1

/-- Method `getSelectedAttribute`, the loop over the attribute positions `is` with the
pair `(maxAttrIndex, maxAttrValue)` as state; `ratio i` is the double that
`getGainRatio(table, i)` returns. -/
noncomputable def selectLoop (ratio : Nat → Dbl) : List Nat → Int × Dbl → Int × Dbl
  | [], st => st
  | i :: is, st =>
    if Dbl.lt st.2 (ratio i) then selectLoop ratio is ((i : Int), ratio i)
    else selectLoop ratio is st

/-- Method `getSelectedAttribute`, where `gainRatio table i` is the double that
`getGainRatio(table, i)` returns.  With an empty header the bound of the loop wraps
around and the source reads the rows out of range; the statements below are made for a
header that is not empty. -/
noncomputable def getSelectedAttributeWith (gainRatio : Table → Nat → Dbl)
    (initialTable : Table) (table : Table) : Int :=
  (selectLoop (gainRatio table) (List.range (sizeMinusOne initialTable.attrName.length))
    (-1, Dbl.fin 0.0)).1

/-- Method `getSelectedAttribute` for the gain ratios of exact real arithmetic. -/
noncomputable def getSelectedAttribute (initialTable : Table) (table : Table) : Int :=
  getSelectedAttributeWith getGainRatio initialTable table

/-! ## Tree construction -/

/-- Method `isLeafNode`. -/
def isLeafNode (table : Table) : Bool :=
  match table.data with
  | [] => true
  | first :: rest => rest.all (fun row => decide (back first = back row))

/-- State of the loop of `getMajorityLabel`. -/
structure MajorityState where
  majorLabel : String := ""
  majorCount : Nat := 0
  labelCount : StrMap Nat := []

/-- Method `getMajorityLabel`, one iteration of the loop. -/
def majorityStep (st : MajorityState) (row : Row) : MajorityState :=
  let labelCount := st.labelCount.modify (back row) 0 (· + 1)
  if labelCount.get (back row) 0 > st.majorCount then
    { majorLabel := back row, majorCount := labelCount.get (back row) 0,
      labelCount := labelCount }
  else { st with labelCount := labelCount }

/-- Method `getMajorityLabel`. -/
def getMajorityLabel (table : Table) : String × Nat :=
  let st := table.data.foldl majorityStep {}
  (st.majorLabel, st.majorCount)

/-- The test `(double)majority.second / table.data.size() > 0.8` of `run`.  The count and
the size are `int`-sized, so the quotient exceeds the `double` nearest to `0.8` exactly
when it exceeds `4/5`. -/
def exceedsThreshold (majorCount size : Nat) : Bool :=
  decide (majorCount * 5 > size * 4)

/-- Method `run`, the first loop: the local map `attrValueMap`, which sends every observed
value of the selected attribute to the positions of the rows holding it; `i` is the
position of the first row of `rows`. -/
def buildAttrValueMap (selectedAttrIndex : Int) :
    Nat → List Row → StrMap (List Nat) → Except Fault (StrMap (List Nat))
  | _, [], m => .ok m
  | i, row :: rest, m => do
    let value ← vecAtInt row selectedAttrIndex
    buildAttrValueMap selectedAttrIndex (i + 1) rest (m.modify value [] (· ++ [i]))

/-- Method `run`, the inner loop filling `nextTable.data` from the positions `candi`. -/
def collectRows (data : List Row) : List Nat → Except Fault (List Row)
  | [] => .ok []
  | i :: rest => do
    let row ← vecAt data i
    let others ← collectRows data rest
    .ok (row :: others)

/-- Method `run`, the body of the loop over the values `attrValue` of the selected
attribute; `recurse` is the recursive call `run(nextTable, nextNode.treeIndex)`. -/
def splitStep (recurse : Table → Nat → List Node → Except Fault (List Node)) (table : Table)
    (attrValueMap : StrMap (List Nat)) (nodeIndex : Nat) (tree : List Node)
    (attrValue : String) : Except Fault (List Node) := do
  let candi := attrValueMap.get attrValue []
  let nextData ← collectRows table.data candi
  let nextTable : Table := { data := nextData }
  let nextNode : Node := { attrValue := attrValue, treeIndex := some tree.length }
  let nextIndex := tree.length
  let tree ← setNode tree nodeIndex
    (fun node => { node with children := node.children ++ [nextIndex] })
  let tree := tree ++ [nextNode]
  if nextTable.data.length = 0 then
    setNode tree nextIndex
      (fun _ => { nextNode with isLeaf := true, label := (getMajorityLabel table).1 })
  else recurse nextTable nextIndex tree

/-- Method `run` with the call `getSelectedAttribute(table)` passed as `sel`.  The
running node vector `tree` is passed in and returned. -/
def runWith (sel : Table → Int) (initialTable : Table) :
    Nat → Table → Nat → List Node → Except Fault (List Node)
  | 0, _, _, _ => .error .outOfFuel
  | fuel + 1, table, nodeIndex, tree =>
    if isLeafNode table then do
      let lastRow ← lastOf table.data
      let label ← lastOf lastRow
      setNode tree nodeIndex (fun node => { node with isLeaf := true, label := label })
    else do
      let selectedAttrIndex := sel table
      let attrValueMap ← buildAttrValueMap selectedAttrIndex 0 table.data []
      let tree ← setNode tree nodeIndex
        (fun node => { node with criteriaAttrIndex := some selectedAttrIndex })
      let majority := getMajorityLabel table
      if exceedsThreshold majority.2 table.data.length then
        setNode tree nodeIndex
          (fun node => { node with isLeaf := true, label := majority.1 })
      else do
        let domain ← vecAtInt initialTable.attrValueList selectedAttrIndex
        domain.foldlM
          (splitStep (runWith sel initialTable fuel) table attrValueMap nodeIndex) tree

/-- Class `DecisionTree`: the training table and the node vector. -/
structure DecisionTree where
  initialTable : Table := {}
  tree : List Node := []
  deriving DecidableEq, Repr

namespace DecisionTree

/-! ## Inference: `dfs` and `guess` -/

/-- The `for` loop of `dfs` over the children of the current node; `recurse` is the
recursive call `dfs(row, next)`. -/
def dfsScan (tree : List Node) (row : Row) (criteriaAttrIndex : Int)
    (recurse : Nat → Except Fault Int) : List Nat → Except Fault Int
  | [] => .ok (-1)
  | next :: rest => do
    let value ← vecAtInt row criteriaAttrIndex
    let child ← vecAt tree next
    if value = child.attrValue then recurse next
    else dfsScan tree row criteriaAttrIndex recurse rest

/-- Method `dfs(row, here)`: the leaf reached from `here`, or `-1`. -/
def dfs (self : DecisionTree) (row : Row) : Nat → Nat → Except Fault Int
  | 0, _ => .error .outOfFuel
  | fuel + 1, here => do
    let node ← vecAt self.tree here
    if node.isLeaf then .ok (here : Int)
    else do
      let criteriaAttrIndex ← assigned node.criteriaAttrIndex
      dfsScan self.tree row criteriaAttrIndex (dfs self row fuel) node.children

/-- Method `guess(row)`. -/
def guess (self : DecisionTree) (row : Row) (fuel : Nat) : Except Fault String := do
  let leafNode ← dfs self row fuel 0
  if leafNode = -1 then .ok "dfs failed"
  else do
    let node ← vecAtInt self.tree leafNode
    .ok node.label

/-- Method `run`, with the selection made on exact-real scores. -/
noncomputable def run (initialTable : Table) (fuel : Nat) (table : Table) (nodeIndex : Nat)
    (tree : List Node) : Except Fault (List Node) :=
  runWith (getSelectedAttribute initialTable) initialTable fuel table nodeIndex tree

/-- Constructor `DecisionTree(table)` with the selection passed as `sel`; the call of
`printTree` only writes to the standard output and is left out. -/
def buildWith (sel : Table → Table → Int) (table : Table) (fuel : Nat) :
    Except Fault DecisionTree := do
  let initialTable := table.extractAttrValue
  let root : Node := { treeIndex := some 0 }
  let tree ← runWith (sel initialTable) initialTable fuel initialTable 0 [root]
  .ok { initialTable := initialTable, tree := tree }

/-- Constructor `DecisionTree(table)`, the selection made on exact-real scores. -/
noncomputable def build (table : Table) (fuel : Nat) : Except Fault DecisionTree :=
  buildWith getSelectedAttribute table fuel

/-! ## Traversal as the documentation words it -/

/-- The first child, in `children` order, whose `attrValue` equals `value`. -/
def firstMatchingChild (tree : List Node) (value : String) (children : List Nat) : Option Nat :=
  children.find? (fun c =>
    match tree[c]? with
    | some child => decide (child.attrValue = value)
    | none => false)

/-- `Arrives tree row k L`: starting at node `k` and moving, at each non-leaf node, to the
first child whose `attrValue` equals the row's value for the split attribute, the
traversal arrives at the leaf `L`. -/
inductive Arrives (tree : List Node) (row : Row) : Nat → Nat → Prop
  | leaf {k : Nat} {node : Node} :
      tree[k]? = some node → node.isLeaf = true → Arrives tree row k k
  | step {k c L : Nat} {node : Node} {a : Int} {value : String} :
      tree[k]? = some node → node.isLeaf = false →
      node.criteriaAttrIndex = some a → 0 ≤ a → row[a.toNat]? = some value →
      firstMatchingChild tree value node.children = some c →
      Arrives tree row c L → Arrives tree row k L

/-- All child indices of all nodes are positions of the node vector. -/
def ChildrenInRange (tree : List Node) : Prop :=
  ∀ node ∈ tree, ∀ c ∈ node.children, c < tree.length

/-- `Stuck tree row k`: the traversal from node `k` reaches a non-leaf node none of whose
children has `attrValue` equal to the row's value for the split attribute. -/
inductive Stuck (tree : List Node) (row : Row) : Nat → Prop
  | here {k : Nat} {node : Node} {a : Int} {value : String} :
      tree[k]? = some node → node.isLeaf = false →
      node.criteriaAttrIndex = some a → 0 ≤ a → row[a.toNat]? = some value →
      firstMatchingChild tree value node.children = none → Stuck tree row k
  | step {k c : Nat} {node : Node} {a : Int} {value : String} :
      tree[k]? = some node → node.isLeaf = false →
      node.criteriaAttrIndex = some a → 0 ≤ a → row[a.toNat]? = some value →
      firstMatchingChild tree value node.children = some c →
      Stuck tree row c → Stuck tree row k

/-- Two rows that the attribute `A` separates, one of them labelled with the string that
`guess` returns on failure. -/
def sentinelRows : Table :=
  { attrName := ["A", "L"], data := [["a", "dfs failed"], ["b", "No"]] }

/-- The tree of `sentinelRows`: the root splits on attribute 0 into the leaves `a` and
`b`; the leaf `a` carries the label `dfs failed`. -/
def sampleTree : DecisionTree :=
  { initialTable := sentinelRows.extractAttrValue,
    tree :=
      [ { criteriaAttrIndex := some 0, treeIndex := some 0, children := [1, 2] },
        { attrValue := "a", treeIndex := some 1, isLeaf := true, label := "dfs failed" },
        { attrValue := "b", treeIndex := some 2, isLeaf := true, label := "No" } ] }

end DecisionTree

/-- The keys of a map are strictly increasing. -/
def StrMap.Sorted {α : Type} (m : StrMap α) : Prop :=
  List.Pairwise (fun a b => strLt a b = true) (m.map Prod.fst)

/-- The rows of `data` whose field `a` equals `v`, in their order in `data`. -/
def rowsWith (data : List Row) (a : Nat) (v : String) : List Row :=
  data.filter (fun row => decide (cell row a = v))

/-- The positions, counted from `i`, of the rows whose field `a` equals `v`. -/
def positionsWith (a : Nat) (v : String) : Nat → List Row → List Nat
  | _, [] => []
  | i, row :: rest =>
    if cell row a = v then i :: positionsWith a v (i + 1) rest
    else positionsWith a v (i + 1) rest

/-- The label `table.data.back().back()` that `run` gives to a pure leaf. -/
def lastLabel (table : Table) : Except Fault String := do
  let lastRow ← lastOf table.data
  lastOf lastRow

/-- A node that is not a leaf: split attribute `crit`, incoming value `v`, position `k`,
children `cs`.  The node pushed by `run` for a new child is `splitNode none v k []`. -/
def splitNode (crit : Option Int) (v : String) (k : Nat) (cs : List Nat) : Node :=
  { criteriaAttrIndex := crit, attrValue := v, treeIndex := some k, children := cs }

/-- A leaf without children: incoming value `v`, position `k`, label `label`. -/
def leafNode (crit : Option Int) (v : String) (k : Nat) (label : String) : Node :=
  { criteriaAttrIndex := crit, attrValue := v, treeIndex := some k, isLeaf := true,
    label := label }

/-- `Kids tree P table a majorLabel children values start stop`: the nodes listed in
`children` are the children created, in this order, for the attribute values `values`
when `table` is split on attribute `a`; the subtree of each child occupies a contiguous
block of positions, the blocks follow each other from `start` up to `stop`.  A child for
a value that no row holds is a leaf labelled `majorLabel`; any other child satisfies `P`
for the rows holding the value. -/
inductive Kids (tree : List Node) (P : Table → String → Nat → Nat → Prop) (table : Table)
    (a : Nat) (majorLabel : String) : List Nat → List String → Nat → Nat → Prop
  | nil (stop : Nat) : Kids tree P table a majorLabel [] [] stop stop
  | leaf {c stop : Nat} {v : String} {cs : List Nat} {vs : List String} :
      rowsWith table.data a v = [] →
      tree[c]? = some (leafNode none v c majorLabel) →
      Kids tree P table a majorLabel cs vs (c + 1) stop →
      Kids tree P table a majorLabel (c :: cs) (v :: vs) c stop
  | sub {c mid stop : Nat} {v : String} {cs : List Nat} {vs : List String} :
      rowsWith table.data a v ≠ [] → c < mid →
      P { data := rowsWith table.data a v } v c mid →
      Kids tree P table a majorLabel cs vs mid stop →
      Kids tree P table a majorLabel (c :: cs) (v :: vs) c stop

/-- `NodeShape sel initialTable tree P table v k stop`: node `k` of `tree`, reached through
the attribute value `v`, is what `run` makes of a fresh node for the rows of `table`, and
its subtree occupies the positions from `k` up to `stop`; `P` describes the subtrees of
its children. -/
inductive NodeShape (sel : Table → Int) (initialTable : Table) (tree : List Node)
    (P : Table → String → Nat → Nat → Prop) (table : Table) (v : String) (k stop : Nat) : Prop
  | pureLeaf (label : String) :
      isLeafNode table = true → lastLabel table = .ok label →
      tree[k]? = some (leafNode none v k label) →
      stop = k + 1 → NodeShape sel initialTable tree P table v k stop
  | pruned :
      isLeafNode table = false →
      exceedsThreshold (getMajorityLabel table).2 table.data.length = true →
      tree[k]? = some (leafNode (some (sel table)) v k (getMajorityLabel table).1) →
      stop = k + 1 → NodeShape sel initialTable tree P table v k stop
  | split (domain : List String) (children : List Nat) :
      isLeafNode table = false →
      exceedsThreshold (getMajorityLabel table).2 table.data.length = false →
      0 ≤ sel table → (∀ row ∈ table.data, (sel table).toNat < row.length) →
      vecAtInt initialTable.attrValueList (sel table) = .ok domain →
      tree[k]? = some (splitNode (some (sel table)) v k children) →
      Kids tree P table (sel table).toNat (getMajorityLabel table).1 children domain
        (k + 1) stop →
      NodeShape sel initialTable tree P table v k stop

/-- `Shape sel initialTable tree n table v k stop`: the positions from `k` up to `stop` of
`tree` hold the subtree that `run` builds for the rows of `table` in a fresh node `k`
reached through the value `v`, the subtree having at most `n` levels. -/
def Shape (sel : Table → Int) (initialTable : Table) (tree : List Node) :
    Nat → Table → String → Nat → Nat → Prop
  | 0 => fun _ _ _ _ => False
  | n + 1 => NodeShape sel initialTable tree (Shape sel initialTable tree n)

/-- The children of a node of a built tree are as the data model requires: a node that is
not a leaf has one child per value of its split attribute in the full table, a leaf has
no child. -/
def NodeOK (initialTable : Table) (node : Node) : Prop :=
  (node.isLeaf = false →
    ∃ a domain, node.criteriaAttrIndex = some a ∧
      vecAtInt initialTable.attrValueList a = .ok domain ∧
      node.children.length = domain.length) ∧
  (node.isLeaf = true → node.children = [])

/-- Two rows with the same attribute value and different labels. -/
def clash : Table :=
  { attrName := ["A", "L"], data := [["a", "Yes"], ["a", "No"]] }

/-- Six rows over two attributes: `A` separates the labels partly, `B` alone tells
nothing about the label, and the value `z` of `B` does not occur together with `a` or
`b`. -/
def sixRows : Table :=
  { attrName := ["A", "B", "L"],
    data := [["a", "x", "Yes"], ["a", "y", "No"], ["b", "x", "No"], ["b", "y", "Yes"],
             ["c", "z", "Yes"], ["d", "z", "No"]] }

/-- The tree of `sixRows`. -/
def sixTree : List Node :=
  [splitNode (some 0) "" 0 [1, 5, 9, 10],
   splitNode (some 1) "a" 1 [2, 3, 4],
   leafNode none "x" 2 "Yes", leafNode none "y" 3 "No", leafNode none "z" 4 "Yes",
   splitNode (some 1) "b" 5 [6, 7, 8],
   leafNode none "x" 6 "No", leafNode none "y" 7 "Yes", leafNode none "z" 8 "No",
   leafNode none "c" 9 "Yes", leafNode none "d" 10 "No"]

/-- Five rows, four of them with the majority label. -/
def fourOfFive : Table :=
  { attrName := ["A", "L"],
    data := [["a", "Yes"], ["a", "Yes"], ["a", "Yes"], ["a", "Yes"], ["b", "No"]] }

/-- `SplitsTo sel initialTable table next`: `run`, invoked on `table`, splits the node and
invokes itself on `next`, the rows of `table` holding one of the values of the selected
attribute. -/
inductive SplitsTo (sel : Table → Int) (initialTable : Table) : Table → Table → Prop
  | mk (table : Table) (domain : List String) (v : String) :
      isLeafNode table = false →
      exceedsThreshold (getMajorityLabel table).2 table.data.length = false →
      vecAtInt initialTable.attrValueList (sel table) = .ok domain → v ∈ domain →
      rowsWith table.data (sel table).toNat v ≠ [] →
      SplitsTo sel initialTable table { data := rowsWith table.data (sel table).toNat v }

/-- The tables on which `run` is invoked while the tree of `initialTable` is built: the
subsets of the nodes of the tree. -/
def Visited (sel : Table → Int) (initialTable : Table) (table : Table) : Prop :=
  Relation.ReflTransGen (SplitsTo sel initialTable) initialTable table

/-- Two rows with the same label. -/
def sameLabel : Table :=
  { attrName := ["A", "L"], data := [["a", "Yes"], ["b", "Yes"]] }

/-- Six rows, five of them with the majority label. -/
def fiveOfSix : Table :=
  { attrName := ["A", "L"],
    data := [["a", "Yes"], ["a", "Yes"], ["a", "Yes"], ["a", "Yes"], ["a", "Yes"],
             ["b", "No"]] }

/-- One object of the JSON array returned by `serializeTreeToJson`.  A member that the node
never had assigned is written with whatever value it holds (`none`). -/
structure NodeJson where
  criteriaAttrIndex : Option Int
  attrValue : String
  treeIndex : Option Nat
  isLeaf : Bool
  label : String
  children : List Nat
  deriving DecidableEq, Repr

/-- Method `serializeTreeToJson`, the object `nodeJson` made from one node. -/
def nodeToJson (node : Node) : NodeJson :=
  { criteriaAttrIndex := node.criteriaAttrIndex
    attrValue := node.attrValue
    treeIndex := node.treeIndex
    isLeaf := node.isLeaf
    label := node.label
    children := node.children }

/-- Method `serializeTreeToJson`: the array `treeJson`, one object per node in the order of
the node vector.  (For an empty node vector the source returns the JSON value `null`, not
an empty array; the constructor never leaves the vector empty.) -/
def DecisionTree.serializeTreeToJson (self : DecisionTree) : List NodeJson :=
  self.tree.map nodeToJson

/-- Six rows that only the attribute `B` separates, five of them with the majority
label. -/
def prunedOnB : Table :=
  { attrName := ["A", "B", "L"],
    data := [["a", "x", "Yes"], ["a", "x", "Yes"], ["a", "x", "Yes"], ["a", "x", "Yes"],
             ["a", "x", "Yes"], ["a", "y", "No"]] }

/-- The summand `-1.0 * p * log(p) / log(2)` of `getInfoD` and `getSplitInfoAttrD`. -/
noncomputable def entropyTerm (p : ℝ) : ℝ := -1.0 * p * Real.log p / Real.log 2

/-- Eight rows whose label is determined by the attribute `ID`, which has a value of its
own in every row, while the attribute `B` separates four rows labelled `Yes` from four
rows with both labels. -/
def eightRows : Table :=
  { attrName := ["B", "ID", "L"],
    data := [["p", "1", "Yes"], ["p", "2", "Yes"], ["p", "3", "Yes"], ["p", "4", "Yes"],
             ["q", "5", "Yes"], ["q", "6", "Yes"], ["q", "7", "No"], ["q", "8", "No"]] }

/-- The tree of `eightRows`. -/
def eightTree : List Node :=
  [splitNode (some 0) "" 0 [1, 2],
   leafNode none "p" 1 "Yes",
   splitNode (some 1) "q" 2 [3, 4, 5, 6, 7, 8, 9, 10],
   leafNode none "1" 3 "Yes", leafNode none "2" 4 "Yes", leafNode none "3" 5 "Yes",
   leafNode none "4" 6 "Yes", leafNode none "5" 7 "Yes", leafNode none "6" 8 "Yes",
   leafNode none "7" 9 "No", leafNode none "8" 10 "No"]

/-- The rows of `data` that the traversal of `dfs` takes from the root to node `L`, in
their order in `data`; the fuel covers every path of the node vector. -/
def DecisionTree.rowsReaching (self : DecisionTree) (data : List Row) (L : Nat) : List Row :=
  data.filter (fun row => decide (self.dfs row self.tree.length 0 = .ok (L : Int)))

/-- `Parented tree lo hi c`: among the nodes at the positions from `lo` up to `hi`, exactly
one lists `c` as a child, and it lists `c` once. -/
def Parented (tree : List Node) (lo hi c : Nat) : Prop :=
  ∃ (j : Nat) (node : Node), lo ≤ j ∧ j < hi ∧ tree[j]? = some node ∧
    node.children.count c = 1 ∧
    ∀ (j' : Nat) (node' : Node), lo ≤ j' → j' < hi → tree[j']? = some node' →
      c ∈ node'.children → j' = j

/-- Sixteen rows: `A` separates seven rows labelled `Yes` and one labelled `No` from seven
rows labelled `No` and one labelled `Yes`; within the rows of one value of `A` the
attribute `B` determines the label, while over the whole table `B` tells nothing about
the label. -/
def sixteenRows : Table :=
  { attrName := ["A", "B", "L"],
    data := [["a", "x", "Yes"], ["a", "x", "Yes"], ["a", "x", "Yes"], ["a", "x", "Yes"],
             ["a", "x", "Yes"], ["a", "x", "Yes"], ["a", "x", "Yes"], ["a", "y", "No"],
             ["b", "x", "No"], ["b", "x", "No"], ["b", "x", "No"], ["b", "x", "No"],
             ["b", "x", "No"], ["b", "x", "No"], ["b", "x", "No"], ["b", "y", "Yes"]] }

/-- The tree of `sixteenRows`: both children of the root are pruned to leaves. -/
def sixteenTree : List Node :=
  [splitNode (some 0) "" 0 [1, 2],
   leafNode (some 1) "a" 1 "Yes",
   leafNode (some 1) "b" 2 "No"]

/-! # Properties -/

open DecisionTree

namespace DecisionTree

/-! ## Inference -/

theorem vecAt_of_getElem? {α : Type} {xs : List α} {i : Nat} {x : α} (h : xs[i]? = some x) :
    vecAt xs i = .ok x := by
  simp [vecAt, h]

theorem vecAtInt_of_getElem? {α : Type} {xs : List α} {a : Int} {x : α} (ha : 0 ≤ a)
    (h : xs[a.toNat]? = some x) : vecAtInt xs a = .ok x := by
  have : ¬ a < 0 := by omega
  simp [vecAtInt, this, vecAt, h]

theorem dfsScan_firstMatch (tree : List Node) (row : Row) (a : Int) (value : String)
    (recurse : Nat → Except Fault Int) (hrow : vecAtInt row a = .ok value) :
    ∀ (children : List Nat) (c : Nat), (∀ x ∈ children, x < tree.length) →
      firstMatchingChild tree value children = some c →
      dfsScan tree row a recurse children = recurse c := by
  intro children
  induction children with
  | nil => intro c _ h; simp [firstMatchingChild] at h
  | cons x rest ih =>
    intro c hin h
    have hx : x < tree.length := hin x (by simp)
    have hget : tree[x]? = some tree[x] := List.getElem?_eq_getElem hx
    simp only [firstMatchingChild, List.find?_cons, hget] at h
    by_cases hv : (tree[x]).attrValue = value
    · simp only [hv, decide_True, Option.some.injEq] at h
      subst h
      simp [dfsScan, hrow, vecAt, hget, hv, bind, Except.bind]
    · simp only [hv, decide_False] at h
      have hne : ¬ value = (tree[x]).attrValue := fun e => hv e.symm
      have := ih c (fun y hy => hin y (by simp [hy])) h
      simp [dfsScan, hrow, vecAt, hget, hne, bind, Except.bind, this]

theorem dfs_of_arrives (self : DecisionTree) (row : Row) (hwf : ChildrenInRange self.tree)
    {k L : Nat} (h : Arrives self.tree row k L) :
    ∃ n, ∀ fuel, n ≤ fuel → dfs self row fuel k = .ok (L : Int) := by
  induction h with
  | leaf hk hleaf =>
    refine ⟨1, fun fuel hf => ?_⟩
    obtain ⟨f, rfl⟩ : ∃ f, fuel = f + 1 := ⟨fuel - 1, by omega⟩
    simp [dfs, vecAt, hk, hleaf, bind, Except.bind]
  | step hk hleaf hcrit ha hrow hfirst _ ih =>
    obtain ⟨n, hn⟩ := ih
    refine ⟨n + 1, fun fuel hf => ?_⟩
    obtain ⟨f, rfl⟩ : ∃ f, fuel = f + 1 := ⟨fuel - 1, by omega⟩
    have hscan := dfsScan_firstMatch self.tree row _ _ (dfs self row f)
      (vecAtInt_of_getElem? ha hrow) _ _
      (fun x hx => hwf _ (List.getElem?_mem hk) x hx) hfirst
    simp [dfs, vecAt, hk, hleaf, hcrit, assigned, bind, Except.bind, hscan]
    exact hn f (by omega)

theorem arrives_leaf {tree : List Node} {row : Row} {k L : Nat} (h : Arrives tree row k L) :
    ∃ leaf, tree[L]? = some leaf ∧ leaf.isLeaf = true := by
  induction h with
  | leaf hk hleaf => exact ⟨_, hk, hleaf⟩
  | step _ _ _ _ _ _ _ ih => exact ih

theorem guess_of_dfs_leaf (self : DecisionTree) (row : Row) (fuel L : Nat) (leaf : Node)
    (hd : dfs self row fuel 0 = .ok (L : Int)) (hL : self.tree[L]? = some leaf) :
    guess self row fuel = .ok leaf.label := by
  have h1 : ¬ ((L : Int) = -1) := by omega
  have h2 : ¬ ((L : Int) < 0) := by omega
  simp [guess, hd, bind, Except.bind, h1, vecAtInt, h2, vecAt, hL]

theorem dfsScan_noMatch (tree : List Node) (row : Row) (a : Int) (value : String)
    (recurse : Nat → Except Fault Int) (hrow : vecAtInt row a = .ok value) :
    ∀ (children : List Nat), (∀ x ∈ children, x < tree.length) →
      firstMatchingChild tree value children = none →
      dfsScan tree row a recurse children = .ok (-1) := by
  intro children
  induction children with
  | nil => intro _ _; simp [dfsScan]
  | cons x rest ih =>
    intro hin h
    have hx : x < tree.length := hin x (by simp)
    have hget : tree[x]? = some tree[x] := List.getElem?_eq_getElem hx
    simp only [firstMatchingChild, List.find?_cons, hget] at h
    by_cases hv : (tree[x]).attrValue = value
    · simp [hv] at h
    · simp only [hv, decide_False] at h
      have hne : ¬ value = (tree[x]).attrValue := fun e => hv e.symm
      have := ih (fun y hy => hin y (by simp [hy])) h
      simp [dfsScan, hrow, vecAt, hget, hne, bind, Except.bind, this]

theorem dfs_of_stuck (self : DecisionTree) (row : Row) (hwf : ChildrenInRange self.tree)
    {k : Nat} (h : Stuck self.tree row k) :
    ∃ n, ∀ fuel, n ≤ fuel → dfs self row fuel k = .ok (-1) := by
  induction h with
  | here hk hleaf hcrit ha hrow hnone =>
    refine ⟨1, fun fuel hf => ?_⟩
    obtain ⟨f, rfl⟩ : ∃ f, fuel = f + 1 := ⟨fuel - 1, by omega⟩
    have hscan := dfsScan_noMatch self.tree row _ _ (dfs self row f)
      (vecAtInt_of_getElem? ha hrow) _
      (fun x hx => hwf _ (List.getElem?_mem hk) x hx) hnone
    simp [dfs, vecAt, hk, hleaf, hcrit, assigned, bind, Except.bind, hscan]
  | step hk hleaf hcrit ha hrow hfirst _ ih =>
    obtain ⟨n, hn⟩ := ih
    refine ⟨n + 1, fun fuel hf => ?_⟩
    obtain ⟨f, rfl⟩ : ∃ f, fuel = f + 1 := ⟨fuel - 1, by omega⟩
    have hscan := dfsScan_firstMatch self.tree row _ _ (dfs self row f)
      (vecAtInt_of_getElem? ha hrow) _ _
      (fun x hx => hwf _ (List.getElem?_mem hk) x hx) hfirst
    simp [dfs, vecAt, hk, hleaf, hcrit, assigned, bind, Except.bind, hscan]
    exact hn f (by omega)

theorem guess_of_dfs_fail (self : DecisionTree) (row : Row) (fuel : Nat)
    (hd : dfs self row fuel 0 = .ok (-1)) : guess self row fuel = .ok "dfs failed" := by
  simp [guess, hd, bind, Except.bind]

theorem sampleTree_inRange : ChildrenInRange sampleTree.tree := by
  unfold ChildrenInRange sampleTree
  decide

theorem sampleTree_arrives : Arrives sampleTree.tree ["b", "?"] 0 2 :=
  @Arrives.step sampleTree.tree ["b", "?"] 0 2 2 sampleTree.tree[0] 0 "b" rfl rfl rfl
    (by decide) rfl (by decide)
    (@Arrives.leaf sampleTree.tree ["b", "?"] 2 sampleTree.tree[2] rfl rfl)

theorem sampleTree_stuck : Stuck sampleTree.tree ["z", "?"] 0 :=
  @Stuck.here sampleTree.tree ["z", "?"] 0 sampleTree.tree[0] 0 "z" rfl rfl rfl
    (by decide) rfl (by decide)

end DecisionTree

/-! ## Maps and partitions -/

theorem charsLt_irrefl : ∀ a : List Char, charsLt a a = false := by
  intro a
  induction a with
  | nil => rfl
  | cons x xs ih => simp [charsLt, ih]

theorem charsLt_trans : ∀ a b c : List Char, charsLt a b = true → charsLt b c = true →
    charsLt a c = true := by
  intro a
  induction a with
  | nil =>
    intro b c h1 h2
    cases b with
    | nil => simp [charsLt] at h1
    | cons y ys =>
      cases c with
      | nil => simp [charsLt] at h2
      | cons z zs => simp [charsLt]
  | cons x xs ih =>
    intro b c h1 h2
    cases b with
    | nil => simp [charsLt] at h1
    | cons y ys =>
      cases c with
      | nil => simp [charsLt] at h2
      | cons z zs =>
        simp only [charsLt] at h1 h2 ⊢
        by_cases hxy : x < y
        · by_cases hyz : y < z
          · simp [lt_trans hxy hyz]
          · simp only [hyz, if_false] at h2
            by_cases hzy : z < y
            · simp [hzy] at h2
            · have : y = z := le_antisymm (not_lt.mp hzy) (not_lt.mp hyz)
              subst this
              simp [hxy]
        · simp only [hxy, if_false] at h1
          by_cases hyx : y < x
          · simp [hyx] at h1
          · have : x = y := le_antisymm (not_lt.mp hyx) (not_lt.mp hxy)
            subst this
            simp only [hyx, if_false] at h1
            by_cases hxz : x < z
            · simp [hxz]
            · simp only [hxz, if_false] at h2 ⊢
              by_cases hzx : z < x
              · simp [hzx] at h2
              · simp only [hzx, if_false] at h2 ⊢
                exact ih _ _ h1 h2

theorem charsLt_total : ∀ a b : List Char, charsLt a b = false → a ≠ b → charsLt b a = true := by
  intro a
  induction a with
  | nil =>
    intro b h1 h2
    cases b with
    | nil => exact (h2 rfl).elim
    | cons y ys => simp [charsLt] at h1
  | cons x xs ih =>
    intro b h1 h2
    cases b with
    | nil => simp [charsLt]
    | cons y ys =>
      simp only [charsLt] at h1 ⊢
      by_cases hxy : x < y
      · simp [hxy] at h1
      · simp only [hxy, if_false] at h1 ⊢
        by_cases hyx : y < x
        · simp [hyx]
        · simp only [hyx, if_false] at h1 ⊢
          have : x = y := le_antisymm (not_lt.mp hyx) (not_lt.mp hxy)
          subst this
          exact ih _ h1 (fun e => h2 (by rw [e]))

theorem strLt_irrefl (a : String) : strLt a a = false := charsLt_irrefl _
theorem strLt_trans {a b c : String} (h1 : strLt a b = true) (h2 : strLt b c = true) :
    strLt a c = true := charsLt_trans _ _ _ h1 h2
theorem strLt_total {a b : String} (h1 : strLt a b = false) (h2 : a ≠ b) : strLt b a = true :=
  charsLt_total _ _ h1 (fun e => h2 (String.ext e))
theorem strLt_ne {a b : String} (h : strLt a b = true) : a ≠ b := by
  intro e
  subst e
  rw [strLt_irrefl] at h
  exact Bool.false_ne_true h

namespace StrMap

theorem get_modify_of_ne {α : Type} (m : StrMap α) (k k' : String) (d d' : α) (f : α → α)
    (h : k' ≠ k) : (m.modify k d f).get k' d' = m.get k' d' := by
  induction m with
  | nil => simp [modify, get, h]
  | cons e rest ih =>
    obtain ⟨k1, v1⟩ := e
    simp only [modify]
    split_ifs with h1 h2
    · simp [get, h]
    · subst h2; simp [get, h]
    · simp [get, ih]

theorem get_of_lt_keys {α : Type} (m : StrMap α) (k : String) (d : α)
    (h : ∀ e ∈ m, strLt k e.1 = true) : m.get k d = d := by
  induction m with
  | nil => rfl
  | cons e rest ih =>
    obtain ⟨k1, v1⟩ := e
    have h1 : strLt k k1 = true := h (k1, v1) (by simp)
    have h2 : k ≠ k1 := strLt_ne h1
    simp only [get, h2, if_false]
    exact ih (fun e he => h e (by simp [he]))

theorem get_modify_self {α : Type} (m : StrMap α) (k : String) (d : α) (f : α → α)
    (hs : m.Sorted) : (m.modify k d f).get k d = f (m.get k d) := by
  induction m with
  | nil => simp [modify, get]
  | cons e rest ih =>
    obtain ⟨k1, v1⟩ := e
    have hs' : Sorted rest := (List.pairwise_cons.mp hs).2
    have hk1 : ∀ e ∈ rest, strLt k1 e.1 = true := fun e he =>
      (List.pairwise_cons.mp hs).1 e.1 (List.mem_map_of_mem _ he)
    simp only [modify]
    split_ifs with h1 h2
    · have h3 : k ≠ k1 := strLt_ne h1
      have : get rest k d = d := get_of_lt_keys rest k d (fun e he => strLt_trans h1 (hk1 e he))
      simp [get, h3, this]
    · subst h2; simp [get]
    · simp [get, h2, ih hs']

theorem keys_modify_mem {α : Type} (m : StrMap α) (k : String) (d : α) (f : α → α) (x : String) :
    x ∈ (m.modify k d f).map Prod.fst ↔ x = k ∨ x ∈ m.map Prod.fst := by
  induction m with
  | nil => simp [modify]
  | cons e rest ih =>
    obtain ⟨k1, v1⟩ := e
    simp only [modify]
    split_ifs with h1 h2
    · simp
    · subst h2; simp
    · simp only [List.map_cons, List.mem_cons, ih]
      tauto

theorem sorted_modify {α : Type} (m : StrMap α) (k : String) (d : α) (f : α → α)
    (hs : m.Sorted) : (m.modify k d f).Sorted := by
  induction m with
  | nil => simp [modify, Sorted]
  | cons e rest ih =>
    obtain ⟨k1, v1⟩ := e
    have hs' : Sorted rest := (List.pairwise_cons.mp hs).2
    have hk1 : ∀ x ∈ rest.map Prod.fst, strLt k1 x = true := (List.pairwise_cons.mp hs).1
    simp only [modify]
    split_ifs with h1 h2
    · refine List.pairwise_cons.mpr ⟨?_, hs⟩
      intro x hx
      simp only [List.map_cons, List.mem_cons] at hx
      rcases hx with rfl | hx
      · exact h1
      · exact strLt_trans h1 (hk1 x hx)
    · subst h2
      exact hs
    · refine List.pairwise_cons.mpr ⟨?_, ih hs'⟩
      intro x hx
      rcases (keys_modify_mem rest k d f x).mp hx with rfl | hx
      · exact strLt_total (by simpa using h1) h2
      · exact hk1 x hx

theorem sorted_nil {α : Type} : Sorted ([] : StrMap α) := List.Pairwise.nil

end StrMap

theorem groupRows_sorted (a : Nat) : ∀ (rows : List Row) (i : Nat) (m : StrMap (List Nat)),
    m.Sorted → (groupRows a i rows m).Sorted := by
  intro rows
  induction rows with
  | nil => intro i m hm; exact hm
  | cons row rest ih =>
    intro i m hm
    exact ih (i + 1) _ (StrMap.sorted_modify m _ _ _ hm)

theorem groupRows_get (a : Nat) (v : String) :
    ∀ (rows : List Row) (i : Nat) (m : StrMap (List Nat)), m.Sorted →
      (groupRows a i rows m).get v [] = m.get v [] ++ positionsWith a v i rows := by
  intro rows
  induction rows with
  | nil => intro i m _; simp [groupRows, positionsWith]
  | cons row rest ih =>
    intro i m hm
    simp only [groupRows, positionsWith]
    rw [ih (i + 1) _ (StrMap.sorted_modify m _ _ _ hm)]
    by_cases h : cell row a = v
    · subst h
      simp [StrMap.get_modify_self m _ _ _ hm]
    · have h' : v ≠ cell row a := fun e => h e.symm
      simp [StrMap.get_modify_of_ne m _ _ _ _ _ h', h]

theorem vecAtInt_row_ok {row : Row} {a : Int} {value : String}
    (h : vecAtInt row a = .ok value) :
    0 ≤ a ∧ a.toNat < row.length ∧ value = cell row a.toNat := by
  unfold vecAtInt at h
  split_ifs at h with h0
  unfold vecAt at h
  split at h
  · rename_i x hx
    injection h with h
    subst h
    obtain ⟨hlt, hget⟩ := List.getElem?_eq_some.mp hx
    refine ⟨by omega, hlt, ?_⟩
    simp [cell, List.getD, hx]
  · simp at h

theorem vecAtInt_cell {row : Row} {a : Int} (h0 : 0 ≤ a) (hlt : a.toNat < row.length) :
    vecAtInt row a = .ok (cell row a.toNat) := by
  have : ¬ a < 0 := by omega
  simp [vecAtInt, this, vecAt, cell, List.getD, List.getElem?_eq_getElem hlt]

theorem buildAttrValueMap_ok (a : Int) :
    ∀ (rows : List Row) (i : Nat) (m m' : StrMap (List Nat)),
      buildAttrValueMap a i rows m = .ok m' →
      (∀ row ∈ rows, 0 ≤ a ∧ a.toNat < row.length) ∧ m' = groupRows a.toNat i rows m := by
  intro rows
  induction rows with
  | nil =>
    intro i m m' h
    simp only [buildAttrValueMap] at h
    injection h with h
    simp [groupRows, h]
  | cons row rest ih =>
    intro i m m' h
    simp only [buildAttrValueMap, bind, Except.bind] at h
    split at h
    · simp at h
    · rename_i value hv
      obtain ⟨h0, hlt, rfl⟩ := vecAtInt_row_ok hv
      obtain ⟨h1, h2⟩ := ih _ _ _ h
      refine ⟨?_, ?_⟩
      · intro r hr
        simp only [List.mem_cons] at hr
        rcases hr with rfl | hr
        · exact ⟨h0, hlt⟩
        · exact h1 r hr
      · simpa [groupRows] using h2

theorem buildAttrValueMap_of_valid (a : Int) (h0 : 0 ≤ a) :
    ∀ (rows : List Row) (i : Nat) (m : StrMap (List Nat)),
      (∀ row ∈ rows, a.toNat < row.length) →
      buildAttrValueMap a i rows m = .ok (groupRows a.toNat i rows m) := by
  intro rows
  induction rows with
  | nil => intro i m _; rfl
  | cons row rest ih =>
    intro i m h
    simp only [buildAttrValueMap, bind, Except.bind, vecAtInt_cell h0 (h row (by simp)),
      groupRows]
    exact ih _ _ (fun r hr => h r (by simp [hr]))

theorem getElem?_append_length {α : Type} (pre : List α) (x : α) (rest : List α) :
    (pre ++ x :: rest)[pre.length]? = some x := by
  rw [List.getElem?_append_right (le_refl _)]
  simp

theorem collectRows_positions (a : Nat) (v : String) :
    ∀ (rows pre : List Row),
      collectRows (pre ++ rows) (positionsWith a v pre.length rows) = .ok (rowsWith rows a v) := by
  intro rows
  induction rows with
  | nil => intro pre; simp [positionsWith, collectRows, rowsWith]
  | cons row rest ih =>
    intro pre
    have ih' := ih (pre ++ [row])
    simp only [List.append_assoc, List.singleton_append, List.length_append,
      List.length_singleton] at ih'
    simp only [positionsWith]
    by_cases h : cell row a = v
    · have hget := getElem?_append_length pre row rest
      simp only [h, if_true, collectRows, vecAt, hget, bind, Except.bind, ih', rowsWith,
        List.filter_cons, decide_True]
    · simp [h, ih', rowsWith]

theorem rowsAt_positions (a : Nat) (v : String) :
    ∀ (rows pre : List Row),
      rowsAt (pre ++ rows) (positionsWith a v pre.length rows) = rowsWith rows a v := by
  intro rows
  induction rows with
  | nil => intro pre; simp [positionsWith, rowsAt, rowsWith]
  | cons row rest ih =>
    intro pre
    have ih' := ih (pre ++ [row])
    simp only [List.append_assoc, List.singleton_append, List.length_append,
      List.length_singleton] at ih'
    simp only [positionsWith]
    by_cases h : cell row a = v
    · have hget := getElem?_append_length pre row rest
      have hd : (pre ++ row :: rest).getD pre.length [] = row := by
        rw [List.getD_eq_getElem?_getD, hget]; rfl
      unfold rowsAt at ih' ⊢
      simp only [h, if_true, List.map_cons, hd, ih', rowsWith, List.filter_cons, decide_True]
    · simp [h, ih', rowsWith]

/-- The rows that `run` pushes to `nextTable` for the value `v` are the rows of the
table holding `v`, in order. -/
theorem collectRows_groupRows (data : List Row) (a : Nat) (v : String) :
    collectRows data ((groupRows a 0 data []).get v []) = .ok (rowsWith data a v) := by
  rw [groupRows_get a v data 0 [] StrMap.sorted_nil]
  simpa [StrMap.get] using collectRows_positions a v data []

theorem rowsAt_groupRows (data : List Row) (a : Nat) (v : String) :
    rowsAt data ((groupRows a 0 data []).get v []) = rowsWith data a v := by
  rw [groupRows_get a v data 0 [] StrMap.sorted_nil]
  simpa [StrMap.get] using rowsAt_positions a v data []

/-! ## Shape of the tree built by `run` -/

theorem Kids.start_le {tree : List Node} {P : Table → String → Nat → Nat → Prop}
    {table : Table} {a : Nat} {maj : String} {cs : List Nat} {vs : List String}
    {start stop : Nat} (h : Kids tree P table a maj cs vs start stop) : start ≤ stop := by
  induction h with
  | nil => exact le_refl _
  | leaf _ _ _ ih => omega
  | sub _ hlt _ _ ih => omega

theorem Kids.agree {T1 T2 : List Node} {P1 P2 : Table → String → Nat → Nat → Prop}
    {table : Table} {a : Nat} {maj : String} {cs : List Nat} {vs : List String}
    {start stop : Nat} (h : Kids T1 P1 table a maj cs vs start stop)
    (hagree : ∀ j, start ≤ j → j < stop → T2[j]? = T1[j]?)
    (hP : ∀ t v c mid, start ≤ c → mid ≤ stop → P1 t v c mid → P2 t v c mid) :
    Kids T2 P2 table a maj cs vs start stop := by
  induction h with
  | nil => exact Kids.nil _
  | leaf hrows hnode hrest ih =>
    have hle := hrest.start_le
    refine Kids.leaf hrows ?_ (ih (fun j h1 h2 => hagree j (by omega) h2)
      (fun t v c mid h1 h2 => hP t v c mid (by omega) h2))
    rw [hagree _ (le_refl _) (by omega)]
    exact hnode
  | sub hrows hlt hp hrest ih =>
    have hle := hrest.start_le
    exact Kids.sub hrows hlt (hP _ _ _ _ (le_refl _) hle hp)
      (ih (fun j h1 h2 => hagree j (by omega) h2)
        (fun t v c mid h1 h2 => hP t v c mid (by omega) h2))

theorem Shape.lt_stop {sel : Table → Int} {it : Table} {tree : List Node} :
    ∀ {n : Nat} {table : Table} {v : String} {k stop : Nat},
      Shape sel it tree n table v k stop → k < stop := by
  intro n table v k stop h
  cases n with
  | zero => exact h.elim
  | succ n =>
    cases h with
    | pureLeaf _ _ _ _ hs => omega
    | pruned _ _ _ hs => omega
    | split _ _ _ _ _ _ _ _ hk => have := hk.start_le; omega

theorem Shape.frame {sel : Table → Int} {it : Table} {T1 T2 : List Node} :
    ∀ (n : Nat) {table : Table} {v : String} {k stop : Nat},
      (∀ j, k ≤ j → j < stop → T2[j]? = T1[j]?) →
      Shape sel it T1 n table v k stop → Shape sel it T2 n table v k stop := by
  intro n
  induction n with
  | zero => intro _ _ _ _ _ h; exact h.elim
  | succ n ih =>
    intro table v k stop hagree h
    have hlt := Shape.lt_stop h
    cases h with
    | pureLeaf label h1 h2 h3 h4 =>
      exact NodeShape.pureLeaf label h1 h2 (by rw [hagree k (le_refl _) hlt]; exact h3) h4
    | pruned h1 h2 h3 h4 =>
      exact NodeShape.pruned h1 h2 (by rw [hagree k (le_refl _) hlt]; exact h3) h4
    | split domain children h1 h2 h3 hv h4 h5 h6 =>
      refine NodeShape.split domain children h1 h2 h3 hv h4
        (by rw [hagree k (le_refl _) hlt]; exact h5) ?_
      exact h6.agree (fun j hj1 hj2 => hagree j (by omega) hj2)
        (fun t v c mid hc hmid hp =>
          ih (fun j hj1 hj2 => hagree j (by omega) (by omega)) hp)

theorem runWith_succ (sel : Table → Int) (it : Table) (fuel : Nat) (table : Table) (k : Nat)
    (tree : List Node) :
    runWith sel it (fuel + 1) table k tree =
      if isLeafNode table then
        (lastLabel table).bind (fun label =>
          setNode tree k (fun node => { node with isLeaf := true, label := label }))
      else
        (buildAttrValueMap (sel table) 0 table.data []).bind (fun attrValueMap =>
          (setNode tree k (fun node => { node with criteriaAttrIndex := some (sel table) })).bind
            (fun tree1 =>
              if exceedsThreshold (getMajorityLabel table).2 table.data.length then
                setNode tree1 k
                  (fun node => { node with isLeaf := true, label := (getMajorityLabel table).1 })
              else
                (vecAtInt it.attrValueList (sel table)).bind (fun domain =>
                  domain.foldlM (splitStep (runWith sel it fuel) table attrValueMap k) tree1))) := by
  rw [runWith]
  by_cases h : isLeafNode table = true
  · simp only [h, if_true, lastLabel, bind, Except.bind]
    cases lastOf table.data <;> rfl
  · simp only [h, if_false]
    rfl

theorem splitStep_eq (recurse : Table → Nat → List Node → Except Fault (List Node))
    (table : Table) (m : StrMap (List Nat)) (k : Nat) (tree : List Node) (v : String) :
    splitStep recurse table m k tree v =
      (collectRows table.data (m.get v [])).bind (fun nextData =>
        (setNode tree k (fun node => { node with children := node.children ++ [tree.length] })).bind
          (fun tree1 =>
            if nextData.length = 0 then
              setNode (tree1 ++ [{ attrValue := v, treeIndex := some tree.length }]) tree.length
                (fun _ => { attrValue := v, treeIndex := some tree.length, isLeaf := true,
                            label := (getMajorityLabel table).1 })
            else
              recurse { data := nextData } tree.length
                (tree1 ++ [{ attrValue := v, treeIndex := some tree.length }]))) := by
  rfl

theorem setNode_ok {tree : List Node} {i : Nat} {node : Node} (f : Node → Node)
    (h : tree[i]? = some node) : setNode tree i f = .ok (tree.set i (f node)) := by
  simp [setNode, h]

theorem setNode_inv {tree tree1 : List Node} {i : Nat} {f : Node → Node}
    (h : setNode tree i f = .ok tree1) :
    ∃ node, tree[i]? = some node ∧ tree1 = tree.set i (f node) := by
  unfold setNode at h
  split at h
  · rename_i node hn
    injection h with h
    exact ⟨node, hn, h.symm⟩
  · simp at h

theorem bind_ok_inv {α β : Type} {x : Except Fault α} {f : α → Except Fault β} {b : β}
    (h : x.bind f = .ok b) : ∃ a, x = .ok a ∧ f a = .ok b := by
  cases x with
  | error e => simp [Except.bind] at h
  | ok a => exact ⟨a, rfl, h⟩


theorem isLeafNode_false_length {table : Table} (h : isLeafNode table = false) :
    2 ≤ table.data.length := by
  unfold isLeafNode at h
  split at h
  · simp at h
  · rename_i first rest hd
    cases rest with
    | nil => simp at h
    | cons r rs => simp [hd]

theorem set_splitNode_children (crit : Option Int) (v : String) (k : Nat) (cs : List Nat)
    (c : Nat) :
    (fun node : Node => { node with children := node.children ++ [c] }) (splitNode crit v k cs)
      = splitNode crit v k (cs ++ [c]) := rfl

theorem getElem?_set_append_left (S : List Node) (k : Nat) (x y : Node) (hk : k < S.length) :
    (S.set k x ++ [y])[k]? = some x := by
  rw [List.getElem?_append_left (by simpa using hk)]
  simp [hk]

theorem getElem?_set_append_ne (S : List Node) (k j : Nat) (x y : Node) (hj : j < S.length)
    (hjk : j ≠ k) : (S.set k x ++ [y])[j]? = S[j]? := by
  rw [List.getElem?_append_left (by simpa using hj), List.getElem?_set_ne (fun e => hjk e.symm)]

theorem getElem?_set_append_length (S : List Node) (k : Nat) (x y : Node) :
    (S.set k x ++ [y])[S.length]? = some y := by
  have := getElem?_append_length (S.set k x) y []
  rw [List.length_set] at this
  exact this

theorem splitLoop_shape (sel : Table → Int) (it : Table) (fuel : Nat)
    (ih : ∀ (table : Table) (k : Nat) (T T' : List Node) (v : String),
      T.length = k + 1 → T[k]? = some (splitNode none v k []) →
      runWith sel it fuel table k T = .ok T' →
      (∀ j, j < k → T'[j]? = T[j]?) ∧ Shape sel it T' fuel table v k T'.length)
    (table : Table) (a : Nat) (m : StrMap (List Nat))
    (hm : ∀ v, collectRows table.data (m.get v []) = .ok (rowsWith table.data a v))
    (k : Nat) (vk : String) (crit : Option Int) :
    ∀ (vs : List String) (S T' : List Node) (cs0 : List Nat),
      k < S.length → S[k]? = some (splitNode crit vk k cs0) →
      vs.foldlM (splitStep (runWith sel it fuel) table m k) S = .ok T' →
      ∃ cs, T'[k]? = some (splitNode crit vk k (cs0 ++ cs)) ∧
        (∀ j, j < S.length → j ≠ k → T'[j]? = S[j]?) ∧
        Kids T' (Shape sel it T' fuel) table a (getMajorityLabel table).1 cs vs
          S.length T'.length := by
  intro vs
  induction vs with
  | nil =>
    intro S T' cs0 hk hS h
    simp only [List.foldlM_nil, pure, Except.pure] at h
    injection h with h
    subst h
    exact ⟨[], by simp [hS], fun _ _ _ => rfl, Kids.nil _⟩
  | cons v1 rest ihv =>
    intro S T' cs0 hk hS h
    simp only [List.foldlM_cons] at h
    obtain ⟨S1, hstep, hrest⟩ := bind_ok_inv h
    rw [splitStep_eq, hm v1] at hstep
    simp only [Except.bind, setNode_ok _ hS, set_splitNode_children] at hstep
    by_cases hempty : (rowsWith table.data a v1).length = 0
    · simp only [hempty, if_true] at hstep
      obtain ⟨node, _, hS1⟩ := setNode_inv hstep
      have hlen1 : S1.length = S.length + 1 := by simp [hS1]
      have hS1k : S1[k]? = some (splitNode crit vk k (cs0 ++ [S.length])) := by
        rw [hS1, List.getElem?_set_ne (by omega), getElem?_set_append_left _ _ _ _ hk]
      have hS1c : S1[S.length]? = some (leafNode none v1 S.length (getMajorityLabel table).1) := by
        rw [hS1]
        simp [leafNode]
      have hS1frame : ∀ j, j < S.length → j ≠ k → S1[j]? = S[j]? := by
        intro j hj hjk
        rw [hS1, List.getElem?_set_ne (by omega), getElem?_set_append_ne _ _ _ _ _ hj hjk]
      obtain ⟨cs', hT'k, hframe, hkids⟩ := ihv S1 T' (cs0 ++ [S.length]) (by omega) hS1k hrest
      refine ⟨S.length :: cs', by simpa using hT'k, ?_, ?_⟩
      · intro j hj hjk
        rw [hframe j (by omega) hjk, hS1frame j hj hjk]
      · refine Kids.leaf (List.length_eq_zero.mp hempty) ?_ (by rw [← hlen1]; exact hkids)
        rw [hframe _ (by omega) (by omega), hS1c]
    · simp only [hempty, if_false] at hstep
      obtain ⟨hpre, hshape⟩ := ih _ _ _ _ v1 (by simp)
        (getElem?_set_append_length S k _ _) hstep
      have hlt := Shape.lt_stop hshape
      have hS1k : S1[k]? = some (splitNode crit vk k (cs0 ++ [S.length])) := by
        rw [hpre k hk, getElem?_set_append_left _ _ _ _ hk]
      have hS1frame : ∀ j, j < S.length → j ≠ k → S1[j]? = S[j]? := by
        intro j hj hjk
        rw [hpre j hj, getElem?_set_append_ne _ _ _ _ _ hj hjk]
      obtain ⟨cs', hT'k, hframe, hkids⟩ := ihv S1 T' (cs0 ++ [S.length]) (by omega) hS1k hrest
      refine ⟨S.length :: cs', by simpa using hT'k, ?_, ?_⟩
      · intro j hj hjk
        rw [hframe j (by omega) hjk, hS1frame j hj hjk]
      · refine Kids.sub (fun e => hempty (by simp [e])) hlt ?_ hkids
        exact Shape.frame fuel (fun j hj1 hj2 => hframe j hj2 (by omega)) hshape

theorem runWith_shape (sel : Table → Int) (it : Table) :
    ∀ (fuel : Nat) (table : Table) (k : Nat) (T T' : List Node) (v : String),
      T.length = k + 1 → T[k]? = some (splitNode none v k []) →
      runWith sel it fuel table k T = .ok T' →
      (∀ j, j < k → T'[j]? = T[j]?) ∧ Shape sel it T' fuel table v k T'.length := by
  intro fuel
  induction fuel with
  | zero => intro table k T T' v _ _ h; simp [runWith] at h
  | succ fuel ih =>
    intro table k T T' v hlen hfresh h
    rw [runWith_succ] at h
    by_cases hleaf : isLeafNode table = true
    · simp only [hleaf, if_true] at h
      obtain ⟨label, hlabel, hset⟩ := bind_ok_inv h
      rw [setNode_ok _ hfresh] at hset
      injection hset with hset
      subst hset
      refine ⟨fun j hj => List.getElem?_set_ne (by omega), ?_⟩
      refine NodeShape.pureLeaf label hleaf hlabel ?_ (by simp [hlen])
      simp [hlen, splitNode, leafNode]
    · simp only [hleaf, if_false] at h
      have hleaf' : isLeafNode table = false := by simpa using hleaf
      obtain ⟨m, hm, h⟩ := bind_ok_inv h
      obtain ⟨hvalid, rfl⟩ := buildAttrValueMap_ok _ _ _ _ _ hm
      have h2 := isLeafNode_false_length hleaf'
      obtain ⟨row0, hrow0⟩ : ∃ row, row ∈ table.data := by
        cases hd : table.data with
        | nil => simp [hd] at h2
        | cons r rs => exact ⟨r, by simp⟩
      have h0 : 0 ≤ sel table := (hvalid row0 hrow0).1
      rw [setNode_ok _ hfresh] at h
      simp only [Except.bind] at h
      have hT1k : (T.set k (splitNode (some (sel table)) v k []))[k]? =
          some (splitNode (some (sel table)) v k []) := by
        simp [hlen]
      change (if exceedsThreshold (getMajorityLabel table).2 table.data.length = true then
          setNode (T.set k (splitNode (some (sel table)) v k [])) k _
        else _) = _ at h
      by_cases hex : exceedsThreshold (getMajorityLabel table).2 table.data.length = true
      · rw [if_pos hex, setNode_ok _ hT1k] at h
        injection h with h
        subst h
        refine ⟨fun j hj => ?_, ?_⟩
        · rw [List.getElem?_set_ne (by omega), List.getElem?_set_ne (by omega)]
        · refine NodeShape.pruned hleaf' hex ?_ (by simp [hlen])
          simp [hlen, splitNode, leafNode]
      · rw [if_neg hex] at h
        have hex' : exceedsThreshold (getMajorityLabel table).2 table.data.length = false := by
          simpa using hex
        obtain ⟨domain, hdom, h⟩ := bind_ok_inv h
        · obtain ⟨cs, hT'k, hframe, hkids⟩ :=
            splitLoop_shape sel it fuel ih table (sel table).toNat _
              (fun w => collectRows_groupRows table.data _ w) k v (some (sel table))
              domain _ T' [] (by simp [hlen]) hT1k h
          refine ⟨fun j hj => ?_, ?_⟩
          · rw [hframe j (by simp [hlen]; omega) (by omega), List.getElem?_set_ne (by omega)]
          · refine NodeShape.split domain cs hleaf' hex' h0 (fun r hr => (hvalid r hr).2) hdom
              (by simpa using hT'k) ?_
            simpa [hlen] using hkids

theorem Kids.length_eq {tree : List Node} {P : Table → String → Nat → Nat → Prop}
    {table : Table} {a : Nat} {maj : String} {cs : List Nat} {vs : List String}
    {start stop : Nat} (h : Kids tree P table a maj cs vs start stop) :
    cs.length = vs.length := by
  induction h with
  | nil => rfl
  | leaf _ _ _ ih => simp [ih]
  | sub _ _ _ _ ih => simp [ih]

theorem Shape.node_at {sel : Table → Int} {it : Table} {tree : List Node} {n : Nat}
    {table : Table} {v : String} {k stop : Nat} (h : Shape sel it tree n table v k stop) :
    ∃ node, tree[k]? = some node ∧ node.attrValue = v ∧ node.treeIndex = some k := by
  cases n with
  | zero => exact h.elim
  | succ n =>
    cases h with
    | pureLeaf _ _ _ h3 _ => exact ⟨_, h3, rfl, rfl⟩
    | pruned _ _ h3 _ => exact ⟨_, h3, rfl, rfl⟩
    | split _ _ _ _ _ _ _ h5 _ => exact ⟨_, h5, rfl, rfl⟩

/-- The `i`-th child of a split node: the leaf of an empty partition, or the root of the
subtree built for the rows holding the `i`-th value. -/
theorem Kids.child_at {tree : List Node} {P : Table → String → Nat → Nat → Prop}
    {table : Table} {a : Nat} {maj : String} {cs : List Nat} {vs : List String}
    {start stop : Nat} (h : Kids tree P table a maj cs vs start stop) :
    ∀ (i : Nat) (v : String), vs[i]? = some v →
      ∃ c, cs[i]? = some c ∧ start ≤ c ∧ c < stop ∧
        (rowsWith table.data a v = [] → tree[c]? = some (leafNode none v c maj)) ∧
        (rowsWith table.data a v ≠ [] →
          ∃ mid, c < mid ∧ mid ≤ stop ∧ P { data := rowsWith table.data a v } v c mid) := by
  induction h with
  | nil => intro i v hv; simp at hv
  | leaf hrows hnode hrest ih =>
    intro i v hv
    have hle := hrest.start_le
    cases i with
    | zero =>
      simp only [List.getElem?_cons_zero, Option.some.injEq] at hv
      subst hv
      exact ⟨_, List.getElem?_cons_zero, le_refl _, by omega, fun _ => hnode,
        fun hne => (hne hrows).elim⟩
    | succ i =>
      simp only [List.getElem?_cons_succ] at hv
      obtain ⟨c, h1, h2, h3, h4, h5⟩ := ih i v hv
      exact ⟨c, by simpa using h1, by omega, h3, h4, h5⟩
  | sub hrows hlt hp hrest ih =>
    intro i v hv
    have hle := hrest.start_le
    cases i with
    | zero =>
      simp only [List.getElem?_cons_zero, Option.some.injEq] at hv
      subst hv
      exact ⟨_, List.getElem?_cons_zero, le_refl _, by omega, fun he => (hrows he).elim,
        fun _ => ⟨_, hlt, hle, hp⟩⟩
    | succ i =>
      simp only [List.getElem?_cons_succ] at hv
      obtain ⟨c, h1, h2, h3, h4, h5⟩ := ih i v hv
      exact ⟨c, by simpa using h1, by omega, h3, h4, h5⟩

theorem Kids.all_nodes_ok {it : Table} {tree : List Node} {P : Table → String → Nat → Nat → Prop}
    {table : Table} {a : Nat} {maj : String} {cs : List Nat} {vs : List String}
    {start stop : Nat} (h : Kids tree P table a maj cs vs start stop)
    (hP : ∀ t v c mid, P t v c mid →
      ∀ j, c ≤ j → j < mid → ∃ node, tree[j]? = some node ∧ NodeOK it node) :
    ∀ j, start ≤ j → j < stop → ∃ node, tree[j]? = some node ∧ NodeOK it node := by
  induction h with
  | nil => intro j h1 h2; omega
  | @leaf c stop v cs vs hrows hnode hrest ih =>
    intro j h1 h2
    by_cases hj : j = c
    · subst hj
      exact ⟨_, hnode, by simp [NodeOK, leafNode]⟩
    · exact ih j (by omega) h2
  | @sub c mid stop v cs vs hrows hlt hp hrest ih =>
    intro j h1 h2
    by_cases hj : j < mid
    · exact hP _ _ _ _ hp j h1 hj
    · exact ih j (by omega) h2

theorem Shape.nodes_ok {sel : Table → Int} {it : Table} {tree : List Node} :
    ∀ (n : Nat) {table : Table} {v : String} {k stop : Nat},
      Shape sel it tree n table v k stop →
      ∀ j, k ≤ j → j < stop → ∃ node, tree[j]? = some node ∧ NodeOK it node := by
  intro n
  induction n with
  | zero => intro _ _ _ _ h; exact h.elim
  | succ n ih =>
    intro table v k stop h j h1 h2
    cases h with
    | pureLeaf label _ _ h3 h4 =>
      have : j = k := by omega
      subst this
      exact ⟨_, h3, by simp [NodeOK, leafNode]⟩
    | pruned _ _ h3 h4 =>
      have : j = k := by omega
      subst this
      exact ⟨_, h3, by simp [NodeOK, leafNode]⟩
    | split domain children _ _ _ _ hdom h5 hkids =>
      by_cases hj : j = k
      · subst hj
        refine ⟨_, h5, ?_, ?_⟩
        · intro _
          exact ⟨_, domain, rfl, hdom, hkids.length_eq⟩
        · intro hl
          simp [splitNode] at hl
      · exact hkids.all_nodes_ok (fun t v c mid hp => ih hp) j (by omega) h2

theorem buildWith_inv {sel : Table → Table → Int} {table : Table} {fuel : Nat}
    {dt : DecisionTree} (h : buildWith sel table fuel = .ok dt) :
    dt.initialTable = table.extractAttrValue ∧
    runWith (sel table.extractAttrValue) table.extractAttrValue fuel table.extractAttrValue 0
      [splitNode none "" 0 []] = .ok dt.tree := by
  unfold buildWith at h
  obtain ⟨tree, h1, h2⟩ := bind_ok_inv h
  injection h2 with h2
  subst h2
  exact ⟨rfl, h1⟩

theorem buildWith_shape {sel : Table → Table → Int} {table : Table} {fuel : Nat}
    {dt : DecisionTree} (h : buildWith sel table fuel = .ok dt) :
    Shape (sel dt.initialTable) dt.initialTable dt.tree fuel dt.initialTable "" 0
      dt.tree.length := by
  obtain ⟨h1, h2⟩ := buildWith_inv h
  rw [h1]
  exact (runWith_shape _ _ fuel _ 0 [splitNode none "" 0 []] _ "" rfl rfl h2).2

theorem isLeafNode_iff (t : Table) :
    isLeafNode t = true ↔ ∀ row ∈ t.data, back row = back (t.data.headD []) := by
  unfold isLeafNode
  cases hd : t.data with
  | nil => simp
  | cons first rest =>
    simp only [List.all_eq_true, decide_eq_true_eq, List.headD_cons, List.mem_cons,
      forall_eq_or_imp, true_and]
    constructor
    · intro h row hr
      exact (h row hr).symm
    · intro h row hr
      exact (h row hr).symm

theorem back_of_getLast? {row : Row} {c : String} (h : row.getLast? = some c) : back row = c := by
  unfold back
  rw [List.getLastD_eq_getLast?, h]
  rfl

theorem lastLabel_of_rows {table : Table} {c : String} (hne : table.data ≠ [])
    (hrows : ∀ row ∈ table.data, row.getLast? = some c) : lastLabel table = .ok c := by
  obtain ⟨r, hr⟩ : ∃ r, table.data.getLast? = some r := by
    cases h : table.data.getLast? with
    | none => exact (hne (List.getLast?_eq_none_iff.mp h)).elim
    | some r => exact ⟨r, rfl⟩
  have hmem : r ∈ table.data := List.mem_of_getLast?_eq_some hr
  simp [lastLabel, lastOf, hr, hrows r hmem, bind, Except.bind]

/-! ## Attribute selection -/

theorem Dbl.lt_irrefl (a : Dbl) : ¬ Dbl.lt a a := by
  cases a <;> simp [Dbl.lt]

theorem Dbl.lt_trans {a b c : Dbl} (h1 : Dbl.lt a b) (h2 : Dbl.lt b c) : Dbl.lt a c := by
  cases a <;> cases b <;> cases c <;> simp_all [Dbl.lt]
  exact gt_trans h2 h1

theorem Dbl.not_lt_nan (a : Dbl) : ¬ Dbl.lt a Dbl.nan := by
  cases a <;> simp [Dbl.lt]

/-- Result of the selection loop: the state is either unchanged, or it holds the first
position of the list whose ratio is the largest one. -/
theorem selectLoop_spec (ratio : Nat → Dbl) :
    ∀ (is : List Nat) (st : Int × Dbl), List.Pairwise (fun a b => a < b) is →
      (selectLoop ratio is st = st ∨
        ∃ i ∈ is, selectLoop ratio is st = ((i : Int), ratio i) ∧
          Dbl.lt st.2 (ratio i)) ∧
      (∀ i ∈ is, ¬ Dbl.lt (selectLoop ratio is st).2 (ratio i)) ∧
      ((selectLoop ratio is st).2 = st.2 ∨ Dbl.lt st.2 (selectLoop ratio is st).2) ∧
      (∀ j ∈ is, (j : Int) < (selectLoop ratio is st).1 → selectLoop ratio is st ≠ st →
        ratio j ≠ (selectLoop ratio is st).2) := by
  intro is
  induction is with
  | nil => intro st _; simp [selectLoop]
  | cons i rest ih =>
    intro st hsorted
    have hrest : List.Pairwise (fun a b => a < b) rest := (List.pairwise_cons.mp hsorted).2
    have hi : ∀ j ∈ rest, i < j := (List.pairwise_cons.mp hsorted).1
    by_cases hlt : Dbl.lt st.2 (ratio i)
    · have hstep : selectLoop ratio (i :: rest) st
          = selectLoop ratio rest ((i : Int), ratio i) := by
        simp [selectLoop, hlt]
      rw [hstep]
      obtain ⟨h1, h2, h3, h4⟩ := ih ((i : Int), ratio i) hrest
      have hmono : Dbl.lt st.2 (selectLoop ratio rest ((i : Int), ratio i)).2 := by
        rcases h3 with h3 | h3
        · rw [h3]; exact hlt
        · exact Dbl.lt_trans hlt h3
      refine ⟨Or.inr ?_, ?_, Or.inr hmono, ?_⟩
      · rcases h1 with h1 | ⟨i', hi', h1, h1'⟩
        · exact ⟨i, by simp, h1, hlt⟩
        · exact ⟨i', by simp [hi'], h1, Dbl.lt_trans hlt h1'⟩
      · intro j hj
        simp only [List.mem_cons] at hj
        rcases hj with rfl | hj
        · rcases h3 with h3 | h3
          · rw [h3]; exact Dbl.lt_irrefl _
          · intro h; exact Dbl.lt_irrefl _ (Dbl.lt_trans h3 h)
        · exact h2 j hj
      · intro j hj hjlt _
        simp only [List.mem_cons] at hj
        rcases hj with rfl | hj
        · rcases h1 with h1 | ⟨i', hi', h1, h1'⟩
          · rw [h1] at hjlt; simp at hjlt
          · rw [h1]
            intro e
            simp only at e
            rw [e] at h1'
            exact Dbl.lt_irrefl _ h1'
        · by_cases hne : selectLoop ratio rest ((i : Int), ratio i)
              = ((i : Int), ratio i)
          · rw [hne] at hjlt
            have := hi j hj
            simp only at hjlt
            omega
          · exact h4 j hj hjlt hne
    · have hstep : selectLoop ratio (i :: rest) st = selectLoop ratio rest st := by
        simp [selectLoop, hlt]
      rw [hstep]
      obtain ⟨h1, h2, h3, h4⟩ := ih st hrest
      refine ⟨?_, ?_, h3, ?_⟩
      · rcases h1 with h1 | ⟨i', hi', h1, h1'⟩
        · exact Or.inl h1
        · exact Or.inr ⟨i', by simp [hi'], h1, h1'⟩
      · intro j hj
        simp only [List.mem_cons] at hj
        rcases hj with rfl | hj
        · rcases h3 with h3 | h3
          · rw [h3]; exact hlt
          · intro h; exact hlt (Dbl.lt_trans h3 h)
        · exact h2 j hj
      · intro j hj hjlt hne
        simp only [List.mem_cons] at hj
        rcases hj with rfl | hj
        · rcases h1 with h1 | ⟨i', hi', h1, h1'⟩
          · exact (hne h1).elim
          · rw [h1]
            intro e
            simp only at e
            rw [← e] at h1'
            exact hlt h1'
        · exact h4 j hj hjlt hne


theorem selectLoop_range_spec (ratio : Nat → Dbl) (n : Nat) :
    (selectLoop ratio (List.range n) (-1, Dbl.fin 0.0) = (-1, Dbl.fin 0.0) ∨
      ∃ i, i < n ∧
        selectLoop ratio (List.range n) (-1, Dbl.fin 0.0) = ((i : Int), ratio i) ∧
        Dbl.lt (Dbl.fin 0) (ratio i) ∧
        (∀ j, j < i → ratio j ≠ ratio i)) ∧
    (∀ i, i < n →
      ¬ Dbl.lt (selectLoop ratio (List.range n) (-1, Dbl.fin 0.0)).2 (ratio i)) := by
  have hsorted : List.Pairwise (fun a b => a < b) (List.range n) := List.pairwise_lt_range n
  have hz : (0.0 : ℝ) = 0 := by norm_num
  obtain ⟨h1, h2, _, h4⟩ := selectLoop_spec ratio (List.range n) (-1, Dbl.fin 0.0) hsorted
  refine ⟨?_, fun i hi => h2 i (List.mem_range.mpr hi)⟩
  rcases h1 with h1 | ⟨i, hi, h1, h1'⟩
  · exact Or.inl h1
  · refine Or.inr ⟨i, List.mem_range.mp hi, h1, by simpa [hz] using h1', ?_⟩
    intro j hj
    have := h4 j (List.mem_range.mpr (lt_trans hj (List.mem_range.mp hi)))
    rw [h1] at this
    refine this (by simpa using hj) ?_
    intro e
    have := congrArg Prod.fst e
    simp only at this
    omega

theorem sizeMinusOne_of_ne {n : Nat} (h : n ≠ 0) : sizeMinusOne n = n - 1 := by
  simp [sizeMinusOne, h]

/-- The two outcomes of the loop of `getSelectedAttribute`, whatever the gain ratios. -/
theorem getSelectedAttributeWith_cases (gainRatio : Table → Nat → Dbl)
    (initialTable table : Table) :
    (getSelectedAttributeWith gainRatio initialTable table = -1 ∧
      ∀ i, i < sizeMinusOne initialTable.attrName.length →
        ¬ Dbl.lt (Dbl.fin 0) (gainRatio table i)) ∨
    ∃ i, i < sizeMinusOne initialTable.attrName.length ∧
      getSelectedAttributeWith gainRatio initialTable table = (i : Int) ∧
      Dbl.lt (Dbl.fin 0) (gainRatio table i) ∧
      (∀ j, j < sizeMinusOne initialTable.attrName.length →
        ¬ Dbl.lt (gainRatio table i) (gainRatio table j)) ∧
      (∀ j, j < i → gainRatio table j ≠ gainRatio table i) := by
  have hz : (0.0 : ℝ) = 0 := by norm_num
  obtain ⟨h1, h2⟩ := selectLoop_range_spec (gainRatio table)
    (sizeMinusOne initialTable.attrName.length)
  unfold getSelectedAttributeWith
  rcases h1 with h1 | ⟨i, hi, h1, hpos, hfirst⟩
  · left
    rw [h1] at h2 ⊢
    exact ⟨rfl, fun i hi => by simpa [hz] using h2 i hi⟩
  · right
    rw [h1] at h2 ⊢
    exact ⟨i, hi, rfl, hpos, h2, hfirst⟩

/-- The two outcomes of the loop of `getSelectedAttribute` for a header that is not
empty. -/
theorem getSelectedAttributeWith_cases_of_header (gainRatio : Table → Nat → Dbl)
    (initialTable table : Table) (hattr : initialTable.attrName ≠ []) :
    (getSelectedAttributeWith gainRatio initialTable table = -1 ∧
      ∀ i, i < initialTable.attrName.length - 1 →
        ¬ Dbl.lt (Dbl.fin 0) (gainRatio table i)) ∨
    ∃ i, i < initialTable.attrName.length - 1 ∧
      getSelectedAttributeWith gainRatio initialTable table = (i : Int) ∧
      Dbl.lt (Dbl.fin 0) (gainRatio table i) ∧
      (∀ j, j < initialTable.attrName.length - 1 →
        ¬ Dbl.lt (gainRatio table i) (gainRatio table j)) ∧
      (∀ j, j < i → gainRatio table j ≠ gainRatio table i) := by
  have hn : initialTable.attrName.length ≠ 0 := fun e => hattr (List.length_eq_zero.mp e)
  have h := getSelectedAttributeWith_cases gainRatio initialTable table
  rw [sizeMinusOne_of_ne hn] at h
  exact h

theorem getSelectedAttribute_cases (initialTable table : Table)
    (hattr : initialTable.attrName ≠ []) :
    (getSelectedAttribute initialTable table = -1 ∧
      ∀ i, i < initialTable.attrName.length - 1 →
        ¬ Dbl.lt (Dbl.fin 0) (getGainRatio table i)) ∨
    ∃ i, i < initialTable.attrName.length - 1 ∧
      getSelectedAttribute initialTable table = (i : Int) ∧
      Dbl.lt (Dbl.fin 0) (getGainRatio table i) ∧
      (∀ j, j < initialTable.attrName.length - 1 →
        ¬ Dbl.lt (getGainRatio table i) (getGainRatio table j)) ∧
      (∀ j, j < i → getGainRatio table j ≠ getGainRatio table i) :=
  getSelectedAttributeWith_cases_of_header getGainRatio initialTable table hattr

/-- A selected attribute has a positive gain ratio, whatever the header. -/
theorem getSelectedAttribute_pos (initialTable table : Table) (i : Nat)
    (h : getSelectedAttribute initialTable table = (i : Int)) :
    Dbl.lt (Dbl.fin 0) (getGainRatio table i) := by
  rcases getSelectedAttributeWith_cases getGainRatio initialTable table with
    ⟨h1, _⟩ | ⟨j, _, hj, hp, _, _⟩
  · have : getSelectedAttribute initialTable table = -1 := h1
    rw [this] at h
    omega
  · have hj' : getSelectedAttribute initialTable table = (j : Int) := hj
    rw [hj'] at h
    have : j = i := by omega
    subst this
    exact hp

/-! ## An attribute with a single observed value -/

theorem groupRows_const (a : Nat) (v : String) :
    ∀ (rows : List Row) (i : Nat) (l : List Nat), (∀ row ∈ rows, cell row a = v) →
      groupRows a i rows [(v, l)] = [(v, l ++ List.range' i rows.length)] := by
  intro rows
  induction rows with
  | nil => intro i l _; simp [groupRows]
  | cons row rest ih =>
    intro i l h
    have hrow : cell row a = v := h row (by simp)
    have hstep : StrMap.modify [(v, l)] (cell row a) [] (fun x => x ++ [i]) = [(v, l ++ [i])] := by
      simp [StrMap.modify, hrow, strLt_irrefl]
    simp only [groupRows, hstep]
    rw [ih (i + 1) (l ++ [i]) (fun r hr => h r (by simp [hr]))]
    simp [List.range'_succ]

theorem groupRows_single (a : Nat) (v : String) (data : List Row) (hne : data ≠ [])
    (h : ∀ row ∈ data, cell row a = v) :
    groupRows a 0 data [] = [(v, List.range' 0 data.length)] := by
  cases data with
  | nil => exact (hne rfl).elim
  | cons row rest =>
    have hrow : cell row a = v := h row (by simp)
    have hstep : StrMap.modify ([] : StrMap (List Nat)) (cell row a) [] (fun x => x ++ [0])
        = [(v, [0])] := by
      simp [StrMap.modify, hrow]
    simp only [groupRows, hstep]
    rw [groupRows_const a v rest 1 [0] (fun r hr => h r (by simp [hr]))]
    simp [List.range'_succ]

theorem rowsAt_range' : ∀ (rows pre : List Row),
    rowsAt (pre ++ rows) (List.range' pre.length rows.length) = rows := by
  intro rows
  induction rows with
  | nil => intro pre; simp [rowsAt]
  | cons row rest ih =>
    intro pre
    have ih' := ih (pre ++ [row])
    simp only [List.append_assoc, List.singleton_append, List.length_append,
      List.length_singleton] at ih'
    have hd : (pre ++ row :: rest).getD pre.length [] = row := by
      rw [List.getD_eq_getElem?_getD, getElem?_append_length]; rfl
    unfold rowsAt at ih' ⊢
    simp only [List.length_cons, List.range'_succ, List.map_cons, hd, ih']

theorem rowsAt_all (data : List Row) : rowsAt data (List.range' 0 data.length) = data := by
  simpa using rowsAt_range' data []

theorem getInfoD_data (table : Table) : getInfoD { data := table.data } = getInfoD table := rfl

theorem getSplitInfoAttrD_single (table : Table) (a : Nat) (v : String)
    (hne : table.data ≠ []) (h : ∀ row ∈ table.data, cell row a = v) :
    getSplitInfoAttrD table a = 0 := by
  have hlen : (table.data.length : ℝ) ≠ 0 := by
    simpa using hne
  unfold getSplitInfoAttrD
  rw [groupRows_single a v table.data hne h]
  simp [rowsAt_all, hlen]
  norm_num

theorem getInfoAttrD_single (table : Table) (a : Nat) (v : String)
    (hne : table.data ≠ []) (h : ∀ row ∈ table.data, cell row a = v) :
    getInfoAttrD table a = getInfoD table := by
  have hlen : (table.data.length : ℝ) ≠ 0 := by
    simpa using hne
  unfold getInfoAttrD
  rw [groupRows_single a v table.data hne h]
  simp [rowsAt_all, hlen, getInfoD_data]
  norm_num

theorem getGainRatio_single (table : Table) (a : Nat) (v : String)
    (hne : table.data ≠ []) (h : ∀ row ∈ table.data, cell row a = v) :
    getGainRatio table a = Dbl.nan := by
  unfold getGainRatio getGain
  rw [getSplitInfoAttrD_single table a v hne h, getInfoAttrD_single table a v hne h]
  simp [Dbl.div]

/-! ## Signs of the scores -/

theorem log_two_pos : 0 < Real.log 2 := Real.log_pos (by norm_num)

theorem entropyTerm_nonneg (d : ℝ) (h0 : 0 ≤ d) (h1 : d ≤ 1) :
    0 ≤ -1.0 * d * Real.log d / Real.log 2 := by
  have hlog : Real.log d ≤ 0 := Real.log_nonpos h0 h1
  have : 0 ≤ -1.0 * d * Real.log d := by
    have : -1.0 * d * Real.log d = d * (- Real.log d) := by norm_num
    rw [this]
    exact mul_nonneg h0 (by linarith)
  exact div_nonneg this (le_of_lt log_two_pos)

theorem entropyTerm_pos (d : ℝ) (h0 : 0 < d) (h1 : d < 1) :
    0 < -1.0 * d * Real.log d / Real.log 2 := by
  have hlog : Real.log d < 0 := Real.log_neg h0 h1
  have : 0 < -1.0 * d * Real.log d := by
    have : -1.0 * d * Real.log d = d * (- Real.log d) := by norm_num
    rw [this]
    exact mul_pos h0 (by linarith)
  exact div_pos this log_two_pos

theorem foldl_add_nonneg {α : Type} (f : α → ℝ) :
    ∀ (l : List α) (init : ℝ), (∀ e ∈ l, 0 ≤ f e) →
      init ≤ l.foldl (fun ret e => ret + f e) init := by
  intro l
  induction l with
  | nil => intro init _; exact le_refl _
  | cons x xs ih =>
    intro init h
    simp only [List.foldl_cons]
    have h1 := ih (init + f x) (fun e he => h e (by simp [he]))
    have h2 := h x (by simp)
    linarith

theorem StrMap.get_of_mem {α : Type} (m : StrMap α) (hs : m.Sorted) (k : String) (v d : α)
    (h : (k, v) ∈ m) : m.get k d = v := by
  induction m with
  | nil => simp at h
  | cons e rest ih =>
    obtain ⟨k1, v1⟩ := e
    have hs' : StrMap.Sorted rest := (List.pairwise_cons.mp hs).2
    have hk1 : ∀ x ∈ rest.map Prod.fst, strLt k1 x = true := (List.pairwise_cons.mp hs).1
    simp only [List.mem_cons, Prod.mk.injEq] at h
    rcases h with ⟨rfl, rfl⟩ | h
    · simp [StrMap.get]
    · have hne : k ≠ k1 := by
        intro e
        subst e
        have := hk1 k (List.mem_map_of_mem Prod.fst h)
        rw [strLt_irrefl] at this
        exact Bool.false_ne_true this
      simp only [StrMap.get, hne, if_false]
      exact ih hs' h

theorem positionsWith_length_le (a : Nat) (v : String) :
    ∀ (rows : List Row) (i : Nat), (positionsWith a v i rows).length ≤ rows.length := by
  intro rows
  induction rows with
  | nil => intro i; simp [positionsWith]
  | cons row rest ih =>
    intro i
    simp only [positionsWith]
    split_ifs
    · simpa using ih (i + 1)
    · exact le_trans (ih (i + 1)) (by simp)

/-- Every entry of the map of `getInfoAttrD` and `getSplitInfoAttrD` lists the positions
of the rows holding its key. -/
theorem groupRows_entry (a : Nat) (data : List Row) (e : String × List Nat)
    (he : e ∈ groupRows a 0 data []) : e.2 = positionsWith a e.1 0 data := by
  have hs := groupRows_sorted a data 0 [] StrMap.sorted_nil
  have h1 := StrMap.get_of_mem _ hs e.1 e.2 [] he
  rw [groupRows_get a e.1 data 0 [] StrMap.sorted_nil] at h1
  simpa [StrMap.get] using h1.symm

theorem rowsAt_length (data : List Row) (candi : List Nat) :
    (rowsAt data candi).length = candi.length := by
  simp [rowsAt]

theorem getSplitInfoAttrD_nonneg (table : Table) (a : Nat) :
    0 ≤ getSplitInfoAttrD table a := by
  unfold getSplitInfoAttrD
  have hz : (0.0 : ℝ) = 0 := by norm_num
  have := foldl_add_nonneg
    (fun entry : String × List Nat =>
      -1.0 * (((rowsAt table.data entry.2).length : ℝ) / (table.data.length : ℝ))
        * Real.log (((rowsAt table.data entry.2).length : ℝ) / (table.data.length : ℝ))
        / Real.log 2)
    (groupRows a 0 table.data []) 0.0 ?_
  · rw [hz] at this ⊢
    exact this
  · intro e he
    have hle : (rowsAt table.data e.2).length ≤ table.data.length := by
      rw [rowsAt_length, groupRows_entry a table.data e he]
      exact positionsWith_length_le a e.1 table.data 0
    have hle' : (((rowsAt table.data e.2).length : ℝ)) ≤ (table.data.length : ℝ) := by
      exact_mod_cast hle
    apply entropyTerm_nonneg
    · exact div_nonneg (Nat.cast_nonneg _) (Nat.cast_nonneg _)
    · exact div_le_one_of_le₀ hle' (Nat.cast_nonneg _)

theorem getGainRatio_pos (table : Table) (a : Nat) (hg : 0 < getGain table a) :
    Dbl.lt (Dbl.fin 0) (getGainRatio table a) := by
  unfold getGainRatio Dbl.div
  have hs := getSplitInfoAttrD_nonneg table a
  by_cases h0 : getSplitInfoAttrD table a = 0
  · simp [h0, ne_of_gt hg, hg, Dbl.lt]
  · have hpos : 0 < getSplitInfoAttrD table a := lt_of_le_of_ne hs (fun e => h0 e.symm)
    simp only [h0, if_false, Dbl.lt]
    exact div_pos hg hpos

theorem getGainRatio_not_pos (table : Table) (a : Nat) (hg : getGain table a ≤ 0) :
    ¬ Dbl.lt (Dbl.fin 0) (getGainRatio table a) := by
  unfold getGainRatio Dbl.div
  have hs := getSplitInfoAttrD_nonneg table a
  by_cases h0 : getSplitInfoAttrD table a = 0
  · by_cases hg0 : getGain table a = 0
    · simp [h0, hg0, Dbl.lt]
    · have : ¬ 0 < getGain table a := not_lt.mpr hg
      simp [h0, hg0, this, Dbl.lt]
  · have hpos : 0 < getSplitInfoAttrD table a := lt_of_le_of_ne hs (fun e => h0 e.symm)
    simp only [h0, if_false, Dbl.lt, not_lt]
    exact div_nonpos_of_nonpos_of_nonneg hg (le_of_lt hpos)

/-- The selection when exactly one attribute has a positive gain. -/
theorem getSelectedAttribute_unique (initialTable table : Table) (i : Nat)
    (hi : i < initialTable.attrName.length - 1) (hpos : 0 < getGain table i)
    (hothers : ∀ j, j < initialTable.attrName.length - 1 → j ≠ i → getGain table j ≤ 0) :
    getSelectedAttribute initialTable table = (i : Int) := by
  have hattr : initialTable.attrName ≠ [] := by
    intro e
    rw [e] at hi
    simp at hi
  rcases getSelectedAttribute_cases initialTable table hattr with
    ⟨_, hnone⟩ | ⟨j, hj, hsel, hjpos, _, _⟩
  · exact (hnone i hi (getGainRatio_pos table i hpos)).elim
  · by_cases hji : j = i
    · rw [hsel, hji]
    · exact (getGainRatio_not_pos table j (hothers j hj hji) hjpos).elim

theorem getSelectedAttribute_none (initialTable table : Table)
    (hattr : initialTable.attrName ≠ [])
    (hall : ∀ j, j < initialTable.attrName.length - 1 → getGain table j ≤ 0) :
    getSelectedAttribute initialTable table = -1 := by
  rcases getSelectedAttribute_cases initialTable table hattr with
    ⟨h, _⟩ | ⟨j, hj, _, hjpos, _, _⟩
  · exact h
  · exact (getGainRatio_not_pos table j (hall j hj) hjpos).elim

theorem getGainRatio_data (table : Table) (a : Nat) :
    getGainRatio table a = getGainRatio { data := table.data } a := rfl

theorem selectLoop_congr (r1 r2 : Nat → Dbl) (h : ∀ a, r1 a = r2 a) :
    ∀ (is : List Nat) (st : Int × Dbl), selectLoop r1 is st = selectLoop r2 is st := by
  intro is
  induction is with
  | nil => intro st; rfl
  | cons i rest ih =>
    intro st
    simp only [selectLoop, h i, ih]

/-- The selection only reads the rows of the table. -/
theorem getSelectedAttribute_data (initialTable table : Table) (rows : List Row)
    (h : table.data = rows) :
    getSelectedAttribute initialTable table
      = getSelectedAttribute initialTable { data := rows } := by
  subst h
  unfold getSelectedAttribute getSelectedAttributeWith
  rw [selectLoop_congr (getGainRatio table) (getGainRatio { data := table.data })
    (getGainRatio_data table)]

/-! ## Scores of small tables -/

theorem countLabels_const (c : String) :
    ∀ (rows : List Row) (m : Nat), (∀ row ∈ rows, back row = c) →
      rows.foldl (fun (labelCount : StrMap Nat) row => labelCount.modify (back row) 0 (· + 1))
        [(c, m)] = [(c, m + rows.length)] := by
  intro rows
  induction rows with
  | nil => intro m _; simp
  | cons row rest ih =>
    intro m h
    have hrow : back row = c := h row (by simp)
    simp only [List.foldl_cons, hrow, StrMap.modify, strLt_irrefl, if_true, Bool.false_eq_true,
      if_false]
    rw [ih (m + 1) (fun r hr => h r (by simp [hr]))]
    simp only [List.length_cons]
    congr 2
    omega

theorem countLabels_pure (data : List Row) (c : String) (hne : data ≠ [])
    (h : ∀ row ∈ data, back row = c) : countLabels data = [(c, data.length)] := by
  cases data with
  | nil => exact (hne rfl).elim
  | cons row rest =>
    have hrow : back row = c := h row (by simp)
    unfold countLabels
    simp only [List.foldl_cons, hrow, StrMap.modify]
    rw [countLabels_const c rest _ (fun r hr => h r (by simp [hr]))]
    simp only [List.length_cons]
    congr 2
    omega

theorem getInfoD_pure (table : Table) (c : String) (hne : table.data ≠ [])
    (h : ∀ row ∈ table.data, back row = c) : getInfoD table = 0 := by
  have hlen : (table.data.length : ℝ) ≠ 0 := by simpa using hne
  unfold getInfoD
  rw [countLabels_pure table.data c hne h]
  simp [hlen]
  norm_num

theorem getInfoD_of_counts (table : Table) (counts : StrMap Nat)
    (h : countLabels table.data = counts) :
    getInfoD table = counts.foldl
      (fun ret entry =>
        ret + -1.0 * ((entry.2 : ℝ) / (table.data.length : ℝ))
          * Real.log ((entry.2 : ℝ) / (table.data.length : ℝ)) / Real.log 2) 0.0 := by
  unfold getInfoD
  rw [h]

theorem getInfoD_half (table : Table) (c1 c2 : String) (m : Nat) (hm : 0 < m)
    (hcounts : countLabels table.data = [(c1, m), (c2, m)])
    (hlen : table.data.length = 2 * m) : getInfoD table = 1 := by
  have hl : Real.log (2⁻¹) = - Real.log 2 := Real.log_inv 2
  have h2 : Real.log 2 ≠ 0 := ne_of_gt log_two_pos
  have hm' : (m : ℝ) ≠ 0 := by exact_mod_cast (ne_of_gt hm)
  have hp : (m : ℝ) / ((2 * m : Nat) : ℝ) = 2⁻¹ := by
    push_cast
    field_simp
    ring
  rw [getInfoD_of_counts table _ hcounts, hlen]
  simp only [List.foldl_cons, List.foldl_nil, hp, hl]
  field_simp
  ring

theorem getInfoD_mixed_pos (table : Table) (c1 c2 : String) (m1 m2 : Nat) (h1 : 0 < m1)
    (h2 : 0 < m2) (hcounts : countLabels table.data = [(c1, m1), (c2, m2)])
    (hlen : table.data.length = m1 + m2) : 0 < getInfoD table := by
  have hz : (0.0 : ℝ) = 0 := by norm_num
  have hm1 : (0 : ℝ) < m1 := by exact_mod_cast h1
  have hm2 : (0 : ℝ) < m2 := by exact_mod_cast h2
  have hn : (0 : ℝ) < ((m1 + m2 : Nat) : ℝ) := by push_cast; linarith
  rw [getInfoD_of_counts table _ hcounts, hlen]
  simp only [List.foldl_cons, List.foldl_nil, hz, zero_add]
  have t1 := entropyTerm_pos ((m1 : ℝ) / ((m1 + m2 : Nat) : ℝ)) (div_pos hm1 hn)
    (by rw [div_lt_one hn]; push_cast; linarith)
  have t2 := entropyTerm_pos ((m2 : ℝ) / ((m1 + m2 : Nat) : ℝ)) (div_pos hm2 hn)
    (by rw [div_lt_one hn]; push_cast; linarith)
  linarith

theorem getInfoAttrD_of_groups (table : Table) (a : Nat) (groups : StrMap (List Nat))
    (h : groupRows a 0 table.data [] = groups) :
    getInfoAttrD table a = groups.foldl
      (fun ret entry =>
        ret + ((rowsAt table.data entry.2).length : ℝ) / (table.data.length : ℝ)
          * getInfoD { data := rowsAt table.data entry.2 }) 0.0 := by
  unfold getInfoAttrD
  rw [h]

/-- The gain of an attribute that no two rows share a label within a group of: every
group of rows with equal value is pure. -/
theorem getInfoAttrD_pure_groups (table : Table) (a : Nat)
    (h : ∀ e ∈ groupRows a 0 table.data [],
      getInfoD { data := rowsAt table.data e.2 } = 0) :
    getInfoAttrD table a = 0 := by
  unfold getInfoAttrD
  have hz : (0.0 : ℝ) = 0 := by norm_num
  rw [hz]
  generalize groupRows a 0 table.data [] = groups at h
  have : ∀ (l : List (String × List Nat)) (init : ℝ),
      (∀ e ∈ l, getInfoD { data := rowsAt table.data e.2 } = 0) →
      l.foldl (fun ret entry =>
        ret + ((rowsAt table.data entry.2).length : ℝ) / (table.data.length : ℝ)
          * getInfoD { data := rowsAt table.data entry.2 }) init = init := by
    intro l
    induction l with
    | nil => intro init _; rfl
    | cons x xs ih =>
      intro init hl
      simp only [List.foldl_cons, hl x (by simp), mul_zero, add_zero]
      exact ih init (fun e he => hl e (by simp [he]))
  exact this groups 0 h

/-! ## The sample tables -/

theorem getInfoD_pair (r1 r2 : Row) (h : back r1 ≠ back r2) :
    getInfoD { data := [r1, r2] } = 1 := by
  by_cases hlt : strLt (back r2) (back r1) = true
  · exact getInfoD_half _ (back r2) (back r1) 1 (by norm_num)
      (by simp [countLabels, StrMap.modify, hlt]) rfl
  · have hlt' : strLt (back r2) (back r1) = false := by simpa using hlt
    exact getInfoD_half _ (back r1) (back r2) 1 (by norm_num)
      (by simp [countLabels, StrMap.modify, hlt', h.symm]) rfl

theorem getInfoD_single_row (r : Row) : getInfoD { data := [r] } = 0 :=
  getInfoD_pure _ (back r) (by simp) (by simp)

theorem sixRows_gain_zero : getGain sixRows.extractAttrValue 0 = 1 / 3 := by
  have hD : getInfoD sixRows.extractAttrValue = 1 :=
    getInfoD_half _ "No" "Yes" 3 (by norm_num) (by decide) (by decide)
  have hA := getInfoAttrD_of_groups sixRows.extractAttrValue 0
    [("a", [0, 1]), ("b", [2, 3]), ("c", [4]), ("d", [5])] (by decide)
  have e1 : rowsAt sixRows.extractAttrValue.data [0, 1]
      = [["a", "x", "Yes"], ["a", "y", "No"]] := by decide
  have e2 : rowsAt sixRows.extractAttrValue.data [2, 3]
      = [["b", "x", "No"], ["b", "y", "Yes"]] := by decide
  have e3 : rowsAt sixRows.extractAttrValue.data [4] = [["c", "z", "Yes"]] := by decide
  have e4 : rowsAt sixRows.extractAttrValue.data [5] = [["d", "z", "No"]] := by decide
  have hlen : sixRows.extractAttrValue.data.length = 6 := by decide
  simp only [List.foldl_cons, List.foldl_nil, e1, e2, e3, e4, hlen,
    getInfoD_pair _ _ (show back ["a", "x", "Yes"] ≠ back ["a", "y", "No"] by decide),
    getInfoD_pair _ _ (show back ["b", "x", "No"] ≠ back ["b", "y", "Yes"] by decide),
    getInfoD_single_row] at hA
  unfold getGain
  rw [hD, hA]
  norm_num

theorem sixRows_gain_one : getGain sixRows.extractAttrValue 1 = 0 := by
  have hD : getInfoD sixRows.extractAttrValue = 1 :=
    getInfoD_half _ "No" "Yes" 3 (by norm_num) (by decide) (by decide)
  have hA := getInfoAttrD_of_groups sixRows.extractAttrValue 1
    [("x", [0, 2]), ("y", [1, 3]), ("z", [4, 5])] (by decide)
  have e1 : rowsAt sixRows.extractAttrValue.data [0, 2]
      = [["a", "x", "Yes"], ["b", "x", "No"]] := by decide
  have e2 : rowsAt sixRows.extractAttrValue.data [1, 3]
      = [["a", "y", "No"], ["b", "y", "Yes"]] := by decide
  have e3 : rowsAt sixRows.extractAttrValue.data [4, 5]
      = [["c", "z", "Yes"], ["d", "z", "No"]] := by decide
  have hlen : sixRows.extractAttrValue.data.length = 6 := by decide
  simp only [List.foldl_cons, List.foldl_nil, e1, e2, e3, hlen,
    getInfoD_pair _ _ (show back ["a", "x", "Yes"] ≠ back ["b", "x", "No"] by decide),
    getInfoD_pair _ _ (show back ["a", "y", "No"] ≠ back ["b", "y", "Yes"] by decide),
    getInfoD_pair _ _ (show back ["c", "z", "Yes"] ≠ back ["d", "z", "No"] by decide)] at hA
  unfold getGain
  rw [hD, hA]
  norm_num

theorem sixRows_select_root :
    getSelectedAttribute sixRows.extractAttrValue sixRows.extractAttrValue = 0 := by
  have h := getSelectedAttribute_unique sixRows.extractAttrValue sixRows.extractAttrValue 0
    (by decide) (by rw [sixRows_gain_zero]; norm_num) ?_
  · simpa using h
  · intro j hj hj0
    have hj' : j < 2 := hj
    have : j = 1 := by omega
    subst this
    rw [sixRows_gain_one]

/-- The selection on two rows that agree on attribute 0 and differ on attribute 1 and
on the label. -/
theorem select_pair (initialTable : Table) (r1 r2 : Row)
    (hn : initialTable.attrName.length = 3) (h0 : cell r1 0 = cell r2 0)
    (h1 : strLt (cell r1 1) (cell r2 1) = true) (hl : back r1 ≠ back r2) :
    getSelectedAttribute initialTable { data := [r1, r2] } = 1 := by
  have hne : cell r2 1 ≠ cell r1 1 := fun e => strLt_ne h1 e.symm
  have hnlt : strLt (cell r2 1) (cell r1 1) = false := by
    cases h : strLt (cell r2 1) (cell r1 1) with
    | false => rfl
    | true => have := strLt_trans h1 h; rw [strLt_irrefl] at this; exact this.symm
  have hgroups : groupRows 1 0 [r1, r2] [] = [(cell r1 1, [0]), (cell r2 1, [1])] := by
    simp [groupRows, StrMap.modify, hnlt, hne]
  have hA : getInfoAttrD { data := [r1, r2] } 1 = 0 := by
    apply getInfoAttrD_pure_groups
    intro e he
    rw [hgroups] at he
    simp only [List.mem_cons, List.mem_singleton, List.not_mem_nil, or_false] at he
    rcases he with rfl | rfl
    · exact getInfoD_single_row _
    · exact getInfoD_single_row _
  have h := getSelectedAttribute_unique initialTable { data := [r1, r2] } 1
    (by rw [hn]; norm_num) (by unfold getGain; rw [getInfoD_pair r1 r2 hl, hA]; norm_num) ?_
  · simpa using h
  · intro j hj hj1
    rw [hn] at hj
    have : j = 0 := by omega
    subst this
    unfold getGain
    rw [getInfoAttrD_single { data := [r1, r2] } 0 (cell r1 0) (by simp) (by simp [h0])]
    simp

theorem sixRows_select_eq :
    getSelectedAttribute sixRows.extractAttrValue =
      fun t =>
        if t.data = sixRows.data then 0
        else if t.data = [["a", "x", "Yes"], ["a", "y", "No"]] then 1
        else if t.data = [["b", "x", "No"], ["b", "y", "Yes"]] then 1
        else getSelectedAttribute sixRows.extractAttrValue t := by
  funext t
  split_ifs with h1 h2 h3
  · rw [getSelectedAttribute_data _ t _ h1]
    exact sixRows_select_root
  · rw [getSelectedAttribute_data _ t _ h2]
    exact select_pair _ _ _ (by decide) (by decide) (by decide) (by decide)
  · rw [getSelectedAttribute_data _ t _ h3]
    exact select_pair _ _ _ (by decide) (by decide) (by decide) (by decide)
  · rfl

theorem build_eq (table : Table) (fuel : Nat) :
    build table fuel =
      (runWith (getSelectedAttribute table.extractAttrValue) table.extractAttrValue fuel
        table.extractAttrValue 0 [splitNode none "" 0 []]).bind
        (fun tree => .ok { initialTable := table.extractAttrValue, tree := tree }) := rfl

theorem sixRows_build_three :
    build sixRows 3 = .ok { initialTable := sixRows.extractAttrValue, tree := sixTree } := by
  rw [build_eq, sixRows_select_eq]
  decide

/-! ## Fuel -/

theorem foldlM_mono {step1 step2 : List Node → String → Except Fault (List Node)}
    (h : ∀ S v S', step1 S v = .ok S' → step2 S v = .ok S') :
    ∀ (vs : List String) (S T' : List Node),
      vs.foldlM step1 S = .ok T' → vs.foldlM step2 S = .ok T' := by
  intro vs
  induction vs with
  | nil => intro S T' h1; exact h1
  | cons v rest ih =>
    intro S T' h1
    simp only [List.foldlM_cons] at h1 ⊢
    obtain ⟨S1, hs, hr⟩ := bind_ok_inv h1
    rw [h S v S1 hs]
    exact ih S1 T' hr

theorem splitStep_mono {rec1 rec2 : Table → Nat → List Node → Except Fault (List Node)}
    (h : ∀ t k T T', rec1 t k T = .ok T' → rec2 t k T = .ok T')
    (table : Table) (m : StrMap (List Nat)) (k : Nat) (S : List Node) (v : String)
    (S' : List Node) (h1 : splitStep rec1 table m k S v = .ok S') :
    splitStep rec2 table m k S v = .ok S' := by
  rw [splitStep_eq] at h1 ⊢
  obtain ⟨nextData, hn, h1⟩ := bind_ok_inv h1
  obtain ⟨tree1, ht, h1⟩ := bind_ok_inv h1
  rw [hn, ht]
  simp only [Except.bind]
  by_cases he : nextData.length = 0
  · rw [if_pos he] at h1 ⊢
    exact h1
  · rw [if_neg he] at h1 ⊢
    exact h _ _ _ _ h1

theorem runWith_fuel_succ (sel : Table → Int) (it : Table) :
    ∀ (fuel : Nat) (table : Table) (k : Nat) (T T' : List Node),
      runWith sel it fuel table k T = .ok T' → runWith sel it (fuel + 1) table k T = .ok T' := by
  intro fuel
  induction fuel with
  | zero => intro table k T T' h; simp [runWith] at h
  | succ fuel ih =>
    intro table k T T' h
    rw [runWith_succ] at h ⊢
    by_cases hleaf : isLeafNode table = true
    · rw [if_pos hleaf] at h ⊢
      exact h
    · rw [if_neg hleaf] at h ⊢
      obtain ⟨m, hm, h⟩ := bind_ok_inv h
      obtain ⟨tree1, ht, h⟩ := bind_ok_inv h
      rw [hm, ht]
      simp only [Except.bind]
      by_cases hex : exceedsThreshold (getMajorityLabel table).2 table.data.length = true
      · rw [if_pos hex] at h ⊢
        exact h
      · rw [if_neg hex] at h ⊢
        obtain ⟨domain, hd, h⟩ := bind_ok_inv h
        rw [hd]
        exact foldlM_mono (fun S v S' hs => splitStep_mono ih table m k S v S' hs) domain _ _ h

theorem runWith_fuel_mono (sel : Table → Int) (it : Table) (fuel fuel' : Nat) (hle : fuel ≤ fuel')
    (table : Table) (k : Nat) (T T' : List Node)
    (h : runWith sel it fuel table k T = .ok T') : runWith sel it fuel' table k T = .ok T' := by
  induction hle with
  | refl => exact h
  | step _ ih => exact runWith_fuel_succ sel it _ table k T T' ih

theorem build_fuel_mono (table : Table) (fuel fuel' : Nat) (hle : fuel ≤ fuel')
    (dt : DecisionTree) (h : build table fuel = .ok dt) : build table fuel' = .ok dt := by
  rw [build_eq] at h ⊢
  obtain ⟨tree, ht, h⟩ := bind_ok_inv h
  rw [runWith_fuel_mono _ _ fuel fuel' hle _ _ _ _ ht]
  exact h

/-! ## Termination of the construction -/

theorem lastLabel_ok (table : Table) (hne : table.data ≠ [])
    (hrows : ∀ row ∈ table.data, row ≠ []) : ∃ label, lastLabel table = .ok label := by
  obtain ⟨r, hr⟩ : ∃ r, table.data.getLast? = some r := by
    cases h : table.data.getLast? with
    | none => exact (hne (List.getLast?_eq_none_iff.mp h)).elim
    | some r => exact ⟨r, rfl⟩
  have hmem : r ∈ table.data := List.mem_of_getLast?_eq_some hr
  obtain ⟨c, hc⟩ : ∃ c, r.getLast? = some c := by
    cases h : r.getLast? with
    | none => exact (hrows r hmem (List.getLast?_eq_none_iff.mp h)).elim
    | some c => exact ⟨c, rfl⟩
  exact ⟨c, by simp [lastLabel, lastOf, hr, hc, bind, Except.bind]⟩

theorem runWith_total (sel : Table → Int) (it : Table)
    (hrows : ∀ row ∈ it.data, row ≠ [])
    (hsel : ∀ S, Visited sel it S → isLeafNode S = false →
      0 ≤ sel S ∧ (∀ row ∈ S.data, (sel S).toNat < row.length) ∧
      (∃ domain, vecAtInt it.attrValueList (sel S) = .ok domain) ∧
      (∀ v, (rowsWith S.data (sel S).toNat v).length < S.data.length)) :
    ∀ (fuel : Nat) (table : Table) (k : Nat) (T : List Node) (v : String),
      Visited sel it table → (∀ row ∈ table.data, row ∈ it.data) →
      table.data ≠ [] → table.data.length ≤ fuel →
      T.length = k + 1 → T[k]? = some (splitNode none v k []) →
      ∃ T', runWith sel it fuel table k T = .ok T' := by
  intro fuel
  induction fuel with
  | zero =>
    intro table k T v _ _ hne hlen _ _
    exact (hne (List.length_eq_zero.mp (Nat.le_zero.mp hlen))).elim
  | succ fuel ih =>
    intro table k T v hvis hsub hne hlen hT hfresh
    rw [runWith_succ]
    by_cases hleaf : isLeafNode table = true
    · rw [if_pos hleaf]
      obtain ⟨label, hlabel⟩ := lastLabel_ok table hne (fun r hr => hrows r (hsub r hr))
      rw [hlabel]
      simp only [Except.bind, setNode_ok _ hfresh]
      exact ⟨_, rfl⟩
    · rw [if_neg hleaf]
      have hleaf' : isLeafNode table = false := by simpa using hleaf
      obtain ⟨h0, hvalid, ⟨domain, hdom⟩, hproper⟩ := hsel table hvis hleaf'
      rw [buildAttrValueMap_of_valid (sel table) h0 table.data 0 [] hvalid]
      simp only [Except.bind, setNode_ok _ hfresh]
      have hT1k : (T.set k (splitNode (some (sel table)) v k []))[k]? =
          some (splitNode (some (sel table)) v k []) := by
        simp [hT]
      change ∃ T', (if exceedsThreshold (getMajorityLabel table).2 table.data.length = true then
          setNode (T.set k (splitNode (some (sel table)) v k [])) k _
        else _) = Except.ok T'
      by_cases hex : exceedsThreshold (getMajorityLabel table).2 table.data.length = true
      · rw [if_pos hex, setNode_ok _ hT1k]
        exact ⟨_, rfl⟩
      · rw [if_neg hex, hdom]
        have hex' : exceedsThreshold (getMajorityLabel table).2 table.data.length = false := by
          simpa using hex
        simp only [Except.bind]
        -- every value of the domain leads to a table that is visited and smaller
        have hloop : ∀ (vs : List String), (∀ w ∈ vs, w ∈ domain) →
            ∀ (S : List Node) (cs0 : List Nat), k < S.length →
              S[k]? = some (splitNode (some (sel table)) v k cs0) →
              ∃ T', vs.foldlM (splitStep (runWith sel it fuel) table
                (groupRows (sel table).toNat 0 table.data []) k) S = .ok T' := by
          intro vs
          induction vs with
          | nil => intro _ S cs0 _ _; exact ⟨S, rfl⟩
          | cons v1 rest ihv =>
            intro hmem S cs0 hk hS
            have hv1 : v1 ∈ domain := hmem v1 (by simp)
            have hstep : splitStep (runWith sel it fuel) table
                (groupRows (sel table).toNat 0 table.data []) k S v1 =
                (if (rowsWith table.data (sel table).toNat v1).length = 0 then
                  setNode (S.set k (splitNode (some (sel table)) v k (cs0 ++ [S.length]))
                      ++ [splitNode none v1 S.length []]) S.length
                    (fun _ => leafNode none v1 S.length (getMajorityLabel table).1)
                else
                  runWith sel it fuel { data := rowsWith table.data (sel table).toNat v1 }
                    S.length
                    (S.set k (splitNode (some (sel table)) v k (cs0 ++ [S.length]))
                      ++ [splitNode none v1 S.length []])) := by
              rw [splitStep_eq, collectRows_groupRows]
              simp only [Except.bind, setNode_ok _ hS, set_splitNode_children]
              rfl
            simp only [List.foldlM_cons]
            by_cases hempty : (rowsWith table.data (sel table).toNat v1).length = 0
            · rw [if_pos hempty, setNode_ok _ (getElem?_set_append_length S k _ _)] at hstep
              rw [hstep]
              apply ihv (fun w hw => hmem w (by simp [hw])) _ (cs0 ++ [S.length])
                (by simp; omega)
              rw [List.getElem?_set_ne (by omega), getElem?_set_append_left _ _ _ _ hk]
            · rw [if_neg hempty] at hstep
              have hne1 : rowsWith table.data (sel table).toNat v1 ≠ [] :=
                fun e => hempty (by simp [e])
              have hvis1 : Visited sel it { data := rowsWith table.data (sel table).toNat v1 } :=
                Relation.ReflTransGen.tail hvis
                  (SplitsTo.mk table domain v1 hleaf' hex' hdom hv1 hne1)
              obtain ⟨S1, hS1⟩ := ih { data := rowsWith table.data (sel table).toNat v1 }
                S.length
                (S.set k (splitNode (some (sel table)) v k (cs0 ++ [S.length]))
                  ++ [splitNode none v1 S.length []]) v1 hvis1
                (fun r hr => hsub r (List.mem_of_mem_filter hr)) hne1
                (by have := hproper v1; simp only at this ⊢; omega) (by simp)
                (getElem?_set_append_length S k _ _)
              rw [hS1] at hstep
              rw [hstep]
              obtain ⟨hpre, hshape⟩ := runWith_shape sel it fuel _ _ _ _ v1 (by simp)
                (getElem?_set_append_length S k _ _) hS1
              have hlt := Shape.lt_stop hshape
              apply ihv (fun w hw => hmem w (by simp [hw])) _ (cs0 ++ [S.length]) (by omega)
              rw [hpre k hk, getElem?_set_append_left _ _ _ _ hk]
        exact hloop domain (fun w hw => hw) _ [] (by simp [hT]) hT1k

/-! ## Domains of the attributes -/

theorem columnValues_mem (data : List Row) (j : Nat) (row : Row) (h : row ∈ data) :
    cell row j ∈ columnValues data j := by
  unfold columnValues
  have : ∀ (rows : List Row) (m : StrMap Nat),
      (cell row j ∈ m.map Prod.fst ∨ row ∈ rows) →
      cell row j ∈ (rows.foldl
        (fun (value : StrMap Nat) r => value.modify (cell r j) 0 (fun _ => 1)) m).map
          Prod.fst := by
    intro rows
    induction rows with
    | nil =>
      intro m h
      rcases h with h | h
      · exact h
      · simp at h
    | cons r rest ih =>
      intro m h
      simp only [List.foldl_cons]
      apply ih
      rcases h with h | h
      · exact Or.inl ((StrMap.keys_modify_mem m _ _ _ _).mpr (Or.inr h))
      · simp only [List.mem_cons] at h
        rcases h with rfl | h
        · exact Or.inl ((StrMap.keys_modify_mem m _ _ _ _).mpr (Or.inl rfl))
        · exact Or.inr h
  exact this data [] (Or.inr h)

theorem extractAttrValue_data (table : Table) : table.extractAttrValue.data = table.data := rfl

theorem extractAttrValue_attrName (table : Table) :
    table.extractAttrValue.attrName = table.attrName := rfl

theorem extractAttrValue_length (table : Table) :
    table.extractAttrValue.attrValueList.length = table.attrName.length := by
  simp [Table.extractAttrValue]

theorem extractAttrValue_domain (table : Table) (a : Int) (domain : List String)
    (h : vecAtInt table.extractAttrValue.attrValueList a = .ok domain) (row : Row)
    (hrow : row ∈ table.data) : cell row a.toNat ∈ domain := by
  unfold vecAtInt at h
  split_ifs at h with h0
  unfold vecAt at h
  split at h
  · rename_i x hx
    injection h with h
    subst h
    simp only [Table.extractAttrValue] at hx
    obtain ⟨hlt, hget⟩ := List.getElem?_eq_some.mp hx
    rw [List.getElem_map] at hget
    rw [← hget]
    simp only [List.getElem_range, List.mem_append]
    exact Or.inr (columnValues_mem table.data _ row hrow)
  · simp at h

theorem extractAttrValue_vecAt (table : Table) (i : Nat) (hi : i < table.attrName.length) :
    ∃ domain, vecAtInt table.extractAttrValue.attrValueList (i : Int) = .ok domain := by
  have hlen := extractAttrValue_length table
  have hlt : i < table.extractAttrValue.attrValueList.length := by omega
  have h0 : ¬ ((i : Int) < 0) := by omega
  exact ⟨table.extractAttrValue.attrValueList[i], by
    simp [vecAtInt, h0, vecAt, List.getElem?_eq_getElem hlt]⟩

/-! ## Classification of the training rows -/

theorem Kids.children_range {tree : List Node} {P : Table → String → Nat → Nat → Prop}
    {table : Table} {a : Nat} {maj : String} {cs : List Nat} {vs : List String}
    {start stop : Nat} (h : Kids tree P table a maj cs vs start stop) :
    ∀ c ∈ cs, start ≤ c ∧ c < stop := by
  induction h with
  | nil => intro c hc; simp at hc
  | leaf _ _ hrest ih =>
    intro c hc
    have := hrest.start_le
    simp only [List.mem_cons] at hc
    rcases hc with rfl | hc
    · omega
    · have := ih c hc; omega
  | sub _ hlt _ hrest ih =>
    intro c hc
    have := hrest.start_le
    simp only [List.mem_cons] at hc
    rcases hc with rfl | hc
    · omega
    · have := ih c hc; omega

/-- The scan of `dfs` over the children of a split node stops at the child created for
the value it looks for. -/
theorem Kids.first_match {tree : List Node} {P : Table → String → Nat → Nat → Prop}
    {table : Table} {a : Nat} {maj : String} {cs : List Nat} {vs : List String}
    {start stop : Nat} (h : Kids tree P table a maj cs vs start stop)
    (hP : ∀ t v c mid, P t v c mid → ∃ node, tree[c]? = some node ∧ node.attrValue = v)
    (value : String) (hval : value ∈ vs) :
    ∃ c, firstMatchingChild tree value cs = some c ∧
      (rowsWith table.data a value = [] → tree[c]? = some (leafNode none value c maj)) ∧
      (rowsWith table.data a value ≠ [] →
        ∃ mid, P { data := rowsWith table.data a value } value c mid) := by
  induction h with
  | nil => simp at hval
  | @leaf c stop v cs vs hrows hnode hrest ih =>
    by_cases hv : v = value
    · subst hv
      refine ⟨c, ?_, fun _ => hnode, fun hne => (hne hrows).elim⟩
      simp [firstMatchingChild, hnode, leafNode]
    · have hval' : value ∈ vs := by
        simp only [List.mem_cons] at hval
        rcases hval with rfl | hval
        · exact (hv rfl).elim
        · exact hval
      obtain ⟨c', h1, h2, h3⟩ := ih hval'
      refine ⟨c', ?_, h2, h3⟩
      simp only [firstMatchingChild, List.find?_cons, hnode, leafNode, hv, decide_False]
      exact h1
  | @sub c mid stop v cs vs hrows hlt hp hrest ih =>
    obtain ⟨node, hnode, hattr⟩ := hP _ _ _ _ hp
    by_cases hv : v = value
    · subst hv
      refine ⟨c, ?_, fun he => (hrows he).elim, fun _ => ⟨mid, hp⟩⟩
      simp [firstMatchingChild, hnode, hattr]
    · have hval' : value ∈ vs := by
        simp only [List.mem_cons] at hval
        rcases hval with rfl | hval
        · exact (hv rfl).elim
        · exact hval
      obtain ⟨c', h1, h2, h3⟩ := ih hval'
      refine ⟨c', ?_, h2, h3⟩
      simp only [firstMatchingChild, List.find?_cons, hnode, hattr, hv, decide_False]
      exact h1

theorem lastLabel_back {table : Table} {label : String} (hleaf : isLeafNode table = true)
    (hlabel : lastLabel table = .ok label) : ∀ row ∈ table.data, back row = label := by
  unfold lastLabel at hlabel
  obtain ⟨lastRow, h1, h2⟩ := bind_ok_inv hlabel
  have hlast : table.data.getLast? = some lastRow := by
    unfold lastOf at h1
    split at h1
    · rename_i x hx; injection h1 with h1; rw [hx, h1]
    · simp at h1
  have hlab : lastRow.getLast? = some label := by
    unfold lastOf at h2
    split at h2
    · rename_i x hx; injection h2 with h2; rw [hx, h2]
    · simp at h2
  have hmem : lastRow ∈ table.data := List.mem_of_getLast?_eq_some hlast
  have hall := (isLeafNode_iff table).mp hleaf
  intro row hrow
  rw [hall row hrow, ← hall lastRow hmem]
  exact back_of_getLast? hlab

theorem Shape.arrives (sel : Table → Int) (it : Table) (tree : List Node)
    (hNoPrune : ∀ S, Visited sel it S → isLeafNode S = false →
      exceedsThreshold (getMajorityLabel S).2 S.data.length = false)
    (hdomain : ∀ (a : Int) (domain : List String),
      vecAtInt it.attrValueList a = .ok domain → ∀ row ∈ it.data, cell row a.toNat ∈ domain) :
    ∀ (n : Nat) (table : Table) (v : String) (k stop : Nat),
      Shape sel it tree n table v k stop → Visited sel it table →
      (∀ row ∈ table.data, row ∈ it.data) →
      ∀ row ∈ table.data,
        ∃ L leaf, Arrives tree row k L ∧ tree[L]? = some leaf ∧ leaf.isLeaf = true ∧
          leaf.label = back row := by
  intro n
  induction n with
  | zero => intro _ _ _ _ h; exact h.elim
  | succ n ih =>
    intro table v k stop h hvis hsub row hrow
    cases h with
    | pureLeaf label hleaf hlabel hnode _ =>
      refine ⟨k, _, Arrives.leaf hnode rfl, hnode, rfl, ?_⟩
      exact (lastLabel_back hleaf hlabel row hrow).symm
    | pruned hleaf hex _ _ =>
      rw [hNoPrune table hvis hleaf] at hex
      exact (Bool.false_ne_true hex).elim
    | split domain children hleaf hex h0 hvalid hdom hnode hkids =>
      have hval : cell row (sel table).toNat ∈ domain := hdomain _ _ hdom row (hsub row hrow)
      obtain ⟨c, hfirst, _, hsubtree⟩ := hkids.first_match
        (fun t w c mid hp => by
          obtain ⟨node, h1, h2, _⟩ := Shape.node_at hp
          exact ⟨node, h1, h2⟩) _ hval
      have hne : rowsWith table.data (sel table).toNat (cell row (sel table).toNat) ≠ [] := by
        intro e
        have : row ∈ rowsWith table.data (sel table).toNat (cell row (sel table).toNat) := by
          simp [rowsWith, hrow]
        rw [e] at this
        simp at this
      obtain ⟨mid, hshape⟩ := hsubtree hne
      have hvis' := Relation.ReflTransGen.tail hvis
        (SplitsTo.mk table domain _ hleaf hex hdom hval hne)
      obtain ⟨L, leaf, harr, hL, hl1, hl2⟩ := ih _ _ _ _ hshape hvis'
        (fun r hr => hsub r (List.mem_of_mem_filter hr)) row (by simp [rowsWith, hrow])
      have hget : row[(sel table).toNat]? = some (cell row (sel table).toNat) := by
        have hlt := hvalid row hrow
        simp [cell, List.getD, List.getElem?_eq_getElem hlt]
      exact ⟨L, leaf, Arrives.step hnode rfl rfl h0 hget hfirst harr, hL, hl1, hl2⟩

theorem Kids.inner_children_in_range {tree : List Node} {P : Table → String → Nat → Nat → Prop}
    {table : Table} {a : Nat} {maj : String} {cs : List Nat} {vs : List String}
    {start stop : Nat} (h : Kids tree P table a maj cs vs start stop)
    (hP : ∀ t v c mid, P t v c mid →
      ∀ j, c ≤ j → j < mid → ∀ node, tree[j]? = some node → ∀ x ∈ node.children, j < x ∧ x < mid) :
    ∀ j, start ≤ j → j < stop → ∀ node, tree[j]? = some node →
      ∀ x ∈ node.children, j < x ∧ x < stop := by
  induction h with
  | nil => intro j h1 h2; omega
  | @leaf c stop v cs vs hrows hnode hrest ih =>
    intro j h1 h2 node hj x hx
    by_cases hjc : j = c
    · subst hjc
      rw [hnode] at hj
      injection hj with hj
      subst hj
      simp [leafNode] at hx
    · exact ih j (by omega) h2 node hj x hx
  | @sub c mid stop v cs vs hrows hlt hp hrest ih =>
    intro j h1 h2 node hj x hx
    have hle := hrest.start_le
    by_cases hjm : j < mid
    · have := hP _ _ _ _ hp j h1 hjm node hj x hx
      omega
    · exact ih j (by omega) h2 node hj x hx

/-- Every child index of the subtree points further down inside the subtree. -/
theorem Shape.children_in_range {sel : Table → Int} {it : Table} {tree : List Node} :
    ∀ (n : Nat) {table : Table} {v : String} {k stop : Nat},
      Shape sel it tree n table v k stop →
      ∀ j, k ≤ j → j < stop → ∀ node, tree[j]? = some node →
        ∀ x ∈ node.children, j < x ∧ x < stop := by
  intro n
  induction n with
  | zero => intro _ _ _ _ h; exact h.elim
  | succ n ih =>
    intro table v k stop h j h1 h2 node hj x hx
    cases h with
    | pureLeaf label _ _ h3 h4 =>
      have : j = k := by omega
      subst this
      rw [h3] at hj
      injection hj with hj
      subst hj
      simp [leafNode] at hx
    | pruned _ _ h3 h4 =>
      have : j = k := by omega
      subst this
      rw [h3] at hj
      injection hj with hj
      subst hj
      simp [leafNode] at hx
    | split domain children _ _ _ _ hdom h5 hkids =>
      by_cases hjk : j = k
      · subst hjk
        rw [h5] at hj
        injection hj with hj
        subst hj
        have := hkids.children_range x (by simpa [splitNode] using hx)
        omega
      · exact hkids.inner_children_in_range (fun t v c mid hp => ih hp) j (by omega) h2 node hj x hx

/-! ## No usable split -/

/-- When the selection returns `-1` on a table whose labels differ, `run` reads the field
`-1` of the first row. -/
theorem runWith_no_split_faults (sel : Table → Int) (it table : Table) (fuel k : Nat)
    (tree : List Node) (hmixed : isLeafNode table = false) (hsel : sel table = -1) :
    runWith sel it (fuel + 1) table k tree = .error .outOfRange := by
  have h2 := isLeafNode_false_length hmixed
  rw [runWith_succ]
  have hleaf : ¬ isLeafNode table = true := by simp [hmixed]
  rw [if_neg hleaf, hsel]
  cases hd : table.data with
  | nil => simp [hd] at h2
  | cons row rest => simp [buildAttrValueMap, vecAtInt, bind, Except.bind]

theorem clash_select :
    getSelectedAttribute clash.extractAttrValue clash.extractAttrValue = -1 := by
  apply getSelectedAttribute_none _ _ (by decide)
  intro j hj
  have hj' : j < 1 := hj
  have : j = 0 := by omega
  subst this
  unfold getGain
  rw [getInfoAttrD_single clash.extractAttrValue 0 "a" (by decide) (by decide)]
  simp

theorem clash_gain_ratio : getGainRatio clash.extractAttrValue 0 = Dbl.nan :=
  getGainRatio_single clash.extractAttrValue 0 "a" (by decide) (by decide)

theorem fourOfFive_gain : 0 < getGain fourOfFive.extractAttrValue 0 := by
  have hD : 0 < getInfoD fourOfFive.extractAttrValue :=
    getInfoD_mixed_pos _ "No" "Yes" 1 4 (by norm_num) (by norm_num) (by decide) (by decide)
  have hA : getInfoAttrD fourOfFive.extractAttrValue 0 = 0 := by
    apply getInfoAttrD_pure_groups
    intro e he
    have hg : groupRows 0 0 fourOfFive.extractAttrValue.data []
        = [("a", [0, 1, 2, 3]), ("b", [4])] := by decide
    rw [hg] at he
    simp only [List.mem_cons, List.mem_singleton, List.not_mem_nil, or_false] at he
    rcases he with rfl | rfl
    · exact getInfoD_pure _ "Yes" (by decide) (by decide)
    · exact getInfoD_pure _ "No" (by decide) (by decide)
  unfold getGain
  rw [hA]
  linarith

theorem fourOfFive_select :
    getSelectedAttribute fourOfFive.extractAttrValue fourOfFive.extractAttrValue = 0 := by
  have h := getSelectedAttribute_unique fourOfFive.extractAttrValue
    fourOfFive.extractAttrValue 0 (by decide) fourOfFive_gain ?_
  · simpa using h
  · intro j hj hj0
    have hj' : j < 1 := hj
    omega

theorem SplitsTo.inv {sel : Table → Int} {it S S' : Table} (h : SplitsTo sel it S S') :
    ∃ domain v, isLeafNode S = false ∧
      exceedsThreshold (getMajorityLabel S).2 S.data.length = false ∧
      vecAtInt it.attrValueList (sel S) = .ok domain ∧ v ∈ domain ∧
      S'.data = rowsWith S.data (sel S).toNat v ∧ S'.data ≠ [] := by
  cases h with
  | mk domain v h1 h2 h3 h4 h5 => exact ⟨domain, v, h1, h2, h3, h4, rfl, h5⟩

theorem Visited.rows_subset {sel : Table → Int} {it S : Table} (h : Visited sel it S) :
    ∀ row ∈ S.data, row ∈ it.data := by
  induction h with
  | refl => exact fun _ h => h
  | tail _ hstep ih =>
    obtain ⟨_, _, _, _, _, _, hdata, _⟩ := hstep.inv
    intro row hrow
    rw [hdata] at hrow
    exact ih row (List.mem_of_mem_filter hrow)

theorem isLeafNode_of_length_one (S : Table) (h : S.data.length = 1) : isLeafNode S = true := by
  unfold isLeafNode
  match hd : S.data with
  | [] => simp
  | [r] => simp
  | r1 :: r2 :: rest => rw [hd] at h; simp at h

theorem isLeafNode_data (S : Table) (rows : List Row) (h : S.data = rows) :
    isLeafNode S = isLeafNode { data := rows } := by
  subst h
  rfl

theorem getMajorityLabel_data (S : Table) (rows : List Row) (h : S.data = rows) :
    getMajorityLabel S = getMajorityLabel { data := rows } := by
  subst h
  rfl

/-- The tables visited while the tree of `sixRows` is built. -/
theorem sixRows_visited (S : Table)
    (h : Visited (getSelectedAttribute sixRows.extractAttrValue) sixRows.extractAttrValue S) :
    S = sixRows.extractAttrValue ∨ S.data = [["a", "x", "Yes"], ["a", "y", "No"]] ∨
      S.data = [["b", "x", "No"], ["b", "y", "Yes"]] ∨ S.data.length = 1 := by
  induction h with
  | refl => exact Or.inl rfl
  | @tail S1 S2 _ hstep ih =>
    obtain ⟨domain, v, hmixed, _, hdom, hv, hdata, hne⟩ := hstep.inv
    rcases ih with rfl | h1 | h1 | h1
    · rw [sixRows_select_root] at hdom hdata
      have hd : domain = ["a", "b", "c", "d"] := by
        have : vecAtInt sixRows.extractAttrValue.attrValueList 0
            = .ok ["a", "b", "c", "d"] := by decide
        rw [this] at hdom
        exact (Except.ok.inj hdom).symm
      subst hd
      simp only [List.mem_cons, List.mem_singleton, List.not_mem_nil, or_false] at hv
      rcases hv with rfl | rfl | rfl | rfl
      · exact Or.inr (Or.inl (by rw [hdata]; decide))
      · exact Or.inr (Or.inr (Or.inl (by rw [hdata]; decide)))
      · exact Or.inr (Or.inr (Or.inr (by rw [hdata]; decide)))
      · exact Or.inr (Or.inr (Or.inr (by rw [hdata]; decide)))
    · have hsel : getSelectedAttribute sixRows.extractAttrValue S1 = 1 := by
        rw [getSelectedAttribute_data _ S1 _ h1]
        exact select_pair _ _ _ (by decide) (by decide) (by decide) (by decide)
      rw [hsel] at hdom hdata
      rw [h1] at hdata
      have hd : domain = ["x", "y", "z"] := by
        have : vecAtInt sixRows.extractAttrValue.attrValueList 1
            = .ok ["x", "y", "z"] := by decide
        rw [this] at hdom
        exact (Except.ok.inj hdom).symm
      subst hd
      simp only [List.mem_cons, List.mem_singleton, List.not_mem_nil, or_false] at hv
      rcases hv with rfl | rfl | rfl
      · exact Or.inr (Or.inr (Or.inr (by rw [hdata]; decide)))
      · exact Or.inr (Or.inr (Or.inr (by rw [hdata]; decide)))
      · exact (hne (by rw [hdata]; decide)).elim
    · have hsel : getSelectedAttribute sixRows.extractAttrValue S1 = 1 := by
        rw [getSelectedAttribute_data _ S1 _ h1]
        exact select_pair _ _ _ (by decide) (by decide) (by decide) (by decide)
      rw [hsel] at hdom hdata
      rw [h1] at hdata
      have hd : domain = ["x", "y", "z"] := by
        have : vecAtInt sixRows.extractAttrValue.attrValueList 1
            = .ok ["x", "y", "z"] := by decide
        rw [this] at hdom
        exact (Except.ok.inj hdom).symm
      subst hd
      simp only [List.mem_cons, List.mem_singleton, List.not_mem_nil, or_false] at hv
      rcases hv with rfl | rfl | rfl
      · exact Or.inr (Or.inr (Or.inr (by rw [hdata]; decide)))
      · exact Or.inr (Or.inr (Or.inr (by rw [hdata]; decide)))
      · exact (hne (by rw [hdata]; decide)).elim
    · rw [isLeafNode_of_length_one S1 h1] at hmixed
      exact (Bool.false_ne_true hmixed.symm).elim

theorem sixRows_no_pruning (S : Table)
    (h : Visited (getSelectedAttribute sixRows.extractAttrValue) sixRows.extractAttrValue S)
    (hmixed : isLeafNode S = false) :
    exceedsThreshold (getMajorityLabel S).2 S.data.length = false := by
  rcases sixRows_visited S h with rfl | h1 | h1 | h1
  · decide
  · rw [getMajorityLabel_data S _ h1, h1]; decide
  · rw [getMajorityLabel_data S _ h1, h1]; decide
  · rw [isLeafNode_of_length_one S h1] at hmixed
    exact (Bool.false_ne_true hmixed.symm).elim

theorem usable_of_selected (initialTable table : Table) (i : Nat)
    (hattr : initialTable.attrName ≠ [])
    (h : getSelectedAttribute initialTable table = (i : Int)) :
    ∃ j, j < initialTable.attrName.length - 1 ∧ Dbl.lt (Dbl.fin 0) (getGainRatio table j) := by
  rcases getSelectedAttribute_cases initialTable table hattr with
    ⟨h1, _⟩ | ⟨j, hj, _, hp, _, _⟩
  · rw [h1] at h; omega
  · exact ⟨j, hj, hp⟩

theorem sixRows_usable (S : Table)
    (h : Visited (getSelectedAttribute sixRows.extractAttrValue) sixRows.extractAttrValue S)
    (hmixed : isLeafNode S = false) :
    ∃ i, i < sixRows.extractAttrValue.attrName.length - 1 ∧
      Dbl.lt (Dbl.fin 0) (getGainRatio S i) := by
  rcases sixRows_visited S h with rfl | h1 | h1 | h1
  · exact usable_of_selected _ _ 0 (by decide) (by rw [sixRows_select_root]; rfl)
  · refine usable_of_selected _ _ 1 (by decide) ?_
    rw [getSelectedAttribute_data _ S _ h1]
    exact select_pair _ _ _ (by decide) (by decide) (by decide) (by decide)
  · refine usable_of_selected _ _ 1 (by decide) ?_
    rw [getSelectedAttribute_data _ S _ h1]
    exact select_pair _ _ _ (by decide) (by decide) (by decide) (by decide)
  · rw [isLeafNode_of_length_one S h1] at hmixed
    exact (Bool.false_ne_true hmixed.symm).elim

theorem clash_visited (S : Table)
    (h : Visited (getSelectedAttribute clash.extractAttrValue) clash.extractAttrValue S) :
    S = clash.extractAttrValue := by
  induction h with
  | refl => rfl
  | @tail S1 S2 _ hstep ih =>
    obtain ⟨domain, v, _, _, hdom, _⟩ := hstep.inv
    subst ih
    rw [clash_select] at hdom
    simp [vecAtInt] at hdom

/-- The gain of an attribute that separates two rows with different labels. -/
theorem getGain_pair (r1 r2 : Row) (i : Nat) (h1 : strLt (cell r1 i) (cell r2 i) = true)
    (hl : back r1 ≠ back r2) : getGain { data := [r1, r2] } i = 1 := by
  have hne : cell r2 i ≠ cell r1 i := fun e => strLt_ne h1 e.symm
  have hnlt : strLt (cell r2 i) (cell r1 i) = false := by
    cases h : strLt (cell r2 i) (cell r1 i) with
    | false => rfl
    | true => have := strLt_trans h1 h; rw [strLt_irrefl] at this; exact this.symm
  have hgroups : groupRows i 0 [r1, r2] [] = [(cell r1 i, [0]), (cell r2 i, [1])] := by
    simp [groupRows, StrMap.modify, hnlt, hne]
  have hA : getInfoAttrD { data := [r1, r2] } i = 0 := by
    apply getInfoAttrD_pure_groups
    intro e he
    rw [hgroups] at he
    simp only [List.mem_cons, List.mem_singleton, List.not_mem_nil, or_false] at he
    rcases he with rfl | rfl
    · exact getInfoD_single_row _
    · exact getInfoD_single_row _
  unfold getGain
  rw [getInfoD_pair r1 r2 hl, hA]
  norm_num

/-- The selection on two rows with different labels that the only attribute separates. -/
theorem select_two (initialTable : Table) (r1 r2 : Row)
    (hn : initialTable.attrName.length = 2)
    (h1 : strLt (cell r1 0) (cell r2 0) = true) (hl : back r1 ≠ back r2) :
    getSelectedAttribute initialTable { data := [r1, r2] } = 0 := by
  have h := getSelectedAttribute_unique initialTable { data := [r1, r2] } 0
    (by rw [hn]; norm_num) (by rw [getGain_pair r1 r2 0 h1 hl]; norm_num) ?_
  · simpa using h
  · intro j hj hj0
    rw [hn] at hj
    omega

theorem sampleTree_built : build sentinelRows 2 = .ok sampleTree := by
  have hsel : getSelectedAttribute sentinelRows.extractAttrValue =
      fun t =>
        if t.data = sentinelRows.data then 0
        else getSelectedAttribute sentinelRows.extractAttrValue t := by
    funext t
    split_ifs with h1
    · rw [getSelectedAttribute_data _ t _ h1]
      exact select_two _ _ _ (by decide) (by decide) (by decide)
    · rfl
  rw [build_eq, hsel]
  decide

theorem gain_pos_of_pure_groups (table : Table) (i : Nat) (hD : 0 < getInfoD table)
    (hpure : ∀ e ∈ groupRows i 0 table.data [],
      getInfoD { data := rowsAt table.data e.2 } = 0) : 0 < getGain table i := by
  unfold getGain
  rw [getInfoAttrD_pure_groups table i hpure]
  linarith

theorem fourOfFive_build :
    build fourOfFive 2 = .ok
      { initialTable := fourOfFive.extractAttrValue,
        tree := [splitNode (some 0) "" 0 [1, 2], leafNode none "a" 1 "Yes",
                 leafNode none "b" 2 "No"] } := by
  have hsel : getSelectedAttribute fourOfFive.extractAttrValue =
      fun t =>
        if t.data = fourOfFive.data then 0
        else getSelectedAttribute fourOfFive.extractAttrValue t := by
    funext t
    split_ifs with h1
    · rw [getSelectedAttribute_data _ t _ h1]
      exact fourOfFive_select
    · rfl
  rw [build_eq, hsel]
  decide

theorem fiveOfSix_select :
    getSelectedAttribute fiveOfSix.extractAttrValue fiveOfSix.extractAttrValue = 0 := by
  have hgain : 0 < getGain fiveOfSix.extractAttrValue 0 := by
    apply gain_pos_of_pure_groups
    · exact getInfoD_mixed_pos _ "No" "Yes" 1 5 (by norm_num) (by norm_num) (by decide)
        (by decide)
    · intro e he
      have hg : groupRows 0 0 fiveOfSix.extractAttrValue.data []
          = [("a", [0, 1, 2, 3, 4]), ("b", [5])] := by decide
      rw [hg] at he
      simp only [List.mem_cons, List.mem_singleton, List.not_mem_nil, or_false] at he
      rcases he with rfl | rfl
      · exact getInfoD_pure _ "Yes" (by decide) (by decide)
      · exact getInfoD_pure _ "No" (by decide) (by decide)
  have h := getSelectedAttribute_unique fiveOfSix.extractAttrValue
    fiveOfSix.extractAttrValue 0 (by decide) hgain ?_
  · simpa using h
  · intro j hj hj0
    have hj' : j < 1 := hj
    omega

/-- With five of six rows carrying the majority label the root is pruned to a leaf. -/
theorem fiveOfSix_build :
    build fiveOfSix 1 = .ok
      { initialTable := fiveOfSix.extractAttrValue,
        tree := [leafNode (some 0) "" 0 "Yes"] } := by
  have hsel : getSelectedAttribute fiveOfSix.extractAttrValue =
      fun t =>
        if t.data = fiveOfSix.data then 0
        else getSelectedAttribute fiveOfSix.extractAttrValue t := by
    funext t
    split_ifs with h1
    · rw [getSelectedAttribute_data _ t _ h1]
      exact fiveOfSix_select
    · rfl
  rw [build_eq, hsel]
  decide

/-! ## Properties of all nodes of a built tree -/

theorem Kids.all_nodes_have {tree : List Node} {P : Table → String → Nat → Nat → Prop}
    {table : Table} {a : Nat} {maj : String} {cs : List Nat} {vs : List String}
    {start stop : Nat} (Q : Nat → Node → Prop)
    (h : Kids tree P table a maj cs vs start stop)
    (hleaf : ∀ crit v k label, Q k (leafNode crit v k label))
    (hP : ∀ t v c mid, P t v c mid →
      ∀ j, c ≤ j → j < mid → ∃ node, tree[j]? = some node ∧ Q j node) :
    ∀ j, start ≤ j → j < stop → ∃ node, tree[j]? = some node ∧ Q j node := by
  induction h with
  | nil => intro j h1 h2; omega
  | @leaf c stop v cs vs hrows hnode hrest ih =>
    intro j h1 h2
    by_cases hj : j = c
    · subst hj
      exact ⟨_, hnode, hleaf _ _ _ _⟩
    · exact ih j (by omega) h2
  | @sub c mid stop v cs vs hrows hlt hp hrest ih =>
    intro j h1 h2
    by_cases hj : j < mid
    · exact hP _ _ _ _ hp j h1 hj
    · exact ih j (by omega) h2

/-- A property that holds of every leaf and of every split node, the latter together with
its children, holds at every position of the tree. -/
theorem Shape.forall_nodes {sel : Table → Int} {it : Table} {tree : List Node}
    (Q : Nat → Node → Prop)
    (hleaf : ∀ crit v k label, Q k (leafNode crit v k label))
    (hsplit : ∀ (n : Nat) (table : Table) (v : String) (k stop : Nat) (domain : List String)
      (children : List Nat),
      isLeafNode table = false →
      exceedsThreshold (getMajorityLabel table).2 table.data.length = false →
      0 ≤ sel table →
      vecAtInt it.attrValueList (sel table) = .ok domain →
      tree[k]? = some (splitNode (some (sel table)) v k children) →
      Kids tree (Shape sel it tree n) table (sel table).toNat (getMajorityLabel table).1
        children domain (k + 1) stop →
      Q k (splitNode (some (sel table)) v k children)) :
    ∀ (n : Nat) {table : Table} {v : String} {k stop : Nat},
      Shape sel it tree n table v k stop →
      ∀ j, k ≤ j → j < stop → ∃ node, tree[j]? = some node ∧ Q j node := by
  intro n
  induction n with
  | zero => intro _ _ _ _ h; exact h.elim
  | succ n ih =>
    intro table v k stop h j h1 h2
    cases h with
    | pureLeaf label _ _ h3 h4 =>
      have : j = k := by omega
      subst this
      exact ⟨_, h3, hleaf _ _ _ _⟩
    | pruned _ _ h3 h4 =>
      have : j = k := by omega
      subst this
      exact ⟨_, h3, hleaf _ _ _ _⟩
    | split domain children hm hex h0 _ hdom h5 hkids =>
      by_cases hj : j = k
      · subst hj
        exact ⟨_, h5, hsplit n table v j stop domain children hm hex h0 hdom h5 hkids⟩
      · exact hkids.all_nodes_have Q hleaf (fun t v c mid hp => ih hp) j (by omega) h2

/-- A property of all positions of the tree returned by the constructor. -/
theorem build_forall_nodes {table : Table} {fuel : Nat} {dt : DecisionTree}
    (h : build table fuel = .ok dt) (Q : Nat → Node → Prop)
    (hleaf : ∀ crit v k label, Q k (leafNode crit v k label))
    (hsplit : ∀ (n : Nat) (S : Table) (v : String) (k stop : Nat) (domain : List String)
      (children : List Nat),
      isLeafNode S = false →
      exceedsThreshold (getMajorityLabel S).2 S.data.length = false →
      0 ≤ getSelectedAttribute dt.initialTable S →
      vecAtInt dt.initialTable.attrValueList (getSelectedAttribute dt.initialTable S)
        = .ok domain →
      dt.tree[k]? = some
        (splitNode (some (getSelectedAttribute dt.initialTable S)) v k children) →
      Kids dt.tree (Shape (getSelectedAttribute dt.initialTable) dt.initialTable dt.tree n) S
        (getSelectedAttribute dt.initialTable S).toNat (getMajorityLabel S).1
        children domain (k + 1) stop →
      Q k (splitNode (some (getSelectedAttribute dt.initialTable S)) v k children)) :
    ∀ (k : Nat) (node : Node), dt.tree[k]? = some node → Q k node := by
  intro k node hk
  have hshape := buildWith_shape h
  have hlt : k < dt.tree.length := (List.getElem?_eq_some.mp hk).1
  obtain ⟨node', hnode', hq⟩ :=
    Shape.forall_nodes Q hleaf hsplit fuel hshape k (Nat.zero_le _) hlt
  rw [hk] at hnode'
  injection hnode' with e
  subst e
  exact hq

theorem build_root {table : Table} {fuel : Nat} {dt : DecisionTree}
    (h : build table fuel = .ok dt) :
    ∃ root, dt.tree[0]? = some root ∧ root.attrValue = "" ∧ root.treeIndex = some 0 :=
  Shape.node_at (buildWith_shape h)

theorem serialize_getElem? (dt : DecisionTree) (k : Nat) :
    dt.serializeTreeToJson[k]? = (dt.tree[k]?).map nodeToJson := by
  simp [DecisionTree.serializeTreeToJson]

/-! ## The table `prunedOnB` -/

theorem prunedOnB_select :
    getSelectedAttribute prunedOnB.extractAttrValue prunedOnB.extractAttrValue = 1 := by
  have hgain : 0 < getGain prunedOnB.extractAttrValue 1 := by
    apply gain_pos_of_pure_groups
    · exact getInfoD_mixed_pos _ "No" "Yes" 1 5 (by norm_num) (by norm_num) (by decide)
        (by decide)
    · intro e he
      have hg : groupRows 1 0 prunedOnB.extractAttrValue.data []
          = [("x", [0, 1, 2, 3, 4]), ("y", [5])] := by decide
      rw [hg] at he
      simp only [List.mem_cons, List.mem_singleton, List.not_mem_nil, or_false] at he
      rcases he with rfl | rfl
      · exact getInfoD_pure _ "Yes" (by decide) (by decide)
      · exact getInfoD_pure _ "No" (by decide) (by decide)
  have h := getSelectedAttribute_unique prunedOnB.extractAttrValue
    prunedOnB.extractAttrValue 1 (by decide) hgain ?_
  · simpa using h
  · intro j hj hj1
    have hj' : j < 2 := hj
    have hj0 : j = 0 := by omega
    subst hj0
    unfold getGain
    rw [getInfoAttrD_single prunedOnB.extractAttrValue 0 "a" (by decide) (by decide)]
    simp

/-- With five of six rows carrying the majority label the root is pruned to a leaf that
keeps the index of the attribute selected for it. -/
theorem prunedOnB_build :
    build prunedOnB 1 = .ok
      { initialTable := prunedOnB.extractAttrValue,
        tree := [leafNode (some 1) "" 0 "Yes"] } := by
  have hsel : getSelectedAttribute prunedOnB.extractAttrValue =
      fun t =>
        if t.data = prunedOnB.data then 1
        else getSelectedAttribute prunedOnB.extractAttrValue t := by
    funext t
    split_ifs with h1
    · rw [getSelectedAttribute_data _ t _ h1]
      exact prunedOnB_select
    · rfl
  rw [build_eq, hsel]
  decide

theorem sameLabel_build :
    build sameLabel 1 = .ok
      { initialTable := sameLabel.extractAttrValue,
        tree := [leafNode none "" 0 "Yes"] } := by
  rw [build_eq]
  decide

/-! ## The value lists made by `extractAttrValue` -/

theorem columnValues_sorted (data : List Row) (j : Nat) :
    List.Pairwise (fun a b => strLt a b = true) (columnValues data j) := by
  unfold columnValues
  have : ∀ (rows : List Row) (m : StrMap Nat), m.Sorted →
      (rows.foldl
        (fun (value : StrMap Nat) r => value.modify (cell r j) 0 (fun _ => 1)) m).Sorted := by
    intro rows
    induction rows with
    | nil => intro m hm; exact hm
    | cons r rest ih =>
      intro m hm
      exact ih _ (StrMap.sorted_modify m _ _ _ hm)
  exact this data [] StrMap.sorted_nil

theorem columnValues_of_mem (data : List Row) (j : Nat) (x : String)
    (h : x ∈ columnValues data j) : ∃ row ∈ data, cell row j = x := by
  unfold columnValues at h
  have : ∀ (rows : List Row) (m : StrMap Nat),
      x ∈ (rows.foldl
        (fun (value : StrMap Nat) r => value.modify (cell r j) 0 (fun _ => 1)) m).map
          Prod.fst →
      x ∈ m.map Prod.fst ∨ ∃ row ∈ rows, cell row j = x := by
    intro rows
    induction rows with
    | nil => intro m h; exact Or.inl h
    | cons r rest ih =>
      intro m h
      rcases ih _ h with h1 | ⟨row, hrow, hx⟩
      · rcases (StrMap.keys_modify_mem m _ _ _ _).mp h1 with h2 | h2
        · exact Or.inr ⟨r, by simp, h2.symm⟩
        · exact Or.inl h2
      · exact Or.inr ⟨row, by simp [hrow], hx⟩
  rcases this data [] h with h1 | h1
  · simp at h1
  · exact h1

theorem pairwise_strLt_nodup (l : List String)
    (h : List.Pairwise (fun a b => strLt a b = true) l) : l.Nodup :=
  h.imp (fun hab => strLt_ne hab)

/-- On a table whose `attrValueList` is empty, `extractAttrValue` leaves in
`attrValueList[j]` the keys of the map of column `j`. -/
theorem extractAttrValue_fresh (table : Table) (hempty : table.attrValueList = []) (j : Nat)
    (hj : j < table.attrName.length) :
    table.extractAttrValue.attrValueList[j]? = some (columnValues table.data j) := by
  simp [Table.extractAttrValue, resizeLists, hempty, hj, List.getElem?_range hj]

theorem extractAttrValue_fresh_domain (table : Table) (hempty : table.attrValueList = [])
    (a : Int) (domain : List String)
    (h : vecAtInt table.extractAttrValue.attrValueList a = .ok domain) :
    domain = columnValues table.data a.toNat := by
  unfold vecAtInt at h
  split_ifs at h with h0
  unfold vecAt at h
  split at h
  · rename_i x hx
    injection h with h
    subst h
    have hlt : a.toNat < table.extractAttrValue.attrValueList.length :=
      (List.getElem?_eq_some.mp hx).1
    rw [extractAttrValue_length] at hlt
    rw [extractAttrValue_fresh table hempty a.toNat hlt] at hx
    injection hx with hx
    exact hx.symm
  · cases h

/-- The children of a split node carry the values of its attribute, position by
position. -/
theorem Kids.child_values {tree : List Node} {P : Table → String → Nat → Nat → Prop}
    {table : Table} {a : Nat} {maj : String} {cs : List Nat} {vs : List String}
    {start stop : Nat} (h : Kids tree P table a maj cs vs start stop)
    (hP : ∀ t v c mid, P t v c mid → ∃ node, tree[c]? = some node ∧ node.attrValue = v) :
    ∀ (i c : Nat), cs[i]? = some c →
      ∃ child, tree[c]? = some child ∧ vs[i]? = some child.attrValue := by
  induction h with
  | nil => intro i c hc; simp at hc
  | @leaf c0 stop v cs vs hrows hnode hrest ih =>
    intro i c hc
    cases i with
    | zero =>
      simp only [List.getElem?_cons_zero, Option.some.injEq] at hc
      subst hc
      exact ⟨_, hnode, by simp [leafNode]⟩
    | succ i =>
      simp only [List.getElem?_cons_succ] at hc
      obtain ⟨child, h1, h2⟩ := ih i c hc
      exact ⟨child, h1, by simpa using h2⟩
  | @sub c0 mid stop v cs vs hrows hlt hp hrest ih =>
    intro i c hc
    cases i with
    | zero =>
      simp only [List.getElem?_cons_zero, Option.some.injEq] at hc
      subst hc
      obtain ⟨node, h1, h2⟩ := hP _ _ _ _ hp
      exact ⟨node, h1, by simp [h2]⟩
    | succ i =>
      simp only [List.getElem?_cons_succ] at hc
      obtain ⟨child, h1, h2⟩ := ih i c hc
      exact ⟨child, h1, by simpa using h2⟩

/-! ## The scores as sums over labels and values -/

theorem foldl_add_eq_sum {α : Type} (f : α → ℝ) :
    ∀ (l : List α) (init : ℝ),
      l.foldl (fun ret e => ret + f e) init = init + (l.map f).sum := by
  intro l
  induction l with
  | nil => intro init; simp
  | cons x xs ih =>
    intro init
    simp only [List.foldl_cons, List.map_cons, List.sum_cons]
    rw [ih]
    ring

theorem StrMap.get_of_not_mem {α : Type} (m : StrMap α) (k : String) (d : α)
    (h : k ∉ m.map Prod.fst) : m.get k d = d := by
  induction m with
  | nil => rfl
  | cons e rest ih =>
    obtain ⟨k1, v1⟩ := e
    simp only [List.map_cons, List.mem_cons, not_or] at h
    simp only [StrMap.get, h.1, if_false]
    exact ih h.2

theorem StrMap.sorted_nodup {α : Type} (m : StrMap α) (hs : m.Sorted) :
    (m.map Prod.fst).Nodup :=
  pairwise_strLt_nodup _ hs

/-- A sum accumulated over the entries of a map, written as a sum over any finite set of
keys that contains the keys of the map. -/
theorem StrMap.foldl_eq_sum {α : Type} (m : StrMap α) (hs : m.Sorted) (d : α) (F : α → ℝ)
    (hF : F d = 0) (keys : Finset String) (hkeys : ∀ e ∈ m, e.1 ∈ keys) (init : ℝ) :
    m.foldl (fun ret e => ret + F e.2) init = init + ∑ l ∈ keys, F (m.get l d) := by
  rw [foldl_add_eq_sum (fun (e : String × α) => F e.2) m init]
  congr 1
  have h1 : m.map (fun e => F e.2) = (m.map Prod.fst).map (fun l => F (m.get l d)) := by
    rw [List.map_map]
    apply List.map_congr_left
    intro e he
    simp only [Function.comp]
    rw [StrMap.get_of_mem m hs e.1 e.2 d he]
  rw [h1, ← List.sum_toFinset _ (StrMap.sorted_nodup m hs)]
  apply Finset.sum_subset
  · intro l hl
    obtain ⟨e, he, rfl⟩ := List.mem_map.mp (List.mem_toFinset.mp hl)
    exact hkeys e he
  · intro l _ hl
    rw [StrMap.get_of_not_mem m l d (fun h => hl (List.mem_toFinset.mpr h)), hF]

theorem countLabels_fold_sorted :
    ∀ (rows : List Row) (m : StrMap Nat), m.Sorted →
      (rows.foldl (fun (labelCount : StrMap Nat) row =>
        labelCount.modify (back row) 0 (· + 1)) m).Sorted := by
  intro rows
  induction rows with
  | nil => intro m hm; exact hm
  | cons r rest ih => intro m hm; exact ih _ (StrMap.sorted_modify m _ _ _ hm)

theorem countLabels_sorted (data : List Row) : (countLabels data).Sorted :=
  countLabels_fold_sorted data [] StrMap.sorted_nil

theorem countLabels_fold_get (l : String) :
    ∀ (rows : List Row) (m : StrMap Nat), m.Sorted →
      (rows.foldl (fun (labelCount : StrMap Nat) row =>
        labelCount.modify (back row) 0 (· + 1)) m).get l 0
        = m.get l 0 + rows.countP (fun row => decide (back row = l)) := by
  intro rows
  induction rows with
  | nil => intro m _; simp
  | cons r rest ih =>
    intro m hm
    simp only [List.foldl_cons]
    rw [ih _ (StrMap.sorted_modify m _ _ _ hm)]
    by_cases h : back r = l
    · subst h
      rw [StrMap.get_modify_self m _ _ _ hm]
      simp [List.countP_cons]
      omega
    · rw [StrMap.get_modify_of_ne m _ _ _ _ _ (fun e => h e.symm)]
      simp [List.countP_cons, h]

/-- The map `labelCount` of `getInfoD` holds for each label the number of rows carrying
it. -/
theorem countLabels_get (data : List Row) (l : String) :
    (countLabels data).get l 0 = data.countP (fun row => decide (back row = l)) := by
  unfold countLabels
  rw [countLabels_fold_get l data [] StrMap.sorted_nil]
  simp [StrMap.get]

theorem countLabels_fold_keys (x : String) :
    ∀ (rows : List Row) (m : StrMap Nat),
      x ∈ (rows.foldl (fun (labelCount : StrMap Nat) row =>
        labelCount.modify (back row) 0 (· + 1)) m).map Prod.fst →
      x ∈ m.map Prod.fst ∨ ∃ row ∈ rows, back row = x := by
  intro rows
  induction rows with
  | nil => intro m h; exact Or.inl h
  | cons r rest ih =>
    intro m h
    rcases ih _ h with h1 | ⟨row, hrow, hx⟩
    · rcases (StrMap.keys_modify_mem m _ _ _ _).mp h1 with h2 | h2
      · exact Or.inr ⟨r, by simp, h2.symm⟩
      · exact Or.inl h2
    · exact Or.inr ⟨row, by simp [hrow], hx⟩

theorem countLabels_keys (data : List Row) (e : String × Nat) (he : e ∈ countLabels data) :
    ∃ row ∈ data, back row = e.1 := by
  rcases countLabels_fold_keys e.1 data [] (List.mem_map.mpr ⟨e, he, rfl⟩) with h | h
  · simp at h
  · exact h

theorem groupRows_keys (a : Nat) (x : String) :
    ∀ (rows : List Row) (i : Nat) (m : StrMap (List Nat)),
      x ∈ (groupRows a i rows m).map Prod.fst →
      x ∈ m.map Prod.fst ∨ ∃ row ∈ rows, cell row a = x := by
  intro rows
  induction rows with
  | nil => intro i m h; exact Or.inl h
  | cons r rest ih =>
    intro i m h
    rcases ih _ _ h with h1 | ⟨row, hrow, hx⟩
    · rcases (StrMap.keys_modify_mem m _ _ _ _).mp h1 with h2 | h2
      · exact Or.inr ⟨r, by simp, h2.symm⟩
      · exact Or.inl h2
    · exact Or.inr ⟨row, by simp [hrow], hx⟩

theorem entropyTerm_zero : entropyTerm 0 = 0 := by
  simp [entropyTerm]

/-- Function `getInfoD` as a sum over the labels: `labels` is any finite set that contains
the labels of the rows. -/
theorem getInfoD_eq_sum (table : Table) (labels : Finset String)
    (hlabels : ∀ row ∈ table.data, back row ∈ labels) :
    getInfoD table = ∑ l ∈ labels,
      entropyTerm
        ((table.data.countP (fun row => decide (back row = l)) : ℝ)
          / (table.data.length : ℝ)) := by
  have hz : (0.0 : ℝ) = 0 := by norm_num
  unfold getInfoD
  have h := StrMap.foldl_eq_sum (countLabels table.data) (countLabels_sorted _) 0
    (fun c => entropyTerm ((c : ℝ) / (table.data.length : ℝ)))
    (by simp [entropyTerm_zero]) labels
    (fun e he => by
      obtain ⟨row, hrow, hb⟩ := countLabels_keys _ e he
      rw [← hb]
      exact hlabels row hrow) 0
  simp only [entropyTerm, countLabels_get] at h
  simp only [entropyTerm, hz]
  rw [h, zero_add]

/-- Function `getInfoAttrD` as a sum over the values: `values` is any finite set that
contains the values of the attribute in the rows. -/
theorem getInfoAttrD_eq_sum (table : Table) (a : Nat) (values : Finset String)
    (hvalues : ∀ row ∈ table.data, cell row a ∈ values) :
    getInfoAttrD table a = ∑ v ∈ values,
      ((rowsWith table.data a v).length : ℝ) / (table.data.length : ℝ)
        * getInfoD { data := rowsWith table.data a v } := by
  have hz : (0.0 : ℝ) = 0 := by norm_num
  unfold getInfoAttrD
  have h := StrMap.foldl_eq_sum (groupRows a 0 table.data [])
    (groupRows_sorted a table.data 0 [] StrMap.sorted_nil) []
    (fun pos => ((rowsAt table.data pos).length : ℝ) / (table.data.length : ℝ)
      * getInfoD { data := rowsAt table.data pos })
    (by simp [rowsAt]) values
    (fun e he => by
      rcases groupRows_keys a e.1 table.data 0 [] (List.mem_map.mpr ⟨e, he, rfl⟩) with h | h
      · simp at h
      · obtain ⟨row, hrow, hb⟩ := h
        rw [← hb]
        exact hvalues row hrow) 0
  simp only [rowsAt_groupRows] at h
  simp only [hz]
  rw [h, zero_add]

/-! ## The gain is not negative -/

/-- Counting the rows by the value of a field: the counts over all values add up to the
count of all rows. -/
theorem sum_countP_by_value (g : Row → String) (q : Row → Bool) (values : Finset String) :
    ∀ (rows : List Row), (∀ row ∈ rows, g row ∈ values) →
      ∑ v ∈ values, rows.countP (fun row => decide (g row = v) && q row) = rows.countP q := by
  intro rows
  induction rows with
  | nil => intro _; simp
  | cons r rest ih =>
    intro h
    have hr : g r ∈ values := h r (by simp)
    have ih' := ih (fun row hrow => h row (by simp [hrow]))
    simp only [List.countP_cons]
    rw [Finset.sum_add_distrib, ih']
    congr 1
    by_cases hq : q r = true
    · simp [hq, Finset.sum_ite_eq, hr]
    · simp [hq]

theorem rowsWith_length_eq_countP (data : List Row) (a : Nat) (v : String) :
    (rowsWith data a v).length = data.countP (fun row => decide (cell row a = v)) := by
  unfold rowsWith
  rw [List.countP_eq_length_filter]

theorem rowsWith_countP (data : List Row) (a : Nat) (v l : String) :
    (rowsWith data a v).countP (fun row => decide (back row = l))
      = data.countP (fun row => decide (cell row a = v) && decide (back row = l)) := by
  unfold rowsWith
  rw [List.countP_filter]
  congr 1
  funext row
  exact Bool.and_comm _ _

theorem sum_rowsWith_length (data : List Row) (a : Nat) (values : Finset String)
    (h : ∀ row ∈ data, cell row a ∈ values) :
    ∑ v ∈ values, (rowsWith data a v).length = data.length := by
  have := sum_countP_by_value (fun row => cell row a) (fun _ => true) values data h
  simp only [Bool.and_true, List.countP_true] at this
  simpa [rowsWith_length_eq_countP] using this

theorem sum_rowsWith_countP (data : List Row) (a : Nat) (l : String) (values : Finset String)
    (h : ∀ row ∈ data, cell row a ∈ values) :
    ∑ v ∈ values, (rowsWith data a v).countP (fun row => decide (back row = l))
      = data.countP (fun row => decide (back row = l)) := by
  have := sum_countP_by_value (fun row => cell row a) (fun row => decide (back row = l))
    values data h
  simpa [rowsWith_countP] using this

theorem entropyTerm_eq (p : ℝ) : entropyTerm p = Real.negMulLog p / Real.log 2 := by
  unfold entropyTerm Real.negMulLog
  norm_num

/-- Jensen's inequality for the summand of the entropy. -/
theorem entropyTerm_jensen (values : Finset String) (w x : String → ℝ)
    (hw : ∀ v ∈ values, 0 ≤ w v) (hsum : ∑ v ∈ values, w v = 1)
    (hx : ∀ v ∈ values, 0 ≤ x v) :
    ∑ v ∈ values, w v * entropyTerm (x v) ≤ entropyTerm (∑ v ∈ values, w v * x v) := by
  have h := Real.concaveOn_negMulLog.le_map_sum hw hsum (fun v hv => Set.mem_Ici.mpr (hx v hv))
  simp only [smul_eq_mul] at h
  simp only [entropyTerm_eq]
  have h2 : ∑ v ∈ values, w v * (Real.negMulLog (x v) / Real.log 2)
      = (∑ v ∈ values, w v * Real.negMulLog (x v)) / Real.log 2 := by
    rw [Finset.sum_div]
    apply Finset.sum_congr rfl
    intro v _
    ring
  rw [h2]
  exact div_le_div_of_nonneg_right h (le_of_lt log_two_pos)

theorem getInfoD_nil (table : Table) (h : table.data = []) : getInfoD table = 0 := by
  unfold getInfoD
  rw [h]
  simp [countLabels]
  norm_num

theorem getInfoAttrD_nil (table : Table) (a : Nat) (h : table.data = []) :
    getInfoAttrD table a = 0 := by
  unfold getInfoAttrD
  rw [h]
  simp [groupRows]
  norm_num

/-- The information gain of every attribute is at least 0. -/
theorem getGain_nonneg (table : Table) (a : Nat) : 0 ≤ getGain table a := by
  unfold getGain
  by_cases hne : table.data = []
  · rw [getInfoD_nil table hne, getInfoAttrD_nil table a hne]
    norm_num
  have hn : (0 : ℝ) < (table.data.length : ℝ) := by
    have : 0 < table.data.length := List.length_pos.mpr hne
    exact_mod_cast this
  have hn0 : (table.data.length : ℝ) ≠ 0 := ne_of_gt hn
  let labels : Finset String := (table.data.map back).toFinset
  let values : Finset String := (table.data.map (fun row => cell row a)).toFinset
  have hlabels : ∀ row ∈ table.data, back row ∈ labels := fun row hrow =>
    List.mem_toFinset.mpr (List.mem_map.mpr ⟨row, hrow, rfl⟩)
  have hvalues : ∀ row ∈ table.data, cell row a ∈ values := fun row hrow =>
    List.mem_toFinset.mpr (List.mem_map.mpr ⟨row, hrow, rfl⟩)
  rw [getInfoD_eq_sum table labels hlabels, getInfoAttrD_eq_sum table a values hvalues]
  have hsub : ∀ v, ∀ row ∈ ({ data := rowsWith table.data a v } : Table).data,
      back row ∈ labels := by
    intro v row hrow
    exact hlabels row (List.mem_filter.mp hrow).1
  have hinner : ∀ v ∈ values,
      ((rowsWith table.data a v).length : ℝ) / (table.data.length : ℝ)
        * getInfoD { data := rowsWith table.data a v }
      = ∑ l ∈ labels, ((rowsWith table.data a v).length : ℝ) / (table.data.length : ℝ)
        * entropyTerm
          (((rowsWith table.data a v).countP (fun row => decide (back row = l)) : ℝ)
            / ((rowsWith table.data a v).length : ℝ)) := by
    intro v _
    rw [getInfoD_eq_sum _ labels (hsub v), Finset.mul_sum]
  rw [Finset.sum_congr rfl hinner, Finset.sum_comm, ← Finset.sum_sub_distrib]
  apply Finset.sum_nonneg
  intro l _
  rw [sub_nonneg]
  have hj := entropyTerm_jensen values
    (fun v => ((rowsWith table.data a v).length : ℝ) / (table.data.length : ℝ))
    (fun v => ((rowsWith table.data a v).countP (fun row => decide (back row = l)) : ℝ)
      / ((rowsWith table.data a v).length : ℝ))
    (fun v _ => div_nonneg (Nat.cast_nonneg _) (le_of_lt hn))
    (by
      rw [← Finset.sum_div, ← Nat.cast_sum, sum_rowsWith_length table.data a values hvalues]
      exact div_self hn0)
    (fun v _ => div_nonneg (Nat.cast_nonneg _) (Nat.cast_nonneg _))
  have hmean : ∑ v ∈ values,
      ((rowsWith table.data a v).length : ℝ) / (table.data.length : ℝ)
        * (((rowsWith table.data a v).countP (fun row => decide (back row = l)) : ℝ)
          / ((rowsWith table.data a v).length : ℝ))
      = (table.data.countP (fun row => decide (back row = l)) : ℝ)
        / (table.data.length : ℝ) := by
    rw [← sum_rowsWith_countP table.data a l values hvalues, Nat.cast_sum, Finset.sum_div]
    apply Finset.sum_congr rfl
    intro v _
    by_cases h0 : (rowsWith table.data a v).length = 0
    · have hc : (rowsWith table.data a v).countP (fun row => decide (back row = l)) = 0 := by
        have := List.countP_le_length (fun row => decide (back row = l))
          (l := rowsWith table.data a v)
        omega
      simp [h0, hc]
    · have h0' : ((rowsWith table.data a v).length : ℝ) ≠ 0 := by exact_mod_cast h0
      field_simp
      ring
  simp only [hmean] at hj
  exact hj

/-! ## The table `eightRows` -/

theorem getSplitInfoAttrD_of_groups (table : Table) (a : Nat) (groups : StrMap (List Nat))
    (h : groupRows a 0 table.data [] = groups) :
    getSplitInfoAttrD table a = groups.foldl
      (fun ret entry =>
        ret + -1.0 * (((rowsAt table.data entry.2).length : ℝ) / (table.data.length : ℝ))
          * Real.log (((rowsAt table.data entry.2).length : ℝ) / (table.data.length : ℝ))
          / Real.log 2) 0.0 := by
  unfold getSplitInfoAttrD
  rw [h]

theorem log_half : Real.log (1 / 2) = - Real.log 2 := by
  rw [one_div, Real.log_inv]

theorem log_quarter : Real.log (1 / 4) = - (2 * Real.log 2) := by
  have : (1 / 4 : ℝ) = (2 ^ 2)⁻¹ := by norm_num
  rw [this, Real.log_inv, Real.log_pow]
  push_cast
  ring

theorem log_eighth : Real.log (1 / 8) = - (3 * Real.log 2) := by
  have : (1 / 8 : ℝ) = (2 ^ 3)⁻¹ := by norm_num
  rw [this, Real.log_inv, Real.log_pow]
  push_cast
  ring

theorem log_three_quarters : Real.log (3 / 4) = Real.log 3 - 2 * Real.log 2 := by
  have : (4 : ℝ) = 2 ^ 2 := by norm_num
  rw [Real.log_div (by norm_num) (by norm_num), this, Real.log_pow]
  push_cast
  ring

theorem three_log_three_lt : 3 * Real.log 3 < 5 * Real.log 2 := by
  have h3 : (3 : ℝ) * Real.log 3 = Real.log (3 ^ 3) := by
    rw [Real.log_pow]
    push_cast
    ring
  have h2 : (5 : ℝ) * Real.log 2 = Real.log (2 ^ 5) := by
    rw [Real.log_pow]
    push_cast
    ring
  rw [h3, h2]
  exact Real.log_lt_log (by norm_num) (by norm_num)

theorem eightRows_infoD :
    getInfoD eightRows.extractAttrValue = 2 - 3 / 4 * (Real.log 3 / Real.log 2) := by
  have h2 : Real.log 2 ≠ 0 := ne_of_gt log_two_pos
  have hlen : eightRows.extractAttrValue.data.length = 8 := by decide
  rw [getInfoD_of_counts eightRows.extractAttrValue [("No", 2), ("Yes", 6)] (by decide), hlen]
  simp only [List.foldl_cons, List.foldl_nil]
  have e1 : ((2 : Nat) : ℝ) / ((8 : Nat) : ℝ) = 1 / 4 := by norm_num
  have e2 : ((6 : Nat) : ℝ) / ((8 : Nat) : ℝ) = 3 / 4 := by norm_num
  rw [e1, e2, log_quarter, log_three_quarters]
  field_simp
  ring

theorem eightRows_infoAttrD_zero : getInfoAttrD eightRows.extractAttrValue 0 = 1 / 2 := by
  have hA := getInfoAttrD_of_groups eightRows.extractAttrValue 0
    [("p", [0, 1, 2, 3]), ("q", [4, 5, 6, 7])] (by decide)
  have e1 : rowsAt eightRows.extractAttrValue.data [0, 1, 2, 3]
      = [["p", "1", "Yes"], ["p", "2", "Yes"], ["p", "3", "Yes"], ["p", "4", "Yes"]] := by
    decide
  have e2 : rowsAt eightRows.extractAttrValue.data [4, 5, 6, 7]
      = [["q", "5", "Yes"], ["q", "6", "Yes"], ["q", "7", "No"], ["q", "8", "No"]] := by
    decide
  have hlen : eightRows.extractAttrValue.data.length = 8 := by decide
  have hp : getInfoD
      { data := [["p", "1", "Yes"], ["p", "2", "Yes"], ["p", "3", "Yes"], ["p", "4", "Yes"]] }
      = 0 := getInfoD_pure _ "Yes" (by decide) (by decide)
  have hq : getInfoD
      { data := [["q", "5", "Yes"], ["q", "6", "Yes"], ["q", "7", "No"], ["q", "8", "No"]] }
      = 1 := getInfoD_half _ "No" "Yes" 2 (by norm_num) (by decide) (by decide)
  simp only [List.foldl_cons, List.foldl_nil, e1, e2, hlen, hp, hq] at hA
  rw [hA]
  norm_num

theorem eightRows_split_zero : getSplitInfoAttrD eightRows.extractAttrValue 0 = 1 := by
  have h2 : Real.log 2 ≠ 0 := ne_of_gt log_two_pos
  have hA := getSplitInfoAttrD_of_groups eightRows.extractAttrValue 0
    [("p", [0, 1, 2, 3]), ("q", [4, 5, 6, 7])] (by decide)
  have hlen : eightRows.extractAttrValue.data.length = 8 := by decide
  simp only [List.foldl_cons, List.foldl_nil, rowsAt_length, List.length_cons,
    List.length_nil, hlen] at hA
  rw [hA]
  norm_num
  rw [log_half]
  field_simp
  ring

theorem eightRows_infoAttrD_one : getInfoAttrD eightRows.extractAttrValue 1 = 0 := by
  apply getInfoAttrD_pure_groups
  intro e he
  have hg : groupRows 1 0 eightRows.extractAttrValue.data []
      = [("1", [0]), ("2", [1]), ("3", [2]), ("4", [3]), ("5", [4]), ("6", [5]), ("7", [6]),
         ("8", [7])] := by decide
  rw [hg] at he
  simp only [List.mem_cons, List.mem_singleton, List.not_mem_nil, or_false] at he
  rcases he with rfl | rfl | rfl | rfl | rfl | rfl | rfl | rfl <;>
    exact getInfoD_single_row _

theorem eightRows_split_one : getSplitInfoAttrD eightRows.extractAttrValue 1 = 3 := by
  have h2 : Real.log 2 ≠ 0 := ne_of_gt log_two_pos
  have hA := getSplitInfoAttrD_of_groups eightRows.extractAttrValue 1
    [("1", [0]), ("2", [1]), ("3", [2]), ("4", [3]), ("5", [4]), ("6", [5]), ("7", [6]),
     ("8", [7])] (by decide)
  have hlen : eightRows.extractAttrValue.data.length = 8 := by decide
  simp only [List.foldl_cons, List.foldl_nil, rowsAt_length, List.length_cons,
    List.length_nil, hlen] at hA
  rw [hA]
  norm_num
  rw [log_eighth]
  field_simp
  ring

theorem eightRows_select_root :
    getSelectedAttribute eightRows.extractAttrValue eightRows.extractAttrValue = 0 := by
  have h2 : 0 < Real.log 2 := log_two_pos
  have hr : Real.log 3 / Real.log 2 < 5 / 3 := by
    rw [div_lt_iff₀ h2]
    have := three_log_three_lt
    linarith
  have hg0 : getGain eightRows.extractAttrValue 0
      = 3 / 2 - 3 / 4 * (Real.log 3 / Real.log 2) := by
    unfold getGain
    rw [eightRows_infoD, eightRows_infoAttrD_zero]
    ring
  have hg1 : getGain eightRows.extractAttrValue 1
      = 2 - 3 / 4 * (Real.log 3 / Real.log 2) := by
    unfold getGain
    rw [eightRows_infoD, eightRows_infoAttrD_one]
    ring
  have hr0 : getGainRatio eightRows.extractAttrValue 0
      = Dbl.fin (3 / 2 - 3 / 4 * (Real.log 3 / Real.log 2)) := by
    unfold getGainRatio Dbl.div
    rw [eightRows_split_zero, hg0]
    simp
  have hr1 : getGainRatio eightRows.extractAttrValue 1
      = Dbl.fin ((2 - 3 / 4 * (Real.log 3 / Real.log 2)) / 3) := by
    unfold getGainRatio Dbl.div
    rw [eightRows_split_one, hg1]
    simp
  rcases getSelectedAttribute_cases eightRows.extractAttrValue eightRows.extractAttrValue
    (by decide) with ⟨_, hnone⟩ | ⟨i, hi, hs, _, hmax, _⟩
  · exfalso
    apply hnone 0 (by decide)
    rw [hr0]
    show (0 : ℝ) < _
    linarith
  · have hi' : i < 2 := hi
    rcases Nat.lt_or_ge i 1 with h | h
    · have : i = 0 := by omega
      rw [hs, this]
      rfl
    · have : i = 1 := by omega
      subst this
      exfalso
      apply hmax 0 (by decide)
      rw [hr0, hr1]
      show (_ : ℝ) < _
      linarith

theorem eightRows_select_q :
    getSelectedAttribute eightRows.extractAttrValue
      { data := [["q", "5", "Yes"], ["q", "6", "Yes"], ["q", "7", "No"], ["q", "8", "No"]] }
      = 1 := by
  have hgain : 0 < getGain
      { data := [["q", "5", "Yes"], ["q", "6", "Yes"], ["q", "7", "No"], ["q", "8", "No"]] }
      1 := by
    apply gain_pos_of_pure_groups
    · exact getInfoD_mixed_pos _ "No" "Yes" 2 2 (by norm_num) (by norm_num) (by decide)
        (by decide)
    · intro e he
      have hg : groupRows 1 0
          ({ data := [["q", "5", "Yes"], ["q", "6", "Yes"], ["q", "7", "No"],
                      ["q", "8", "No"]] } : Table).data []
          = [("5", [0]), ("6", [1]), ("7", [2]), ("8", [3])] := by decide
      rw [hg] at he
      simp only [List.mem_cons, List.mem_singleton, List.not_mem_nil, or_false] at he
      rcases he with rfl | rfl | rfl | rfl <;> exact getInfoD_single_row _
  have h := getSelectedAttribute_unique eightRows.extractAttrValue _ 1 (by decide) hgain ?_
  · simpa using h
  · intro j hj hj1
    have hj' : j < 2 := hj
    have hj0 : j = 0 := by omega
    subst hj0
    unfold getGain
    rw [getInfoAttrD_single _ 0 "q" (by decide) (by decide)]
    simp

theorem eightRows_build :
    build eightRows 3 = .ok { initialTable := eightRows.extractAttrValue, tree := eightTree } := by
  have hsel : getSelectedAttribute eightRows.extractAttrValue =
      fun t =>
        if t.data = eightRows.data then 0
        else if t.data
            = [["q", "5", "Yes"], ["q", "6", "Yes"], ["q", "7", "No"], ["q", "8", "No"]] then 1
        else getSelectedAttribute eightRows.extractAttrValue t := by
    funext t
    split_ifs with h1 h2
    · rw [getSelectedAttribute_data _ t _ h1]
      exact eightRows_select_root
    · rw [getSelectedAttribute_data _ t _ h2]
      exact eightRows_select_q
    · rfl
  rw [build_eq, hsel]
  decide

/-! ## An attribute that determines the label -/

theorem isLeafNode_false_labels {table : Table} (h : isLeafNode table = false) :
    ∃ r1 ∈ table.data, ∃ r2 ∈ table.data, back r1 ≠ back r2 := by
  by_contra hno
  push_neg at hno
  have : isLeafNode table = true := by
    rw [isLeafNode_iff]
    intro row hrow
    cases hd : table.data with
    | nil => rw [hd] at hrow; simp at hrow
    | cons first rest =>
      simp only [List.headD_cons]
      exact hno row hrow first (by rw [hd]; simp)
  rw [h] at this
  cases this

/-- The entropy of a subset whose labels are not all equal is positive. -/
theorem getInfoD_pos_of_mixed (table : Table) (h : isLeafNode table = false) :
    0 < getInfoD table := by
  obtain ⟨r1, hr1, r2, hr2, hne⟩ := isLeafNode_false_labels h
  have hlen : 0 < table.data.length := List.length_pos_of_mem hr1
  have hn : (0 : ℝ) < (table.data.length : ℝ) := by exact_mod_cast hlen
  rw [getInfoD_eq_sum table (table.data.map back).toFinset
    (fun row hrow => List.mem_toFinset.mpr (List.mem_map.mpr ⟨row, hrow, rfl⟩))]
  apply Finset.sum_pos'
  · intro l _
    apply entropyTerm_nonneg
    · exact div_nonneg (Nat.cast_nonneg _) (le_of_lt hn)
    · rw [div_le_one hn]
      exact_mod_cast List.countP_le_length _
  · refine ⟨back r1, List.mem_toFinset.mpr (List.mem_map.mpr ⟨r1, hr1, rfl⟩), ?_⟩
    have hc0 : 0 < table.data.countP (fun row => decide (back row = back r1)) :=
      List.countP_pos_iff.mpr ⟨r1, hr1, by simp⟩
    have hc1 : table.data.countP (fun row => decide (back row = back r1))
        < table.data.length := by
      have hle := List.countP_le_length (fun row => decide (back row = back r1))
        (l := table.data)
      rcases Nat.lt_or_ge (table.data.countP (fun row => decide (back row = back r1)))
        table.data.length with hlt | hge
      · exact hlt
      · exfalso
        have heq : table.data.countP (fun row => decide (back row = back r1))
            = table.data.length := by omega
        have hall := List.countP_eq_length.mp heq r2 hr2
        simp only [decide_eq_true_eq] at hall
        exact hne hall.symm
    apply entropyTerm_pos
    · exact div_pos (by exact_mod_cast hc0) hn
    · rw [div_lt_one hn]
      exact_mod_cast hc1

/-- `getInfoAttrD` is 0 for an attribute that determines the label. -/
theorem getInfoAttrD_of_determines (table : Table) (a : Nat)
    (hdet : ∀ r1 ∈ table.data, ∀ r2 ∈ table.data, cell r1 a = cell r2 a → back r1 = back r2) :
    getInfoAttrD table a = 0 := by
  rw [getInfoAttrD_eq_sum table a (table.data.map (fun row => cell row a)).toFinset
    (fun row hrow => List.mem_toFinset.mpr (List.mem_map.mpr ⟨row, hrow, rfl⟩))]
  apply Finset.sum_eq_zero
  intro v _
  have hz : getInfoD { data := rowsWith table.data a v } = 0 := by
    cases hd : rowsWith table.data a v with
    | nil => exact getInfoD_nil _ rfl
    | cons first rest =>
      have hfirst : first ∈ rowsWith table.data a v := by rw [hd]; simp
      have hf := List.mem_filter.mp hfirst
      apply getInfoD_pure _ (back first) (by simp)
      intro row hrow
      have hrow' : row ∈ rowsWith table.data a v := by rw [hd]; exact hrow
      have hr := List.mem_filter.mp hrow'
      have e1 : cell row a = v := by simpa using hr.2
      have e2 : cell first a = v := by simpa using hf.2
      exact hdet row hr.1 first hf.1 (by rw [e1, e2])
  rw [hz, mul_zero]

/-- An attribute that determines the label has a positive gain ratio on every subset whose
labels are not all equal. -/
theorem getGainRatio_pos_of_determines (table : Table) (a : Nat)
    (hmixed : isLeafNode table = false)
    (hdet : ∀ r1 ∈ table.data, ∀ r2 ∈ table.data, cell r1 a = cell r2 a → back r1 = back r2) :
    Dbl.lt (Dbl.fin 0) (getGainRatio table a) := by
  apply getGainRatio_pos
  unfold getGain
  rw [getInfoAttrD_of_determines table a hdet]
  have := getInfoD_pos_of_mixed table hmixed
  linarith

/-- The rows with one value of an attribute that determines the label have one label. -/
theorem isLeafNode_rowsWith_of_determines (data : List Row) (a : Nat) (v : String)
    (hdet : ∀ r1 ∈ data, ∀ r2 ∈ data, cell r1 a = cell r2 a → back r1 = back r2) :
    isLeafNode { data := rowsWith data a v } = true := by
  rw [isLeafNode_iff]
  intro row hrow
  cases hd : rowsWith data a v with
  | nil =>
    have hrow' : row ∈ rowsWith data a v := hrow
    rw [hd] at hrow'
    simp at hrow'
  | cons first rest =>
    have hrow' : row ∈ rowsWith data a v := hrow
    have hfirst : first ∈ rowsWith data a v := by rw [hd]; simp
    have hr := List.mem_filter.mp hrow'
    have hf := List.mem_filter.mp hfirst
    have e1 : cell row a = v := by simpa using hr.2
    have e2 : cell first a = v := by simpa using hf.2
    show back row = back (List.headD (first :: rest) [])
    simp only [List.headD_cons]
    exact hdet row hr.1 first hf.1 (by rw [e1, e2])

/-- Every child of a split node is the leaf of an empty partition or the root of the
subtree of a non-empty partition. -/
theorem Kids.child_cases {tree : List Node} {P : Table → String → Nat → Nat → Prop}
    {table : Table} {a : Nat} {maj : String} {cs : List Nat} {vs : List String}
    {start stop : Nat} (h : Kids tree P table a maj cs vs start stop) :
    ∀ c ∈ cs, ∃ v ∈ vs,
      (rowsWith table.data a v = [] ∧ tree[c]? = some (leafNode none v c maj)) ∨
      (rowsWith table.data a v ≠ [] ∧ ∃ mid, P { data := rowsWith table.data a v } v c mid) := by
  induction h with
  | nil => intro c hc; simp at hc
  | @leaf c0 stop v cs vs hrows hnode hrest ih =>
    intro c hc
    simp only [List.mem_cons] at hc
    rcases hc with rfl | hc
    · exact ⟨v, by simp, Or.inl ⟨hrows, hnode⟩⟩
    · obtain ⟨w, hw, h⟩ := ih c hc
      exact ⟨w, by simp [hw], h⟩
  | @sub c0 mid stop v cs vs hrows hlt hp hrest ih =>
    intro c hc
    simp only [List.mem_cons] at hc
    rcases hc with rfl | hc
    · exact ⟨v, by simp, Or.inr ⟨hrows, mid, hp⟩⟩
    · obtain ⟨w, hw, h⟩ := ih c hc
      exact ⟨w, by simp [hw], h⟩

/-! ## The majority label -/

/-- Invariant of the loop of `getMajorityLabel` after the rows `pre`: the map counts the
labels, `majorCount` is the count of `majorLabel` and no label has a larger count. -/
theorem majority_fold_inv :
    ∀ (rows pre : List Row) (st : MajorityState),
      st.labelCount.Sorted →
      (∀ l, st.labelCount.get l 0 = pre.countP (fun row => decide (back row = l))) →
      st.majorCount = pre.countP (fun row => decide (back row = st.majorLabel)) →
      (∀ l, pre.countP (fun row => decide (back row = l)) ≤ st.majorCount) →
      (pre ≠ [] → ∃ row ∈ pre, back row = st.majorLabel) →
      (rows.foldl majorityStep st).majorCount
          = (pre ++ rows).countP
              (fun row => decide (back row = (rows.foldl majorityStep st).majorLabel)) ∧
      (∀ l, (pre ++ rows).countP (fun row => decide (back row = l))
          ≤ (rows.foldl majorityStep st).majorCount) ∧
      (pre ++ rows ≠ [] →
        ∃ row ∈ pre ++ rows, back row = (rows.foldl majorityStep st).majorLabel) := by
  intro rows
  induction rows with
  | nil =>
    intro pre st _ _ h3 h4 h5
    simpa using ⟨h3, h4, h5⟩
  | cons r rest ih =>
    intro pre st h1 h2 h3 h4 h5
    have hcount : ∀ l, (pre ++ [r]).countP (fun row => decide (back row = l))
        = pre.countP (fun row => decide (back row = l)) + (if back r = l then 1 else 0) := by
      intro l
      rw [List.countP_append]
      by_cases hl : back r = l <;> simp [List.countP_cons, hl]
    have hget : ∀ l, (st.labelCount.modify (back r) 0 (· + 1)).get l 0
        = (pre ++ [r]).countP (fun row => decide (back row = l)) := by
      intro l
      rw [hcount]
      by_cases hl : back r = l
      · subst hl
        rw [StrMap.get_modify_self _ _ _ _ h1, h2]
        simp
      · rw [StrMap.get_modify_of_ne _ _ _ _ _ _ (fun e => hl e.symm), h2]
        simp [hl]
    have hsorted := StrMap.sorted_modify st.labelCount (back r) 0 (· + 1) h1
    have happ : pre ++ r :: rest = (pre ++ [r]) ++ rest := by simp
    rw [List.foldl_cons, happ]
    by_cases hgt : (st.labelCount.modify (back r) 0 (· + 1)).get (back r) 0 > st.majorCount
    · have hstep : majorityStep st r =
          { majorLabel := back r,
            majorCount := (st.labelCount.modify (back r) 0 (· + 1)).get (back r) 0,
            labelCount := st.labelCount.modify (back r) 0 (· + 1) } := by
        simp only [majorityStep, hgt, if_true]
      rw [hstep]
      apply ih (pre ++ [r]) _ hsorted hget (hget (back r))
      · intro l
        show _ ≤ (st.labelCount.modify (back r) 0 (· + 1)).get (back r) 0
        rw [hcount l]
        have := h4 l
        by_cases hl : back r = l
        · subst hl
          rw [hget, hcount]
        · simp only [hl, if_false, add_zero]
          omega
      · intro _
        exact ⟨r, by simp, rfl⟩
    · have hstep : majorityStep st r =
          { st with labelCount := st.labelCount.modify (back r) 0 (· + 1) } := by
        simp only [majorityStep, hgt, if_false]
      rw [hstep]
      have hle : (pre ++ [r]).countP (fun row => decide (back row = back r)) ≤ st.majorCount := by
        rw [← hget]
        omega
      have hne : back r ≠ st.majorLabel := by
        intro e
        rw [hcount, e] at hle
        simp only [if_true] at hle
        omega
      apply ih (pre ++ [r]) _ hsorted hget
      · show st.majorCount = _
        rw [hcount, h3]
        simp [hne]
      · intro l
        show _ ≤ st.majorCount
        by_cases hl : back r = l
        · subst hl
          exact hle
        · rw [hcount]
          simp only [hl, if_false, add_zero]
          exact h4 l
      · intro _
        show ∃ row ∈ pre ++ [r], back row = st.majorLabel
        by_cases hpre : pre = []
        · exfalso
          subst hpre
          have h3' : st.majorCount = 0 := by simpa using h3
          have hc : ([] ++ [r]).countP (fun row => decide (back row = back r)) = 1 := by simp
          rw [hc] at hle
          omega
        · obtain ⟨row, hrow, hb⟩ := h5 hpre
          exact ⟨row, by simp [hrow], hb⟩

/-- The pair returned by `getMajorityLabel`: the count is the number of rows carrying the
returned label, no label is carried by more rows, and the label is that of some row when
there is one. -/
theorem getMajorityLabel_spec (table : Table) :
    (getMajorityLabel table).2
        = table.data.countP (fun row => decide (back row = (getMajorityLabel table).1)) ∧
    (∀ l, table.data.countP (fun row => decide (back row = l)) ≤ (getMajorityLabel table).2) ∧
    (table.data ≠ [] → ∃ row ∈ table.data, back row = (getMajorityLabel table).1) := by
  have h := majority_fold_inv table.data [] {} StrMap.sorted_nil
    (fun l => by simp [StrMap.get]) (by simp) (fun l => by simp) (fun h => (h rfl).elim)
  simpa [getMajorityLabel] using h

theorem getMajorityLabel_pure (table : Table) (c : String) (hne : table.data ≠ [])
    (h : ∀ row ∈ table.data, back row = c) : (getMajorityLabel table).1 = c := by
  obtain ⟨row, hrow, hb⟩ := (getMajorityLabel_spec table).2.2 hne
  rw [← hb]
  exact h row hrow

/-! ## The traversal of `dfs` and the relation `Arrives` -/

theorem vecAt_ok_inv {α : Type} {xs : List α} {i : Nat} {x : α} (h : vecAt xs i = .ok x) :
    xs[i]? = some x := by
  unfold vecAt at h
  split at h
  · rename_i y hy
    injection h with h
    rw [hy, h]
  · cases h

theorem vecAtInt_ok_inv {α : Type} {xs : List α} {a : Int} {x : α}
    (h : vecAtInt xs a = .ok x) : 0 ≤ a ∧ xs[a.toNat]? = some x := by
  unfold vecAtInt at h
  split_ifs at h with h0
  exact ⟨by omega, vecAt_ok_inv h⟩

theorem dfsScan_ok_inv (tree : List Node) (row : Row) (a : Int)
    (recurse : Nat → Except Fault Int) (L : Nat) :
    ∀ (children : List Nat), dfsScan tree row a recurse children = .ok (L : Int) →
      ∃ value c, vecAtInt row a = .ok value ∧
        firstMatchingChild tree value children = some c ∧ recurse c = .ok (L : Int) := by
  intro children
  induction children with
  | nil =>
    intro h
    simp only [dfsScan] at h
    injection h with h
    omega
  | cons next rest ih =>
    intro h
    simp only [dfsScan] at h
    obtain ⟨value, hv, h⟩ := bind_ok_inv h
    obtain ⟨child, hc, h⟩ := bind_ok_inv h
    have hget := vecAt_ok_inv hc
    by_cases hm : value = child.attrValue
    · rw [if_pos hm] at h
      exact ⟨value, next, hv, by simp [firstMatchingChild, hget, hm], h⟩
    · rw [if_neg hm] at h
      obtain ⟨value', c, hv', hf, hr⟩ := ih h
      rw [hv] at hv'
      injection hv' with hv'
      subst hv'
      refine ⟨value, c, hv, ?_, hr⟩
      have hm' : ¬ child.attrValue = value := fun e => hm e.symm
      simpa [firstMatchingChild, hget, hm'] using hf

/-- A leaf returned by `dfs` is the leaf at which the traversal arrives. -/
theorem arrives_of_dfs (self : DecisionTree) (row : Row) (L : Nat) :
    ∀ (fuel k : Nat), dfs self row fuel k = .ok (L : Int) → Arrives self.tree row k L := by
  intro fuel
  induction fuel with
  | zero => intro k h; simp [dfs] at h
  | succ fuel ih =>
    intro k h
    simp only [dfs] at h
    obtain ⟨node, hk, h⟩ := bind_ok_inv h
    have hget := vecAt_ok_inv hk
    by_cases hleaf : node.isLeaf = true
    · rw [if_pos hleaf] at h
      injection h with h
      have : k = L := by omega
      subst this
      exact Arrives.leaf hget hleaf
    · rw [if_neg hleaf] at h
      obtain ⟨a, ha, h⟩ := bind_ok_inv h
      have hcrit : node.criteriaAttrIndex = some a := by
        unfold assigned at ha
        split at ha
        · rename_i x hx
          injection ha with ha
          rw [hx, ha]
        · cases ha
      obtain ⟨value, c, hv, hf, hr⟩ := dfsScan_ok_inv _ _ _ _ _ _ h
      obtain ⟨h0, hrow⟩ := vecAtInt_ok_inv hv
      exact Arrives.step hget (by simpa using hleaf) hcrit h0 hrow hf (ih c hr)

/-- When the children of every node lie behind the node, `dfs` returns the leaf at which
the traversal arrives as soon as the fuel covers the positions behind the start. -/
theorem dfs_of_arrives_bound (self : DecisionTree) (row : Row)
    (hinc : ∀ j node, self.tree[j]? = some node →
      ∀ x ∈ node.children, j < x ∧ x < self.tree.length)
    {k L : Nat} (h : Arrives self.tree row k L) :
    ∀ fuel, self.tree.length - k ≤ fuel → dfs self row fuel k = .ok (L : Int) := by
  induction h with
  | @leaf k node hk hleaf =>
    intro fuel hf
    have hlt : k < self.tree.length := (List.getElem?_eq_some.mp hk).1
    obtain ⟨f, rfl⟩ : ∃ f, fuel = f + 1 := ⟨fuel - 1, by omega⟩
    simp [dfs, vecAt, hk, hleaf, bind, Except.bind]
  | @step k c L node a value hk hleaf hcrit ha hrow hfirst _ ih =>
    intro fuel hf
    have hlt : k < self.tree.length := (List.getElem?_eq_some.mp hk).1
    obtain ⟨f, rfl⟩ : ∃ f, fuel = f + 1 := ⟨fuel - 1, by omega⟩
    have hc : c ∈ node.children := List.mem_of_find?_eq_some hfirst
    have hcr := hinc k node hk c hc
    have hscan := dfsScan_firstMatch self.tree row _ _ (dfs self row f)
      (vecAtInt_of_getElem? ha hrow) _ _
      (fun x hx => (hinc k node hk x hx).2) hfirst
    simp [dfs, vecAt, hk, hleaf, hcrit, assigned, bind, Except.bind, hscan]
    exact ih f (by omega)

/-! ## The training rows that reach a leaf -/

theorem arrives_at_leaf {tree : List Node} {row : Row} {k L : Nat} {node : Node}
    (hk : tree[k]? = some node) (hleaf : node.isLeaf = true) (h : Arrives tree row k L) :
    L = k := by
  cases h with
  | leaf _ _ => rfl
  | step hk' hleaf' _ _ _ _ _ =>
    rw [hk] at hk'
    injection hk' with e
    subst e
    rw [hleaf] at hleaf'
    cases hleaf'

theorem arrives_split_inv {tree : List Node} {row : Row} {k L : Nat} {crit : Int} {v : String}
    {cs : List Nat} (hk : tree[k]? = some (splitNode (some crit) v k cs))
    (h : Arrives tree row k L) :
    ∃ value c, 0 ≤ crit ∧ row[crit.toNat]? = some value ∧
      firstMatchingChild tree value cs = some c ∧ Arrives tree row c L := by
  cases h with
  | leaf hk' hleaf' =>
    rw [hk] at hk'
    injection hk' with e
    subst e
    simp [splitNode] at hleaf'
  | step hk' _ hcrit h0 hrow hfirst hrest =>
    rw [hk] at hk'
    injection hk' with e
    subst e
    simp only [splitNode, Option.some.injEq] at hcrit
    subst hcrit
    exact ⟨_, _, h0, hrow, hfirst, hrest⟩

theorem firstMatchingChild_spec {tree : List Node} {value : String} {cs : List Nat} {c : Nat}
    (h : firstMatchingChild tree value cs = some c) :
    c ∈ cs ∧ ∃ child, tree[c]? = some child ∧ child.attrValue = value := by
  refine ⟨List.mem_of_find?_eq_some h, ?_⟩
  have := List.find?_some h
  cases hc : tree[c]? with
  | none => simp [hc] at this
  | some child =>
    simp only [hc, decide_eq_true_eq] at this
    exact ⟨child, rfl, this⟩

/-- The traversal that enters the subtree of a node stays in the block of positions of
the subtree. -/
theorem arrives_in_block {tree : List Node} {row : Row} {lo hi : Nat}
    (hblock : ∀ j, lo ≤ j → j < hi → ∀ node, tree[j]? = some node →
      ∀ x ∈ node.children, j < x ∧ x < hi)
    {k L : Nat} (h : Arrives tree row k L) : lo ≤ k → k < hi → lo ≤ L ∧ L < hi := by
  induction h with
  | leaf _ _ => intro h1 h2; exact ⟨h1, h2⟩
  | @step k c L node a value hk _ _ _ _ hfirst _ ih =>
    intro h1 h2
    have hc : c ∈ node.children := List.mem_of_find?_eq_some hfirst
    have := hblock k h1 h2 node hk c hc
    exact ih (by omega) this.2

/-- The subtrees of two children of one node have no leaf in common. -/
theorem Kids.arrive_unique {tree : List Node} {P : Table → String → Nat → Nat → Prop}
    {table : Table} {a : Nat} {maj : String} {cs : List Nat} {vs : List String}
    {start stop : Nat} (h : Kids tree P table a maj cs vs start stop)
    (hP : ∀ t v c mid, P t v c mid →
      ∀ (r : Row) (L : Nat), Arrives tree r c L → c ≤ L ∧ L < mid) :
    ∀ c ∈ cs, ∀ (r : Row) (L : Nat), Arrives tree r c L →
      start ≤ L ∧ L < stop ∧
      ∀ c' ∈ cs, ∀ (r' : Row), Arrives tree r' c' L → c' = c := by
  induction h with
  | nil => intro c hc; simp at hc
  | @leaf c0 stop v cs vs hrows hnode hrest ih =>
    have hle := hrest.start_le
    intro c hc r L harr
    simp only [List.mem_cons] at hc
    rcases hc with rfl | hc
    · have hL : L = c := arrives_at_leaf hnode rfl harr
      subst hL
      refine ⟨le_refl _, by omega, ?_⟩
      intro c' hc' r' harr'
      simp only [List.mem_cons] at hc'
      rcases hc' with rfl | hc'
      · rfl
      · have := (ih c' hc' r' L harr').1
        omega
    · obtain ⟨h1, h2, h3⟩ := ih c hc r L harr
      refine ⟨by omega, h2, ?_⟩
      intro c' hc' r' harr'
      simp only [List.mem_cons] at hc'
      rcases hc' with rfl | hc'
      · have hL : L = c' := arrives_at_leaf hnode rfl harr'
        omega
      · exact h3 c' hc' r' harr'
  | @sub c0 mid stop v cs vs hrows hlt hp hrest ih =>
    have hle := hrest.start_le
    intro c hc r L harr
    simp only [List.mem_cons] at hc
    rcases hc with rfl | hc
    · obtain ⟨h1, h2⟩ := hP _ _ _ _ hp r L harr
      refine ⟨h1, by omega, ?_⟩
      intro c' hc' r' harr'
      simp only [List.mem_cons] at hc'
      rcases hc' with rfl | hc'
      · rfl
      · have := (ih c' hc' r' L harr').1
        omega
    · obtain ⟨h1, h2, h3⟩ := ih c hc r L harr
      refine ⟨by omega, h2, ?_⟩
      intro c' hc' r' harr'
      simp only [List.mem_cons] at hc'
      rcases hc' with rfl | hc'
      · have := hP _ _ _ _ hp r' L harr'
        omega
      · exact h3 c' hc' r' harr'

theorem Shape.arrives_within {sel : Table → Int} {it : Table} {tree : List Node} {n : Nat}
    {table : Table} {v : String} {k stop : Nat} (h : Shape sel it tree n table v k stop)
    (r : Row) (L : Nat) (harr : Arrives tree r k L) : k ≤ L ∧ L < stop :=
  Crop.arrives_in_block (Shape.children_in_range n h) harr (le_refl _) (Shape.lt_stop h)

theorem lastLabel_nonempty {table : Table} {label : String} (h : lastLabel table = .ok label) :
    table.data ≠ [] := by
  intro e
  simp [lastLabel, lastOf, e, bind, Except.bind] at h

theorem cell_of_getElem? {row : Row} {a : Nat} {value : String} (h : row[a]? = some value) :
    cell row a = value := by
  simp [cell, List.getD, h]

theorem getElem?_of_cell {row : Row} {a : Nat} (hlt : a < row.length) :
    row[a]? = some (cell row a) := by
  simp [cell, List.getD, List.getElem?_eq_getElem hlt]

/-- The rows of the subset of a node that arrive at a leaf `L` of its subtree, in their
order: there are none, or they are the whole subset of `L`, so that `L` carries their
majority label, and their common label when `L` was made by the pure-leaf check or for
an empty partition. -/
theorem Shape.leaf_rows {sel : Table → Int} {it : Table} {tree : List Node} :
    ∀ (n : Nat) {table : Table} {v : String} {k stop : Nat},
      Shape sel it tree n table v k stop →
      ∀ (L : Nat) (p : Row → Bool),
        (∀ row ∈ table.data, p row = true ↔ Arrives tree row k L) →
        table.data.filter p = [] ∨
        ∃ leaf, tree[L]? = some leaf ∧ leaf.isLeaf = true ∧
          leaf.label = (getMajorityLabel { data := table.data.filter p }).1 ∧
          (leaf.criteriaAttrIndex = none →
            ∀ row ∈ table.data.filter p, back row = leaf.label) := by
  intro n
  induction n with
  | zero => intro _ _ _ _ h; exact h.elim
  | succ n ih =>
    intro table v k stop h L p hp
    cases h with
    | pureLeaf label hleaf hlabel hnode _ =>
      by_cases hL : L = k
      · subst hL
        right
        have hall : table.data.filter p = table.data := by
          rw [List.filter_eq_self]
          intro row hrow
          exact (hp row hrow).mpr (Arrives.leaf hnode rfl)
        have hback := lastLabel_back hleaf hlabel
        refine ⟨_, hnode, rfl, ?_, ?_⟩
        · rw [hall]
          exact (getMajorityLabel_pure { data := table.data } label
            (lastLabel_nonempty hlabel) hback).symm
        · intro _ row hrow
          rw [hall] at hrow
          exact hback row hrow
      · left
        rw [List.filter_eq_nil_iff]
        intro row hrow hprow
        exact hL (arrives_at_leaf hnode rfl ((hp row hrow).mp hprow))
    | pruned hleaf hex hnode _ =>
      by_cases hL : L = k
      · subst hL
        right
        have hall : table.data.filter p = table.data := by
          rw [List.filter_eq_self]
          intro row hrow
          exact (hp row hrow).mpr (Arrives.leaf hnode rfl)
        refine ⟨_, hnode, rfl, ?_, ?_⟩
        · rw [hall]
          rfl
        · intro hnone
          simp [leafNode] at hnone
      · left
        rw [List.filter_eq_nil_iff]
        intro row hrow hprow
        exact hL (arrives_at_leaf hnode rfl ((hp row hrow).mp hprow))
    | split domain children hmixed hex h0 hv hdom hnode hkids =>
      by_cases hempty : table.data.filter p = []
      · exact Or.inl hempty
      obtain ⟨row0, hrow0⟩ := List.exists_mem_of_ne_nil _ hempty
      obtain ⟨hrow0d, hprow0⟩ := List.mem_filter.mp hrow0
      obtain ⟨value0, c0, _, hval0, hfirst0, harr0⟩ :=
        arrives_split_inv hnode ((hp row0 hrow0d).mp hprow0)
      obtain ⟨hc0, child0, hchild0, hattr0⟩ := firstMatchingChild_spec hfirst0
      have hcell0 : cell row0 (sel table).toNat = value0 := cell_of_getElem? hval0
      have huniq := (hkids.arrive_unique
        (fun t v c mid hs r L harr => Shape.arrives_within hs r L harr) c0 hc0 row0 L harr0).2.2
      -- every row that arrives at `L` holds the value of `row0`
      have hvalue : ∀ row ∈ table.data, p row = true → cell row (sel table).toNat = value0 := by
        intro row hrow hprow
        obtain ⟨value, c, _, hval, hfirst, harr⟩ :=
          arrives_split_inv hnode ((hp row hrow).mp hprow)
        obtain ⟨hc, child, hchild, hattr⟩ := firstMatchingChild_spec hfirst
        have hcc : c = c0 := huniq c hc row harr
        subst hcc
        rw [hchild0] at hchild
        injection hchild with e
        subst e
        rw [cell_of_getElem? hval, ← hattr, hattr0]
      have hviaChild : ∀ row ∈ rowsWith table.data (sel table).toNat value0,
          p row = true ↔ Arrives tree row c0 L := by
        intro row hrow
        obtain ⟨hrowd, hq⟩ := List.mem_filter.mp hrow
        have hcell : cell row (sel table).toNat = value0 := by simpa using hq
        constructor
        · intro hprow
          obtain ⟨value, c, _, hval, hfirst, harr⟩ :=
            arrives_split_inv hnode ((hp row hrowd).mp hprow)
          obtain ⟨hc, _⟩ := firstMatchingChild_spec hfirst
          have hcc : c = c0 := huniq c hc row harr
          rw [← hcc]
          exact harr
        · intro harr
          apply (hp row hrowd).mpr
          have hval : row[(sel table).toNat]? = some value0 := by
            rw [getElem?_of_cell (hv row hrowd), hcell]
          exact Arrives.step hnode rfl rfl h0 hval hfirst0 harr
      have hfilter : table.data.filter p
          = (rowsWith table.data (sel table).toNat value0).filter p := by
        unfold rowsWith
        rw [List.filter_filter]
        apply List.filter_congr
        intro row hrow
        by_cases hprow : p row = true
        · simp [hprow, hvalue row hrow hprow]
        · simp [hprow]
      obtain ⟨w, _, hcase⟩ := hkids.child_cases c0 hc0
      rcases hcase with ⟨hnone, hleafnode⟩ | ⟨_, mid, hs⟩
      · exfalso
        rw [hchild0] at hleafnode
        injection hleafnode with e
        have hw : w = value0 := by rw [← hattr0, e]; rfl
        rw [hw] at hnone
        have : row0 ∈ rowsWith table.data (sel table).toNat value0 :=
          List.mem_filter.mpr ⟨hrow0d, by simpa using hcell0⟩
        rw [hnone] at this
        simp at this
      · obtain ⟨node, hnode', hattr', _⟩ := Shape.node_at hs
        rw [hchild0] at hnode'
        injection hnode' with e
        have hw : w = value0 := by rw [← hattr0, e, hattr']
        rw [hw] at hs
        have := ih hs L p hviaChild
        rw [hfilter]
        exact this

theorem build_children_increasing {table : Table} {fuel : Nat} {dt : DecisionTree}
    (h : build table fuel = .ok dt) :
    ∀ j node, dt.tree[j]? = some node → ∀ x ∈ node.children, j < x ∧ x < dt.tree.length := by
  intro j node hj x hx
  have hlt : j < dt.tree.length := (List.getElem?_eq_some.mp hj).1
  exact Shape.children_in_range fuel (buildWith_shape h) j (Nat.zero_le _) hlt node hj x hx

/-- On a built tree `dfs` returns the leaf `L` for some fuel exactly when it returns it
for the fuel `tree.size()`, and exactly when the traversal arrives at `L`. -/
theorem build_dfs_iff {table : Table} {fuel : Nat} {dt : DecisionTree}
    (h : build table fuel = .ok dt) (row : Row) (L : Nat) :
    ((∃ n, dfs dt row n 0 = .ok (L : Int)) ↔ dfs dt row dt.tree.length 0 = .ok (L : Int)) ∧
    (dfs dt row dt.tree.length 0 = .ok (L : Int) ↔ Arrives dt.tree row 0 L) := by
  have hinc := build_children_increasing h
  have hback : Arrives dt.tree row 0 L → dfs dt row dt.tree.length 0 = .ok (L : Int) :=
    fun harr => dfs_of_arrives_bound dt row hinc harr dt.tree.length (by omega)
  refine ⟨⟨?_, fun hd => ⟨_, hd⟩⟩, ⟨arrives_of_dfs dt row L _ 0, hback⟩⟩
  rintro ⟨n, hn⟩
  exact hback (arrives_of_dfs dt row L n 0 hn)

/-! ## The moment at which the majority label is chosen -/

theorem countP_label_snoc (pre : List Row) (r : Row) (l : String) :
    (pre ++ [r]).countP (fun row => decide (back row = l))
      = pre.countP (fun row => decide (back row = l)) + (if back r = l then 1 else 0) := by
  rw [List.countP_append]
  by_cases hl : back r = l <;> simp [List.countP_cons, hl]

/-- One iteration of the loop of `getMajorityLabel` keeps the invariant: the map counts the
labels of the rows seen, `majorCount` is the count of `majorLabel`, no label has a larger
count, and `majorLabel` reached that count at a row at which every other label had a
smaller count. -/
theorem majorityStep_inv (pre : List Row) (r : Row) (st : MajorityState)
    (h1 : st.labelCount.Sorted)
    (h2 : ∀ l, st.labelCount.get l 0 = pre.countP (fun row => decide (back row = l)))
    (h3 : st.majorCount = pre.countP (fun row => decide (back row = st.majorLabel)))
    (h4 : ∀ l, pre.countP (fun row => decide (back row = l)) ≤ st.majorCount)
    (h5 : pre = [] ∨ ∃ (i : Nat) (row : Row), pre[i]? = some row ∧ back row = st.majorLabel ∧
      (pre.take (i + 1)).countP (fun row => decide (back row = st.majorLabel))
        = st.majorCount ∧
      ∀ x, x ≠ st.majorLabel →
        (pre.take (i + 1)).countP (fun row => decide (back row = x)) < st.majorCount) :
    (majorityStep st r).labelCount.Sorted ∧
    (∀ l, (majorityStep st r).labelCount.get l 0
      = (pre ++ [r]).countP (fun row => decide (back row = l))) ∧
    (majorityStep st r).majorCount
      = (pre ++ [r]).countP (fun row => decide (back row = (majorityStep st r).majorLabel)) ∧
    (∀ l, (pre ++ [r]).countP (fun row => decide (back row = l))
      ≤ (majorityStep st r).majorCount) ∧
    ∃ (i : Nat) (row : Row), (pre ++ [r])[i]? = some row ∧
      back row = (majorityStep st r).majorLabel ∧
      ((pre ++ [r]).take (i + 1)).countP
        (fun row => decide (back row = (majorityStep st r).majorLabel))
        = (majorityStep st r).majorCount ∧
      ∀ x, x ≠ (majorityStep st r).majorLabel →
        ((pre ++ [r]).take (i + 1)).countP (fun row => decide (back row = x))
          < (majorityStep st r).majorCount := by
  have hsorted := StrMap.sorted_modify st.labelCount (back r) 0 (· + 1) h1
  have hget : ∀ l, (st.labelCount.modify (back r) 0 (· + 1)).get l 0
      = (pre ++ [r]).countP (fun row => decide (back row = l)) := by
    intro l
    rw [countP_label_snoc]
    by_cases hl : back r = l
    · subst hl
      rw [StrMap.get_modify_self _ _ _ _ h1, h2]
      simp
    · rw [StrMap.get_modify_of_ne _ _ _ _ _ _ (fun e => hl e.symm), h2]
      simp [hl]
  by_cases hgt : (st.labelCount.modify (back r) 0 (· + 1)).get (back r) 0 > st.majorCount
  · have hstep : majorityStep st r =
        { majorLabel := back r,
          majorCount := (st.labelCount.modify (back r) 0 (· + 1)).get (back r) 0,
          labelCount := st.labelCount.modify (back r) 0 (· + 1) } := by
      simp only [majorityStep, hgt, if_true]
    rw [hstep]
    refine ⟨hsorted, hget, hget (back r), ?_, ?_⟩
    · intro l
      show _ ≤ (st.labelCount.modify (back r) 0 (· + 1)).get (back r) 0
      by_cases hl : back r = l
      · subst hl
        rw [hget]
      · rw [countP_label_snoc]
        simp only [hl, if_false, add_zero]
        have := h4 l
        omega
    · refine ⟨pre.length, r, by simp, rfl, ?_, ?_⟩
      · show _ = (st.labelCount.modify (back r) 0 (· + 1)).get (back r) 0
        rw [hget]
        congr 1
        simp
      · intro x hx
        show _ < (st.labelCount.modify (back r) 0 (· + 1)).get (back r) 0
        have htake : (pre ++ [r]).take (pre.length + 1) = pre ++ [r] := by simp
        rw [htake, countP_label_snoc]
        have hx' : ¬ back r = x := fun e => hx e.symm
        simp only [hx', if_false, add_zero]
        have := h4 x
        omega
  · have hstep : majorityStep st r =
        { st with labelCount := st.labelCount.modify (back r) 0 (· + 1) } := by
      simp only [majorityStep, hgt, if_false]
    have hle : (pre ++ [r]).countP (fun row => decide (back row = back r)) ≤ st.majorCount := by
      rw [← hget]
      omega
    have hne : back r ≠ st.majorLabel := by
      intro e
      rw [countP_label_snoc, e] at hle
      simp only [if_true] at hle
      omega
    have hpre : pre ≠ [] := by
      intro e
      subst e
      have h3' : st.majorCount = 0 := by simpa using h3
      have hc : ([] ++ [r]).countP (fun row => decide (back row = back r)) = 1 := by simp
      rw [hc] at hle
      omega
    rw [hstep]
    refine ⟨hsorted, hget, ?_, ?_, ?_⟩
    · show st.majorCount = _
      rw [countP_label_snoc, h3]
      simp [hne]
    · intro l
      show _ ≤ st.majorCount
      by_cases hl : back r = l
      · subst hl
        exact hle
      · rw [countP_label_snoc]
        simp only [hl, if_false, add_zero]
        exact h4 l
    · rcases h5 with h5 | ⟨i, row, hi, hb, hc, hx⟩
      · exact (hpre h5).elim
      · have hlt : i < pre.length := (List.getElem?_eq_some.mp hi).1
        have htake : (pre ++ [r]).take (i + 1) = pre.take (i + 1) := by
          rw [List.take_append_of_le_length (by omega)]
        refine ⟨i, row, ?_, hb, ?_, ?_⟩
        · rw [List.getElem?_append_left hlt]
          exact hi
        · show ((pre ++ [r]).take (i + 1)).countP
            (fun row => decide (back row = st.majorLabel)) = st.majorCount
          rw [htake]
          exact hc
        · intro x hxne
          show ((pre ++ [r]).take (i + 1)).countP (fun row => decide (back row = x))
            < st.majorCount
          rw [htake]
          exact hx x hxne

/-- The state of the loop of `getMajorityLabel` after all rows of a non-empty list. -/
theorem majority_fold_first (rows : List Row) (hne : rows ≠ []) :
    (rows.foldl majorityStep {}).labelCount.Sorted ∧
    (∀ l, (rows.foldl majorityStep {}).labelCount.get l 0
      = rows.countP (fun row => decide (back row = l))) ∧
    (rows.foldl majorityStep {}).majorCount
      = rows.countP (fun row => decide (back row = (rows.foldl majorityStep {}).majorLabel)) ∧
    (∀ l, rows.countP (fun row => decide (back row = l))
      ≤ (rows.foldl majorityStep {}).majorCount) ∧
    ∃ (i : Nat) (row : Row), rows[i]? = some row ∧
      back row = (rows.foldl majorityStep {}).majorLabel ∧
      (rows.take (i + 1)).countP
        (fun row => decide (back row = (rows.foldl majorityStep {}).majorLabel))
        = (rows.foldl majorityStep {}).majorCount ∧
      ∀ x, x ≠ (rows.foldl majorityStep {}).majorLabel →
        (rows.take (i + 1)).countP (fun row => decide (back row = x))
          < (rows.foldl majorityStep {}).majorCount := by
  induction rows using List.reverseRecOn with
  | nil => exact (hne rfl).elim
  | append_singleton pre r ih =>
    rw [List.foldl_append, List.foldl_cons, List.foldl_nil]
    by_cases hpre : pre = []
    · subst hpre
      exact majorityStep_inv [] r {} StrMap.sorted_nil (fun l => by simp [StrMap.get])
        (by simp) (fun l => by simp) (Or.inl rfl)
    · obtain ⟨h1, h2, h3, h4, h5⟩ := ih hpre
      exact majorityStep_inv pre r _ h1 h2 h3 h4 (Or.inr h5)

theorem getMajorityLabel_nil (table : Table) (h : table.data = []) :
    getMajorityLabel table = ("", 0) := by
  simp [getMajorityLabel, h]

/-! ## Every node but the root has exactly one parent -/

theorem getMajorityLabel_tie :
    getMajorityLabel { data := [["Yes"], ["No"], ["No"], ["Yes"]] } = ("No", 2) := by
  decide

theorem Parented.widen {tree : List Node} {lo hi lo' hi' c : Nat}
    (h : Parented tree lo hi c) (hlo : lo' ≤ lo) (hhi : hi ≤ hi')
    (hout : ∀ (j' : Nat) (node' : Node), lo' ≤ j' → j' < hi' → ¬ (lo ≤ j' ∧ j' < hi) →
      tree[j']? = some node' → c ∉ node'.children) :
    Parented tree lo' hi' c := by
  obtain ⟨j, node, h1, h2, h3, h4, h5⟩ := h
  refine ⟨j, node, by omega, by omega, h3, h4, ?_⟩
  intro j' node' hj1 hj2 hnode' hc
  by_cases hin : lo ≤ j' ∧ j' < hi
  · exact h5 j' node' hin.1 hin.2 hnode' hc
  · exact (hout j' node' hj1 hj2 hin hnode' hc).elim

/-- The children of a split node are distinct positions, the first positions of the blocks
of their subtrees; no node of these subtrees lists one of them as a child, and every other
position of the blocks has exactly one parent in them. -/
theorem Kids.unique_parents {tree : List Node} {P : Table → String → Nat → Nat → Prop}
    {table : Table} {a : Nat} {maj : String} {cs : List Nat} {vs : List String}
    {start stop : Nat} (h : Kids tree P table a maj cs vs start stop)
    (hP : ∀ t v c mid, P t v c mid →
      (∀ j, c ≤ j → j < mid → ∀ node, tree[j]? = some node →
        ∀ x ∈ node.children, j < x ∧ x < mid) ∧
      (∀ x, c < x → x < mid → Parented tree c mid x)) :
    (∀ j, start ≤ j → j < stop → ∀ node, tree[j]? = some node →
      ∀ x ∈ node.children, j < x ∧ x < stop ∧ x ∉ cs) ∧
    (∀ c, start ≤ c → c < stop → c ∉ cs → Parented tree start stop c) ∧
    cs.Nodup := by
  induction h with
  | nil =>
    refine ⟨?_, ?_, List.nodup_nil⟩
    · intro j h1 h2; omega
    · intro c h1 h2; omega
  | @leaf c0 stop v cs vs hrows hnode hrest ih =>
    obtain ⟨k1, k2, k3⟩ := ih
    have hle := hrest.start_le
    have hrange := hrest.children_range
    refine ⟨?_, ?_, ?_⟩
    · intro j h1 h2 node hj x hx
      by_cases hjc : j = c0
      · subst hjc
        rw [hnode] at hj
        injection hj with hj
        subst hj
        simp [leafNode] at hx
      · obtain ⟨x1, x2, x3⟩ := k1 j (by omega) h2 node hj x hx
        refine ⟨x1, x2, ?_⟩
        simp only [List.mem_cons, not_or]
        exact ⟨by omega, x3⟩
    · intro c h1 h2 hc
      simp only [List.mem_cons, not_or] at hc
      have hc1 : c0 + 1 ≤ c := by omega
      refine (k2 c hc1 h2 hc.2).widen (by omega) (le_refl _) ?_
      intro j' node' hj1 hj2 hout hnode' hmem
      have hj : j' = c0 := by omega
      subst hj
      rw [hnode] at hnode'
      injection hnode' with e
      subst e
      simp [leafNode] at hmem
    · rw [List.nodup_cons]
      refine ⟨?_, k3⟩
      intro hmem
      have := hrange c0 hmem
      omega
  | @sub c0 mid stop v cs vs hrows hlt hp hrest ih =>
    obtain ⟨k1, k2, k3⟩ := ih
    obtain ⟨b1, b2⟩ := hP _ _ _ _ hp
    have hle := hrest.start_le
    have hrange := hrest.children_range
    refine ⟨?_, ?_, ?_⟩
    · intro j h1 h2 node hj x hx
      by_cases hjm : j < mid
      · obtain ⟨x1, x2⟩ := b1 j h1 hjm node hj x hx
        refine ⟨x1, by omega, ?_⟩
        simp only [List.mem_cons, not_or]
        refine ⟨by omega, ?_⟩
        intro hmem
        have := hrange x hmem
        omega
      · obtain ⟨x1, x2, x3⟩ := k1 j (by omega) h2 node hj x hx
        refine ⟨x1, x2, ?_⟩
        simp only [List.mem_cons, not_or]
        exact ⟨by omega, x3⟩
    · intro c h1 h2 hc
      simp only [List.mem_cons, not_or] at hc
      by_cases hcm : c < mid
      · refine (b2 c (by omega) hcm).widen (le_refl _) (by omega) ?_
        intro j' node' hj1 hj2 hout hnode' hmem
        have := (k1 j' (by omega) hj2 node' hnode' c hmem).1
        omega
      · refine (k2 c (by omega) h2 hc.2).widen (by omega) (le_refl _) ?_
        intro j' node' hj1 hj2 hout hnode' hmem
        have := (b1 j' hj1 (by omega) node' hnode' c hmem).2
        omega
    · rw [List.nodup_cons]
      refine ⟨?_, k3⟩
      intro hmem
      have := hrange c0 hmem
      omega

/-- In the block of positions of a subtree every position but the first has exactly one
parent. -/
theorem Shape.parented {sel : Table → Int} {it : Table} {tree : List Node} :
    ∀ (n : Nat) {table : Table} {v : String} {k stop : Nat},
      Shape sel it tree n table v k stop →
      ∀ c, k < c → c < stop → Parented tree k stop c := by
  intro n
  induction n with
  | zero => intro _ _ _ _ h; exact h.elim
  | succ n ih =>
    intro table v k stop h c h1 h2
    cases h with
    | pureLeaf label _ _ _ hs => omega
    | pruned _ _ _ hs => omega
    | split domain children _ _ _ _ _ hnode hkids =>
      obtain ⟨k1, k2, k3⟩ := hkids.unique_parents
        (fun t v c mid hp => ⟨Shape.children_in_range n hp, ih hp⟩)
      by_cases hc : c ∈ children
      · refine ⟨k, _, le_refl _, by omega, hnode, ?_, ?_⟩
        · exact List.count_eq_one_of_mem k3 hc
        · intro j' node' hj1 hj2 hnode' hmem
          by_contra hne
          exact (k1 j' (by omega) hj2 node' hnode' c hmem).2.2 hc
      · refine (k2 c (by omega) h2 hc).widen (by omega) (le_refl _) ?_
        intro j' node' hj1 hj2 hout hnode' hmem
        have hj : j' = k := by omega
        subst hj
        rw [hnode] at hnode'
        injection hnode' with e
        subst e
        exact hc hmem

/-! ## Termination of `dfs` on a built tree -/

theorem vecAt_error {α : Type} {xs : List α} {i : Nat} {e : Fault}
    (h : vecAt xs i = .error e) : e = .outOfRange := by
  unfold vecAt at h
  split at h
  · cases h
  · injection h with h
    exact h.symm

theorem vecAtInt_error {α : Type} {xs : List α} {a : Int} {e : Fault}
    (h : vecAtInt xs a = .error e) : e = .outOfRange := by
  unfold vecAtInt at h
  split_ifs at h
  · injection h with h
    exact h.symm
  · exact vecAt_error h

theorem dfsScan_not_outOfFuel (tree : List Node) (row : Row) (a : Int)
    (recurse : Nat → Except Fault Int) :
    ∀ (children : List Nat), (∀ x ∈ children, recurse x ≠ .error .outOfFuel) →
      dfsScan tree row a recurse children ≠ .error .outOfFuel := by
  intro children
  induction children with
  | nil => intro _ h; simp [dfsScan] at h
  | cons next rest ih =>
    intro hrec h
    simp only [dfsScan] at h
    cases hv : vecAtInt row a with
    | error e =>
      rw [hv] at h
      have := vecAtInt_error hv
      subst this
      simp [bind, Except.bind] at h
    | ok value =>
      rw [hv] at h
      cases hc : vecAt tree next with
      | error e =>
        rw [hc] at h
        have := vecAt_error hc
        subst this
        simp [bind, Except.bind] at h
      | ok child =>
        rw [hc] at h
        simp only [bind, Except.bind] at h
        by_cases hm : value = child.attrValue
        · rw [if_pos hm] at h
          exact hrec next (by simp) h
        · rw [if_neg hm] at h
          exact ih (fun x hx => hrec x (by simp [hx])) h

/-- When the children of every node lie behind the node, `dfs` does not run out of fuel
as soon as the fuel covers the positions behind the start, whatever the row. -/
theorem dfs_not_outOfFuel (self : DecisionTree) (row : Row)
    (hinc : ∀ j node, self.tree[j]? = some node →
      ∀ x ∈ node.children, j < x ∧ x < self.tree.length) :
    ∀ (fuel k : Nat), k < self.tree.length → self.tree.length - k ≤ fuel →
      dfs self row fuel k ≠ .error .outOfFuel := by
  intro fuel
  induction fuel with
  | zero => intro k h1 h2; omega
  | succ fuel ih =>
    intro k h1 h2 h
    have hk : self.tree[k]? = some self.tree[k] := List.getElem?_eq_getElem h1
    simp only [dfs, vecAt, hk, bind, Except.bind] at h
    by_cases hleaf : (self.tree[k]).isLeaf = true
    · rw [if_pos hleaf] at h
      cases h
    · rw [if_neg hleaf] at h
      cases hc : (self.tree[k]).criteriaAttrIndex with
      | none => simp [hc, assigned] at h
      | some a =>
        simp only [hc, assigned] at h
        refine dfsScan_not_outOfFuel _ _ _ _ _ ?_ h
        intro x hx
        have := hinc k _ hk x hx
        exact ih x this.2 (by omega)

theorem dfsScan_total (tree : List Node) (row : Row) (a : Int) (value : String)
    (recurse : Nat → Except Fault Int) (hv : vecAtInt row a = .ok value) :
    ∀ (children : List Nat),
      (∀ x ∈ children, x < tree.length ∧
        ∃ r : Int, recurse x = .ok r ∧ (r = -1 ∨ ∃ L : Nat, r = (L : Int))) →
      ∃ r : Int, dfsScan tree row a recurse children = .ok r ∧
        (r = -1 ∨ ∃ L : Nat, r = (L : Int)) := by
  intro children
  induction children with
  | nil => intro _; exact ⟨-1, rfl, Or.inl rfl⟩
  | cons next rest ih =>
    intro hrec
    obtain ⟨hlt, hr⟩ := hrec next (by simp)
    have hget : tree[next]? = some tree[next] := List.getElem?_eq_getElem hlt
    simp only [dfsScan, hv, vecAt, hget, bind, Except.bind]
    by_cases hm : value = (tree[next]).attrValue
    · rw [if_pos hm]
      exact hr
    · rw [if_neg hm]
      exact ih (fun x hx => hrec x (by simp [hx]))

/-- When the children of every node lie behind the node and the row has a field for the
split attribute of every node that is not a leaf, `dfs` returns `-1` or a position as
soon as the fuel covers the positions behind the start. -/
theorem dfs_total (self : DecisionTree) (row : Row)
    (hinc : ∀ j node, self.tree[j]? = some node →
      ∀ x ∈ node.children, j < x ∧ x < self.tree.length)
    (hcrit : ∀ (j : Nat) (node : Node), self.tree[j]? = some node → node.isLeaf = false →
      ∃ a : Nat, node.criteriaAttrIndex = some (a : Int) ∧ a < row.length) :
    ∀ (fuel k : Nat), k < self.tree.length → self.tree.length - k ≤ fuel →
      ∃ r : Int, dfs self row fuel k = .ok r ∧ (r = -1 ∨ ∃ L : Nat, r = (L : Int)) := by
  intro fuel
  induction fuel with
  | zero => intro k h1 h2; omega
  | succ fuel ih =>
    intro k h1 h2
    have hk : self.tree[k]? = some self.tree[k] := List.getElem?_eq_getElem h1
    simp only [dfs, vecAt, hk, bind, Except.bind]
    by_cases hleaf : (self.tree[k]).isLeaf = true
    · rw [if_pos hleaf]
      exact ⟨(k : Int), rfl, Or.inr ⟨k, rfl⟩⟩
    · rw [if_neg hleaf]
      obtain ⟨a, ha, halt⟩ := hcrit k _ hk (by simpa using hleaf)
      simp only [ha, assigned]
      have hv : vecAtInt row (a : Int) = .ok (cell row a) := by
        have := @vecAtInt_cell row (a : Int) (Int.ofNat_nonneg a)
          (by simpa using halt)
        simpa using this
      refine dfsScan_total _ _ _ _ _ hv _ ?_
      intro x hx
      have := hinc k _ hk x hx
      exact ⟨this.2, ih x this.2 (by omega)⟩

/-- A node of a built tree that is not a leaf splits on a non-label attribute. -/
theorem build_split_attribute {table : Table} {fuel : Nat} {dt : DecisionTree}
    (h : build table fuel = .ok dt) :
    ∀ (k : Nat) (node : Node), dt.tree[k]? = some node → node.isLeaf = false →
      ∃ a : Nat, node.criteriaAttrIndex = some (a : Int) ∧ a < table.attrName.length - 1 := by
  obtain ⟨hit, _⟩ := buildWith_inv h
  refine build_forall_nodes h
    (fun _ (node : Node) => node.isLeaf = false →
      ∃ a : Nat, node.criteriaAttrIndex = some (a : Int) ∧ a < table.attrName.length - 1)
    (fun _ _ _ _ hc => by simp [leafNode] at hc) ?_
  intro n S v k stop domain children _ _ h0 hdom _ _ _
  have hattr : dt.initialTable.attrName ≠ [] := by
    intro e
    have hlt := (List.getElem?_eq_some.mp (vecAtInt_ok_inv hdom).2).1
    have hlen : dt.initialTable.attrValueList.length = dt.initialTable.attrName.length := by
      rw [hit]
      exact extractAttrValue_length table
    rw [hlen, e] at hlt
    simp at hlt
  rcases getSelectedAttribute_cases dt.initialTable S hattr with
    ⟨hs, _⟩ | ⟨i, hi, hs, _, _, _⟩
  · rw [hs] at h0
    omega
  · rw [hit] at hi
    exact ⟨i, by rw [hs]; rfl, hi⟩

/-! ## The construction for an arbitrary selection -/

theorem buildWith_eq (sel : Table → Table → Int) (table : Table) (fuel : Nat) :
    buildWith sel table fuel =
      (runWith (sel table.extractAttrValue) table.extractAttrValue fuel
        table.extractAttrValue 0 [splitNode none "" 0 []]).bind
        (fun tree => .ok { initialTable := table.extractAttrValue, tree := tree }) := rfl

theorem buildWith_fuel_mono (sel : Table → Table → Int) (table : Table) (fuel fuel' : Nat)
    (hle : fuel ≤ fuel') (dt : DecisionTree) (h : buildWith sel table fuel = .ok dt) :
    buildWith sel table fuel' = .ok dt := by
  rw [buildWith_eq] at h ⊢
  obtain ⟨tree, ht, h⟩ := bind_ok_inv h
  rw [runWith_fuel_mono _ _ fuel fuel' hle _ _ _ _ ht]
  exact h

/-- The rows holding one value of an attribute on which two rows differ are fewer than the
rows. -/
theorem rowsWith_length_lt_of_differ (data : List Row) (i : Nat) (v : String)
    (hdiff : ∃ r1 ∈ data, ∃ r2 ∈ data, cell r1 i ≠ cell r2 i) :
    (rowsWith data i v).length < data.length := by
  obtain ⟨r1, h1, r2, h2, hne⟩ := hdiff
  by_contra hge
  have hle : (rowsWith data i v).length ≤ data.length := List.length_filter_le _ _
  have heq : (rowsWith data i v).length = data.length := by omega
  have hall : rowsWith data i v = data := (List.filter_sublist data).eq_of_length heq
  have hsingle : ∀ row ∈ data, cell row i = v := by
    intro row hrow
    have := (List.filter_eq_self.mp hall) row hrow
    simpa using this
  exact hne ((hsingle r1 h1).trans (hsingle r2 h2).symm)

/-- When the selection returns, on every visited subset whose labels are not all equal, a
non-label attribute on which two rows of the subset differ, the constructor returns one
and the same tree for every fuel from the number of rows on. -/
theorem buildWith_total (sel : Table → Table → Int) (table : Table)
    (hne : table.data ≠ []) (hattr : table.attrName ≠ [])
    (hwf : ∀ row ∈ table.data, row.length = table.attrName.length)
    (hSel : ∀ S, Visited (sel table.extractAttrValue) table.extractAttrValue S →
      isLeafNode S = false →
      ∃ i : Nat, sel table.extractAttrValue S = (i : Int) ∧ i < table.attrName.length - 1 ∧
        ∃ r1 ∈ S.data, ∃ r2 ∈ S.data, cell r1 i ≠ cell r2 i) :
    ∃ tree : List Node, ∀ fuel, table.data.length ≤ fuel →
      buildWith sel table fuel = .ok { initialTable := table.extractAttrValue, tree := tree } := by
  have hn : 0 < table.attrName.length := List.length_pos.mpr hattr
  have hrows : ∀ row ∈ table.extractAttrValue.data, row ≠ [] := by
    intro row hrow e
    have := hwf row hrow
    rw [e] at this
    simp at this
    omega
  have hsel : ∀ S,
      Visited (sel table.extractAttrValue) table.extractAttrValue S →
      isLeafNode S = false →
      0 ≤ sel table.extractAttrValue S ∧
      (∀ row ∈ S.data, (sel table.extractAttrValue S).toNat < row.length) ∧
      (∃ domain, vecAtInt table.extractAttrValue.attrValueList
        (sel table.extractAttrValue S) = .ok domain) ∧
      (∀ v, (rowsWith S.data (sel table.extractAttrValue S).toNat v).length
        < S.data.length) := by
    intro S hvis hmixed
    obtain ⟨i, hs, hi, hdiff⟩ := hSel S hvis hmixed
    rw [hs]
    refine ⟨Int.ofNat_nonneg i, ?_, extractAttrValue_vecAt table i (by omega), ?_⟩
    · intro row hrow
      have := hwf row (hvis.rows_subset row hrow)
      simp only [Int.toNat_ofNat]
      omega
    · intro v
      simp only [Int.toNat_ofNat]
      exact rowsWith_length_lt_of_differ S.data i v hdiff
  obtain ⟨tree, htree⟩ := runWith_total _ table.extractAttrValue hrows hsel table.data.length
    table.extractAttrValue 0 [splitNode none "" 0 []] "" Relation.ReflTransGen.refl
    (fun _ h => h) hne (le_refl _) rfl rfl
  have hbuild : buildWith sel table table.data.length
      = .ok { initialTable := table.extractAttrValue, tree := tree } := by
    rw [buildWith_eq]
    show (runWith _ _ table.data.length _ _ _).bind _ = _
    rw [htree]
    rfl
  exact ⟨tree, fun fuel hfuel => buildWith_fuel_mono sel table _ fuel hfuel _ hbuild⟩

/-- When the attribute selected for the whole table determines the label, every subset
visited by the construction other than the table itself has one label only. -/
theorem visited_of_determines (sel : Table → Int) (it : Table) (s : Nat)
    (hsel : isLeafNode it = false → sel it = (s : Int))
    (hdet : ∀ r1 ∈ it.data, ∀ r2 ∈ it.data, cell r1 s = cell r2 s → back r1 = back r2)
    (S : Table) (h : Visited sel it S) : S = it ∨ isLeafNode S = true := by
  induction h with
  | refl => exact Or.inl rfl
  | @tail S1 S2 _ hstep ih =>
    obtain ⟨domain, v, hmixed, _, _, _, hdata, _⟩ := hstep.inv
    rcases ih with rfl | hpure
    · right
      rw [hsel hmixed] at hdata
      simp only [Int.toNat_ofNat] at hdata
      rw [isLeafNode_data S2 _ hdata]
      exact isLeafNode_rowsWith_of_determines _ s v hdet
    · rw [hpure] at hmixed
      exact (Bool.false_ne_true hmixed.symm).elim

/-! ## The table `sixteenRows` -/

theorem log_seven_eighths : Real.log (7 / 8) = Real.log 7 - 3 * Real.log 2 := by
  have : (8 : ℝ) = 2 ^ 3 := by norm_num
  rw [Real.log_div (by norm_num) (by norm_num), this, Real.log_pow]
  push_cast
  ring

theorem sixteen_log_two_lt : 16 * Real.log 2 < 7 * Real.log 7 := by
  have h7 : (7 : ℝ) * Real.log 7 = Real.log (7 ^ 7) := by
    rw [Real.log_pow]
    push_cast
    ring
  have h2 : (16 : ℝ) * Real.log 2 = Real.log (2 ^ 16) := by
    rw [Real.log_pow]
    push_cast
    ring
  rw [h7, h2]
  exact Real.log_lt_log (by norm_num) (by norm_num)

/-- The entropy of eight rows, one with one label and seven with another. -/
theorem getInfoD_one_of_eight (table : Table) (c1 c2 : String) (m1 m2 : Nat)
    (hm : (m1 = 1 ∧ m2 = 7) ∨ (m1 = 7 ∧ m2 = 1))
    (hcounts : countLabels table.data = [(c1, m1), (c2, m2)])
    (hlen : table.data.length = 8) :
    getInfoD table = 3 - 7 / 8 * (Real.log 7 / Real.log 2) := by
  have h2 : Real.log 2 ≠ 0 := ne_of_gt log_two_pos
  have e1 : ((1 : Nat) : ℝ) / ((8 : Nat) : ℝ) = 1 / 8 := by norm_num
  have e7 : ((7 : Nat) : ℝ) / ((8 : Nat) : ℝ) = 7 / 8 := by norm_num
  rw [getInfoD_of_counts table _ hcounts, hlen]
  rcases hm with ⟨rfl, rfl⟩ | ⟨rfl, rfl⟩
  · simp only [List.foldl_cons, List.foldl_nil]
    rw [e1, e7, log_eighth, log_seven_eighths]
    field_simp
    ring
  · simp only [List.foldl_cons, List.foldl_nil]
    rw [e1, e7, log_eighth, log_seven_eighths]
    field_simp
    ring

theorem sixteenRows_gain_zero :
    getGain sixteenRows.extractAttrValue 0 = 7 / 8 * (Real.log 7 / Real.log 2) - 2 := by
  have hD : getInfoD sixteenRows.extractAttrValue = 1 :=
    getInfoD_half _ "No" "Yes" 8 (by norm_num) (by decide) (by decide)
  have hA := getInfoAttrD_of_groups sixteenRows.extractAttrValue 0
    [("a", [0, 1, 2, 3, 4, 5, 6, 7]), ("b", [8, 9, 10, 11, 12, 13, 14, 15])] (by decide)
  have ha : getInfoD { data := rowsAt sixteenRows.extractAttrValue.data [0, 1, 2, 3, 4, 5, 6, 7] }
      = 3 - 7 / 8 * (Real.log 7 / Real.log 2) :=
    getInfoD_one_of_eight _ "No" "Yes" 1 7 (Or.inl ⟨rfl, rfl⟩) (by decide) (by decide)
  have hb : getInfoD
      { data := rowsAt sixteenRows.extractAttrValue.data [8, 9, 10, 11, 12, 13, 14, 15] }
      = 3 - 7 / 8 * (Real.log 7 / Real.log 2) :=
    getInfoD_one_of_eight _ "No" "Yes" 7 1 (Or.inr ⟨rfl, rfl⟩) (by decide) (by decide)
  have hlen : sixteenRows.extractAttrValue.data.length = 16 := by decide
  simp only [List.foldl_cons, List.foldl_nil, ha, hb, hlen, rowsAt_length, List.length_cons,
    List.length_nil] at hA
  unfold getGain
  rw [hD, hA]
  norm_num
  ring

theorem sixteenRows_gain_one : getGain sixteenRows.extractAttrValue 1 = 0 := by
  have hD : getInfoD sixteenRows.extractAttrValue = 1 :=
    getInfoD_half _ "No" "Yes" 8 (by norm_num) (by decide) (by decide)
  have hA := getInfoAttrD_of_groups sixteenRows.extractAttrValue 1
    [("x", [0, 1, 2, 3, 4, 5, 6, 8, 9, 10, 11, 12, 13, 14]), ("y", [7, 15])] (by decide)
  have hx : getInfoD
      { data := rowsAt sixteenRows.extractAttrValue.data
                  [0, 1, 2, 3, 4, 5, 6, 8, 9, 10, 11, 12, 13, 14] } = 1 :=
    getInfoD_half _ "No" "Yes" 7 (by norm_num) (by decide) (by decide)
  have hy : getInfoD { data := rowsAt sixteenRows.extractAttrValue.data [7, 15] } = 1 :=
    getInfoD_half _ "No" "Yes" 1 (by norm_num) (by decide) (by decide)
  have hlen : sixteenRows.extractAttrValue.data.length = 16 := by decide
  simp only [List.foldl_cons, List.foldl_nil, hx, hy, hlen, rowsAt_length, List.length_cons,
    List.length_nil] at hA
  unfold getGain
  rw [hD, hA]
  norm_num

theorem sixteenRows_select_root :
    getSelectedAttribute sixteenRows.extractAttrValue sixteenRows.extractAttrValue = 0 := by
  have hpos : 0 < getGain sixteenRows.extractAttrValue 0 := by
    rw [sixteenRows_gain_zero]
    have h2 := log_two_pos
    have h := sixteen_log_two_lt
    have : 2 < 7 / 8 * (Real.log 7 / Real.log 2) := by
      rw [← mul_div_assoc, lt_div_iff₀ h2]
      linarith
    linarith
  have h := getSelectedAttribute_unique sixteenRows.extractAttrValue
    sixteenRows.extractAttrValue 0 (by decide) hpos ?_
  · simpa using h
  · intro j hj hj0
    have hj' : j < 2 := hj
    have : j = 1 := by omega
    subst this
    rw [sixteenRows_gain_one]

/-- The selection on rows that agree on attribute 0, differ in their labels, and whose
labels are determined by attribute 1. -/
theorem select_second_of_pure (initialTable S : Table) (v : String)
    (hn : initialTable.attrName.length = 3) (hne : S.data ≠ [])
    (hsingle : ∀ row ∈ S.data, cell row 0 = v) (hD : 0 < getInfoD S)
    (hpure : ∀ e ∈ groupRows 1 0 S.data [], getInfoD { data := rowsAt S.data e.2 } = 0) :
    getSelectedAttribute initialTable S = 1 := by
  have h := getSelectedAttribute_unique initialTable S 1 (by rw [hn]; norm_num)
    (gain_pos_of_pure_groups S 1 hD hpure) ?_
  · simpa using h
  · intro j hj hj1
    rw [hn] at hj
    have hj0 : j = 0 := by omega
    subst hj0
    unfold getGain
    rw [getInfoAttrD_single S 0 v hne hsingle]
    simp

theorem sixteenRows_select_a :
    getSelectedAttribute sixteenRows.extractAttrValue
      { data := rowsWith sixteenRows.data 0 "a" } = 1 := by
  apply select_second_of_pure _ _ "a" (by decide) (by decide) (by decide)
  · exact getInfoD_mixed_pos _ "No" "Yes" 1 7 (by norm_num) (by norm_num) (by decide)
      (by decide)
  · intro e he
    have hg : groupRows 1 0 (rowsWith sixteenRows.data 0 "a") []
        = [("x", [0, 1, 2, 3, 4, 5, 6]), ("y", [7])] := by decide
    have he' : e ∈ groupRows 1 0 (rowsWith sixteenRows.data 0 "a") [] := he
    rw [hg] at he'
    simp only [List.mem_cons, List.mem_singleton, List.not_mem_nil, or_false] at he'
    rcases he' with rfl | rfl
    · exact getInfoD_pure _ "Yes" (by decide) (by decide)
    · exact getInfoD_pure _ "No" (by decide) (by decide)

theorem sixteenRows_select_b :
    getSelectedAttribute sixteenRows.extractAttrValue
      { data := rowsWith sixteenRows.data 0 "b" } = 1 := by
  apply select_second_of_pure _ _ "b" (by decide) (by decide) (by decide)
  · exact getInfoD_mixed_pos _ "No" "Yes" 7 1 (by norm_num) (by norm_num) (by decide)
      (by decide)
  · intro e he
    have hg : groupRows 1 0 (rowsWith sixteenRows.data 0 "b") []
        = [("x", [0, 1, 2, 3, 4, 5, 6]), ("y", [7])] := by decide
    have he' : e ∈ groupRows 1 0 (rowsWith sixteenRows.data 0 "b") [] := he
    rw [hg] at he'
    simp only [List.mem_cons, List.mem_singleton, List.not_mem_nil, or_false] at he'
    rcases he' with rfl | rfl
    · exact getInfoD_pure _ "No" (by decide) (by decide)
    · exact getInfoD_pure _ "Yes" (by decide) (by decide)

theorem sixteenRows_select_eq :
    getSelectedAttribute sixteenRows.extractAttrValue =
      fun t =>
        if t.data = sixteenRows.data then 0
        else if t.data = rowsWith sixteenRows.data 0 "a" then 1
        else if t.data = rowsWith sixteenRows.data 0 "b" then 1
        else getSelectedAttribute sixteenRows.extractAttrValue t := by
  funext t
  split_ifs with h1 h2 h3
  · rw [getSelectedAttribute_data _ t _ h1]
    exact sixteenRows_select_root
  · rw [getSelectedAttribute_data _ t _ h2]
    exact sixteenRows_select_a
  · rw [getSelectedAttribute_data _ t _ h3]
    exact sixteenRows_select_b
  · rfl

/-- Both children of the root of the tree of `sixteenRows` hold seven rows of one label
and one row of the other: they are pruned to leaves that keep the index of the attribute
selected for them. -/
theorem sixteenRows_build :
    build sixteenRows 2
      = .ok { initialTable := sixteenRows.extractAttrValue, tree := sixteenTree } := by
  rw [build_eq, sixteenRows_select_eq]
  decide

/-! ## Auxiliary facts for the claims -/

theorem clash_run_faults (fuel : Nat) :
    build clash (fuel + 1) = .error .outOfRange := by
  rw [build_eq, runWith_no_split_faults _ _ _ fuel 0 _ (by decide) clash_select]
  rfl

theorem sixRows_run_a :
    run sixRows.extractAttrValue 2 { data := rowsWith sixRows.data 0 "a" } 1
        [splitNode (some 0) "" 0 [1], splitNode none "a" 1 []] =
      .ok [splitNode (some 0) "" 0 [1], splitNode (some 1) "a" 1 [2, 3, 4],
        leafNode none "x" 2 "Yes", leafNode none "y" 3 "No", leafNode none "z" 4 "Yes"] := by
  unfold run
  rw [sixRows_select_eq]
  decide

theorem sixRows_select_a :
    getSelectedAttribute sixRows.extractAttrValue { data := rowsWith sixRows.data 0 "a" } = 1 := by
  rw [sixRows_select_eq]
  decide
theorem rowsWith_length_lt (S : Table) (i : Nat) (v : String)
    (hmixed : isLeafNode S = false)
    (hp : Dbl.lt (Dbl.fin 0) (getGainRatio S i)) :
    (rowsWith S.data i v).length < S.data.length := by
  have hne : S.data ≠ [] := by
    intro e
    have := isLeafNode_false_length hmixed
    simp [e] at this
  by_contra hge
  have hle : (rowsWith S.data i v).length ≤ S.data.length := List.length_filter_le _ _
  have heq : (rowsWith S.data i v).length = S.data.length := by omega
  have hall : rowsWith S.data i v = S.data :=
    (List.filter_sublist S.data).eq_of_length heq
  have hsingle : ∀ row ∈ S.data, cell row i = v := by
    intro row hrow
    have := (List.filter_eq_self.mp hall) row hrow
    simpa using this
  rw [getGainRatio_single S i v hne hsingle] at hp
  exact Dbl.not_lt_nan _ hp

theorem childrenInRange_of_shape {sel : Table → Int} {it : Table} {tree : List Node} {n : Nat}
    {table : Table} {v : String}
    (h : Shape sel it tree n table v 0 tree.length) : ChildrenInRange tree := by
  intro node hnode c hc
  obtain ⟨j, hj⟩ := List.getElem?_of_mem hnode
  have hlt : j < tree.length := (List.getElem?_eq_some.mp hj).1
  exact (Shape.children_in_range n h j (Nat.zero_le _) hlt node hj c hc).2

theorem sameLabel_rows : ∀ row ∈ sameLabel.data, row.getLast? = some "Yes" := by
  decide

/-- When every visited subset whose labels are not all equal has an attribute of positive
gain ratio, the constructor returns one and the same tree for every fuel from the number
of rows on. -/
theorem build_total_of_usable (table : Table)
    (hne : table.data ≠ []) (hattr : table.attrName ≠ [])
    (hwf : ∀ row ∈ table.data, row.length = table.attrName.length)
    (hUsable : ∀ S,
      Visited (getSelectedAttribute table.extractAttrValue) table.extractAttrValue S →
      isLeafNode S = false →
      ∃ i, i < table.attrName.length - 1 ∧ Dbl.lt (Dbl.fin 0) (getGainRatio S i)) :
    ∃ tree : List Node, ∀ fuel, table.data.length ≤ fuel →
      build table fuel = .ok { initialTable := table.extractAttrValue, tree := tree } := by
  have hn : 0 < table.attrName.length := List.length_pos.mpr hattr
  have hrows : ∀ row ∈ table.extractAttrValue.data, row ≠ [] := by
    intro row hrow e
    have := hwf row hrow
    rw [e] at this
    simp at this
    omega
  have hsel : ∀ S,
      Visited (getSelectedAttribute table.extractAttrValue) table.extractAttrValue S →
      isLeafNode S = false →
      0 ≤ getSelectedAttribute table.extractAttrValue S ∧
      (∀ row ∈ S.data, (getSelectedAttribute table.extractAttrValue S).toNat < row.length) ∧
      (∃ domain, vecAtInt table.extractAttrValue.attrValueList
        (getSelectedAttribute table.extractAttrValue S) = .ok domain) ∧
      (∀ v, (rowsWith S.data (getSelectedAttribute table.extractAttrValue S).toNat v).length
        < S.data.length) := by
    intro S hvis hmixed
    rcases getSelectedAttribute_cases table.extractAttrValue S hattr with
      ⟨_, hnone⟩ | ⟨i, hi, hs, hp, _, _⟩
    · obtain ⟨i, hi, hp⟩ := hUsable S hvis hmixed
      exact (hnone i hi hp).elim
    · have hi' : i < table.attrName.length - 1 := hi
      rw [hs]
      refine ⟨Int.ofNat_nonneg i, ?_, extractAttrValue_vecAt table i (by omega), ?_⟩
      · intro row hrow
        have := hwf row (hvis.rows_subset row hrow)
        simp only [Int.toNat_ofNat]
        omega
      · intro v
        simp only [Int.toNat_ofNat]
        exact rowsWith_length_lt S i v hmixed hp
  obtain ⟨tree, htree⟩ := runWith_total _ table.extractAttrValue hrows hsel table.data.length
    table.extractAttrValue 0 [splitNode none "" 0 []] "" Relation.ReflTransGen.refl
    (fun _ h => h) hne (le_refl _) rfl rfl
  have hbuild : build table table.data.length
      = .ok { initialTable := table.extractAttrValue, tree := tree } := by
    rw [build_eq]
    show (runWith _ _ table.data.length _ _ _).bind _ = _
    rw [htree]
    rfl
  exact ⟨tree, fun fuel hfuel => build_fuel_mono table _ fuel hfuel _ hbuild⟩

/-- On every subset visited while the tree of `sixRows` is built whose labels are not all
equal, the selection on exact-real scores returns a non-label attribute on which two rows
of the subset differ. -/
theorem sixRows_selection (S : Table)
    (h : Visited (getSelectedAttribute sixRows.extractAttrValue) sixRows.extractAttrValue S)
    (hmixed : isLeafNode S = false) :
    ∃ i : Nat, getSelectedAttribute sixRows.extractAttrValue S = (i : Int) ∧
      i < sixRows.attrName.length - 1 ∧
      ∃ r1 ∈ S.data, ∃ r2 ∈ S.data, cell r1 i ≠ cell r2 i := by
  rcases sixRows_visited S h with rfl | h1 | h1 | h1
  · exact ⟨0, sixRows_select_root, by decide, ["a", "x", "Yes"], by decide,
      ["b", "x", "No"], by decide, by decide⟩
  · refine ⟨1, ?_, by decide, ["a", "x", "Yes"], by rw [h1]; decide,
      ["a", "y", "No"], by rw [h1]; decide, by decide⟩
    rw [getSelectedAttribute_data _ S _ h1]
    exact select_pair _ _ _ (by decide) (by decide) (by decide) (by decide)
  · refine ⟨1, ?_, by decide, ["b", "x", "No"], by rw [h1]; decide,
      ["b", "y", "Yes"], by rw [h1]; decide, by decide⟩
    rw [getSelectedAttribute_data _ S _ h1]
    exact select_pair _ _ _ (by decide) (by decide) (by decide) (by decide)
  · rw [isLeafNode_of_length_one S h1] at hmixed
    exact (Bool.false_ne_true hmixed.symm).elim

/-! # The claims -/

/-- Claim C1.  For every node list whose child indices are all in range and every row:
if the traversal that starts at node 0 and, at each node that is not a leaf, moves to the
first child in `children` order whose `attrValue` equals the row's field at the node's
split attribute arrives at a leaf `L`, then, for every fuel above some bound, `dfs`
returns `L` and `guess` returns the label of node `L`. -/
theorem guess_returns_leaf_label (self : DecisionTree) (row : Row) (L : Nat)
    (hwf : ChildrenInRange self.tree) (h : Arrives self.tree row 0 L) :
    ∃ leaf, self.tree[L]? = some leaf ∧
      ∃ n, ∀ fuel, n ≤ fuel →
        dfs self row fuel 0 = .ok (L : Int) ∧ guess self row fuel = .ok leaf.label := by
  obtain ⟨leaf, hL, _⟩ := arrives_leaf h
  obtain ⟨n, hn⟩ := dfs_of_arrives self row hwf h
  exact ⟨leaf, hL, n, fun fuel hf => ⟨hn fuel hf, guess_of_dfs_leaf self row fuel L leaf (hn fuel hf) hL⟩⟩

/-- Witness of C1: in the sample tree the row `b` arrives at leaf 2, and `guess` returns
the label of that leaf. -/
theorem guess_returns_leaf_label_witness :
    ChildrenInRange sampleTree.tree ∧ Arrives sampleTree.tree ["b", "?"] 0 2 ∧
    ∃ leaf, sampleTree.tree[2]? = some leaf ∧
      ∃ n, ∀ fuel, n ≤ fuel →
        dfs sampleTree ["b", "?"] fuel 0 = .ok ((2 : Nat) : Int) ∧
          guess sampleTree ["b", "?"] fuel = .ok leaf.label :=
  ⟨sampleTree_inRange, sampleTree_arrives,
    guess_returns_leaf_label sampleTree ["b", "?"] 2 sampleTree_inRange sampleTree_arrives⟩

/-- Counterexample to C2: the constructor builds the sample tree from the table
`sentinelRows`; in it the row `a` is classified successfully (it reaches leaf 1, whose
label is the string `dfs failed`), the row `z` matches no child of the root (`dfs` returns
`-1`), and `guess` returns the same value for both. -/
theorem guess_failure_not_distinct :
    build sentinelRows 2 = .ok sampleTree ∧
    dfs sampleTree ["a", "?"] 2 0 = .ok 1 ∧
    sampleTree.tree[1]? = some (leafNode none "a" 1 "dfs failed") ∧
    dfs sampleTree ["z", "?"] 2 0 = .ok (-1) ∧
    guess sampleTree ["a", "?"] 2 = guess sampleTree ["z", "?"] 2 :=
  ⟨sampleTree_built, by decide, by decide, by decide, by decide⟩

/-- Claim C2, amended.  When the traversal reaches a node that is not a leaf and none of
whose children has `attrValue` equal to the row's field at the split attribute, `dfs`
returns `-1` and `guess` returns the string `dfs failed`; this value differs from the
result of every successful classification, in any tree, whose leaf label is not the
string `dfs failed` itself. -/
theorem guess_failure_sentinel (self : DecisionTree) (row : Row)
    (hwf : ChildrenInRange self.tree) (h : Stuck self.tree row 0) :
    ∃ n, ∀ fuel, n ≤ fuel →
      dfs self row fuel 0 = .ok (-1) ∧ guess self row fuel = .ok "dfs failed" ∧
      ∀ (other : DecisionTree) (row2 : Row) (fuel2 L : Nat) (leaf : Node),
        dfs other row2 fuel2 0 = .ok (L : Int) → other.tree[L]? = some leaf →
        leaf.label ≠ "dfs failed" → guess other row2 fuel2 ≠ guess self row fuel := by
  obtain ⟨n, hn⟩ := dfs_of_stuck self row hwf h
  refine ⟨n, fun fuel hf => ⟨hn fuel hf, guess_of_dfs_fail self row fuel (hn fuel hf), ?_⟩⟩
  intro other row2 fuel2 L leaf hd hL hne
  rw [guess_of_dfs_leaf other row2 fuel2 L leaf hd hL,
    guess_of_dfs_fail self row fuel (hn fuel hf)]
  intro e
  exact hne (Except.ok.inj e)

/-- Witness of C2 amended: the row `z` in the sample tree. -/
theorem guess_failure_sentinel_witness :
    ChildrenInRange sampleTree.tree ∧ Stuck sampleTree.tree ["z", "?"] 0 ∧
    ∃ n, ∀ fuel, n ≤ fuel →
      dfs sampleTree ["z", "?"] fuel 0 = .ok (-1) ∧
      guess sampleTree ["z", "?"] fuel = .ok "dfs failed" ∧
      ∀ (other : DecisionTree) (row2 : Row) (fuel2 L : Nat) (leaf : Node),
        dfs other row2 fuel2 0 = .ok (L : Int) → other.tree[L]? = some leaf →
        leaf.label ≠ "dfs failed" →
        guess other row2 fuel2 ≠ guess sampleTree ["z", "?"] fuel :=
  ⟨sampleTree_inRange, sampleTree_stuck,
    guess_failure_sentinel sampleTree ["z", "?"] sampleTree_inRange sampleTree_stuck⟩

/-- Counterexample to C3: the table `clash` is not empty, its rows have the length of the
header, and no subset of a node has a majority share above 0.8 (the only subset is the
table itself, with share 1/2); yet no tree is built from it, whatever the fuel, so its
training rows are never classified. -/
theorem training_rows_unclassified :
    clash.data ≠ [] ∧
    (∀ row ∈ clash.data, row.length = clash.attrName.length) ∧
    (∀ S,
      Visited (getSelectedAttribute clash.extractAttrValue) clash.extractAttrValue S →
      isLeafNode S = false →
      exceedsThreshold (getMajorityLabel S).2 S.data.length = false) ∧
    ∀ (fuel : Nat) (dt : DecisionTree), build clash fuel ≠ .ok dt := by
  refine ⟨by decide, by decide, ?_, ?_⟩
  · intro S hvis _
    rw [clash_visited S hvis]
    decide
  · intro fuel dt h
    cases fuel with
    | zero => simp [build_eq, runWith, Except.bind] at h
    | succ fuel => rw [clash_run_faults fuel] at h; simp at h

/-- Claim C3, amended.  Let `sel` stand for the selection of the split attribute, with
whatever values it takes in the machine's arithmetic.  For every non-empty training table
with a non-empty header, all of whose rows have the length of the header, such that on
every subset visited by the construction whose labels are not all equal (a) the majority
share does not exceed 0.8 and (b) the selection returns a non-label attribute on which
two rows of the subset differ: the construction returns one and the same tree for every
fuel from the number of rows on, and every training row, when classified on that tree,
reaches a leaf and `guess` returns the row's own label (its last field). -/
theorem training_rows_classified (sel : Table → Table → Int) (table : Table)
    (hne : table.data ≠ []) (hattr : table.attrName ≠ [])
    (hwf : ∀ row ∈ table.data, row.length = table.attrName.length)
    (hNoPrune : ∀ S,
      Visited (sel table.extractAttrValue) table.extractAttrValue S →
      isLeafNode S = false →
      exceedsThreshold (getMajorityLabel S).2 S.data.length = false)
    (hSel : ∀ S,
      Visited (sel table.extractAttrValue) table.extractAttrValue S →
      isLeafNode S = false →
      ∃ i : Nat, sel table.extractAttrValue S = (i : Int) ∧ i < table.attrName.length - 1 ∧
        ∃ r1 ∈ S.data, ∃ r2 ∈ S.data, cell r1 i ≠ cell r2 i) :
    ∃ dt : DecisionTree,
      (∀ fuel, table.data.length ≤ fuel → buildWith sel table fuel = .ok dt) ∧
      ∀ row ∈ table.data,
        ∃ (L : Nat) (leaf : Node) (n : Nat),
          dt.tree[L]? = some leaf ∧ leaf.isLeaf = true ∧
          ∀ fuel, n ≤ fuel →
            dfs dt row fuel 0 = .ok (L : Int) ∧ guess dt row fuel = .ok (back row) := by
  obtain ⟨tree, hbuild⟩ := buildWith_total sel table hne hattr hwf hSel
  refine ⟨_, hbuild, ?_⟩
  have hshape := buildWith_shape (hbuild table.data.length (le_refl _))
  intro row hrow
  obtain ⟨L, leaf, harr, hL, hleaf, hlabel⟩ :=
    Shape.arrives _ table.extractAttrValue tree hNoPrune
      (fun a domain hdom r hr => extractAttrValue_domain table a domain hdom r hr)
      _ _ _ _ _ hshape Relation.ReflTransGen.refl (fun _ h => h) row hrow
  obtain ⟨n, hn⟩ := dfs_of_arrives { initialTable := table.extractAttrValue, tree := tree } row
    (childrenInRange_of_shape hshape) harr
  refine ⟨L, leaf, n, hL, hleaf, fun fuel hfuel => ⟨hn fuel hfuel, ?_⟩⟩
  rw [← hlabel]
  exact guess_of_dfs_leaf _ row fuel L leaf (hn fuel hfuel) hL

/-- Witness of C3 amended: the table `sixRows`, with the selection on exact-real scores,
which splits the table on attribute 0 and the two subsets with both labels on
attribute 1. -/
theorem training_rows_classified_witness :
    sixRows.data ≠ [] ∧ sixRows.attrName ≠ [] ∧
    (∀ row ∈ sixRows.data, row.length = sixRows.attrName.length) ∧
    (∀ S,
      Visited (getSelectedAttribute sixRows.extractAttrValue) sixRows.extractAttrValue S →
      isLeafNode S = false →
      exceedsThreshold (getMajorityLabel S).2 S.data.length = false) ∧
    (∀ S,
      Visited (getSelectedAttribute sixRows.extractAttrValue) sixRows.extractAttrValue S →
      isLeafNode S = false →
      ∃ i : Nat, getSelectedAttribute sixRows.extractAttrValue S = (i : Int) ∧
        i < sixRows.attrName.length - 1 ∧
        ∃ r1 ∈ S.data, ∃ r2 ∈ S.data, cell r1 i ≠ cell r2 i) ∧
    ∃ dt : DecisionTree,
      (∀ fuel, sixRows.data.length ≤ fuel →
        buildWith getSelectedAttribute sixRows fuel = .ok dt) ∧
      ∀ row ∈ sixRows.data,
        ∃ (L : Nat) (leaf : Node) (n : Nat),
          dt.tree[L]? = some leaf ∧ leaf.isLeaf = true ∧
          ∀ fuel, n ≤ fuel →
            dfs dt row fuel 0 = .ok (L : Int) ∧ guess dt row fuel = .ok (back row) :=
  ⟨by decide, by decide, by decide, sixRows_no_pruning, sixRows_selection,
    training_rows_classified getSelectedAttribute sixRows (by decide) (by decide) (by decide)
      sixRows_no_pruning sixRows_selection⟩

/-- Claim C4.  Every tree returned by the constructor comes from a non-empty table, and
in it every node that is not a leaf has exactly as many children as
`initialTable.attrValueList[criteriaAttrIndex]` has values, and every leaf has an empty
list of children. -/
theorem built_tree_children_count (table : Table) (fuel : Nat) (dt : DecisionTree)
    (h : build table fuel = .ok dt) :
    table.data ≠ [] ∧
    ∀ node ∈ dt.tree,
      (node.isLeaf = false →
        ∃ a domain, node.criteriaAttrIndex = some a ∧
          vecAtInt dt.initialTable.attrValueList a = .ok domain ∧
          node.children.length = domain.length) ∧
      (node.isLeaf = true → node.children = []) := by
  have hshape := buildWith_shape h
  obtain ⟨_, hrun⟩ := buildWith_inv h
  refine ⟨?_, ?_⟩
  · intro hd
    cases fuel with
    | zero => simp [runWith] at hrun
    | succ fuel =>
      have hleaf : isLeafNode table.extractAttrValue = true := by
        simp [isLeafNode, Table.extractAttrValue, hd]
      rw [runWith_succ, if_pos hleaf] at hrun
      simp [lastLabel, lastOf, Table.extractAttrValue, hd, bind, Except.bind] at hrun
  · intro node hnode
    obtain ⟨j, hj⟩ := List.getElem?_of_mem hnode
    have hlt : j < dt.tree.length := (List.getElem?_eq_some.mp hj).1
    obtain ⟨node', hnode', hok⟩ := Shape.nodes_ok fuel hshape j (Nat.zero_le _) hlt
    rw [hj] at hnode'
    injection hnode' with e
    subst e
    exact hok

/-- Witness of C4: the tree of `sixRows`. -/
theorem built_tree_children_count_witness :
    build sixRows 3 = .ok { initialTable := sixRows.extractAttrValue, tree := sixTree } ∧
    sixRows.data ≠ [] ∧
    ∀ node ∈ sixTree,
      (node.isLeaf = false →
        ∃ a domain, node.criteriaAttrIndex = some a ∧
          vecAtInt sixRows.extractAttrValue.attrValueList a = .ok domain ∧
          node.children.length = domain.length) ∧
      (node.isLeaf = true → node.children = []) :=
  ⟨sixRows_build_three,
    built_tree_children_count sixRows 3
      { initialTable := sixRows.extractAttrValue, tree := sixTree } sixRows_build_three⟩

/-- Claim C5.  Let `gainRatio` stand for the values that `getGainRatio` takes in the
machine's arithmetic, whatever they are.  Let `run` be invoked on a freshly pushed last
node for a subset whose labels are not all equal, whose rows have the length of the header
and for which some non-label attribute has a positive gain ratio; let `a` be the selected
attribute.  If `majorityCount * 5 > rowCount * 4` (share above 0.8), `run` returns the
tree in which the node is a leaf labelled with the majority label, without children, no
node being appended.  Otherwise (share at most 0.8, for instance 4 of 5 rows) `run` goes
on to the loop over the values of `a` with the node kept a non-leaf, and every tree it
returns has the node split, with one child per value of `a`. -/
theorem run_majority_pruning (gainRatio : Table → Nat → Dbl) (initialTable table : Table)
    (fuel nodeIndex : Nat) (tree : List Node) (v : String)
    (hmixed : isLeafNode table = false)
    (hwf : ∀ row ∈ table.data, row.length = initialTable.attrName.length)
    (hpos : ∃ i, i < initialTable.attrName.length - 1 ∧
      Dbl.lt (Dbl.fin 0) (gainRatio table i))
    (hlen : tree.length = nodeIndex + 1)
    (hfresh : tree[nodeIndex]? = some (splitNode none v nodeIndex [])) :
    ∃ a : Nat, getSelectedAttributeWith gainRatio initialTable table = (a : Int) ∧
      a < initialTable.attrName.length - 1 ∧
      ((getMajorityLabel table).2 * 5 > table.data.length * 4 →
        runWith (getSelectedAttributeWith gainRatio initialTable) initialTable (fuel + 1)
            table nodeIndex tree =
          .ok (tree.set nodeIndex
            (leafNode (some (a : Int)) v nodeIndex (getMajorityLabel table).1))) ∧
      (¬ (getMajorityLabel table).2 * 5 > table.data.length * 4 →
        runWith (getSelectedAttributeWith gainRatio initialTable) initialTable (fuel + 1)
            table nodeIndex tree =
          (vecAtInt initialTable.attrValueList (a : Int)).bind (fun domain =>
            domain.foldlM
              (splitStep
                (runWith (getSelectedAttributeWith gainRatio initialTable) initialTable fuel)
                table (groupRows a 0 table.data []) nodeIndex)
              (tree.set nodeIndex (splitNode (some (a : Int)) v nodeIndex []))) ∧
        ∀ tree', runWith (getSelectedAttributeWith gainRatio initialTable) initialTable
            (fuel + 1) table nodeIndex tree = .ok tree' →
          ∃ domain children,
            vecAtInt initialTable.attrValueList (a : Int) = .ok domain ∧
            tree'[nodeIndex]? = some (splitNode (some (a : Int)) v nodeIndex children) ∧
            children.length = domain.length) := by
  have hattr : initialTable.attrName ≠ [] := by
    obtain ⟨i, hi, _⟩ := hpos
    intro e
    rw [e] at hi
    simp at hi
  rcases getSelectedAttributeWith_cases_of_header gainRatio initialTable table hattr with
    ⟨_, hnone⟩ | ⟨a, ha, hsel, _, _, _⟩
  · obtain ⟨i, hi, hp⟩ := hpos
    exact (hnone i hi hp).elim
  · refine ⟨a, hsel, ha, ?_, ?_⟩
    all_goals
      have hvalid : ∀ row ∈ table.data, ((a : Int)).toNat < row.length := by
        intro row hrow
        rw [hwf row hrow]
        simp only [Int.toNat_ofNat]
        omega
      have hleaf : ¬ isLeafNode table = true := by simp [hmixed]
      have hstart : runWith (getSelectedAttributeWith gainRatio initialTable) initialTable
            (fuel + 1) table nodeIndex tree =
          (if exceedsThreshold (getMajorityLabel table).2 table.data.length = true then
            setNode (tree.set nodeIndex (splitNode (some (a : Int)) v nodeIndex [])) nodeIndex
              (fun node => { node with isLeaf := true, label := (getMajorityLabel table).1 })
          else
            (vecAtInt initialTable.attrValueList (a : Int)).bind (fun domain =>
              domain.foldlM
                (splitStep
                  (runWith (getSelectedAttributeWith gainRatio initialTable) initialTable fuel)
                  table (groupRows a 0 table.data []) nodeIndex)
                (tree.set nodeIndex (splitNode (some (a : Int)) v nodeIndex [])))) := by
        rw [runWith_succ, if_neg hleaf, hsel,
          buildAttrValueMap_of_valid (a : Int) (Int.ofNat_nonneg a) table.data 0 [] hvalid]
        simp only [Except.bind, setNode_ok _ hfresh, Int.toNat_ofNat]
        rfl
    · intro hgt
      have hex : exceedsThreshold (getMajorityLabel table).2 table.data.length = true := by
        simp [exceedsThreshold, hgt]
      have hk : (tree.set nodeIndex (splitNode (some (a : Int)) v nodeIndex []))[nodeIndex]? =
          some (splitNode (some (a : Int)) v nodeIndex []) := by
        simp [hlen]
      rw [hstart, if_pos hex, setNode_ok _ hk, List.set_set]
      rfl
    · intro hgt
      have hex : ¬ exceedsThreshold (getMajorityLabel table).2 table.data.length = true := by
        simp [exceedsThreshold, hgt]
      have hex' : exceedsThreshold (getMajorityLabel table).2 table.data.length = false := by
        simpa using hex
      refine ⟨by rw [hstart, if_neg hex], ?_⟩
      intro tree' hrun
      obtain ⟨_, hshape⟩ := runWith_shape _ _ _ _ _ _ _ v hlen hfresh hrun
      cases hshape with
      | pureLeaf _ h1 _ _ _ => rw [hmixed] at h1; exact (Bool.false_ne_true h1).elim
      | pruned _ h2 _ _ => rw [hex'] at h2; exact (Bool.false_ne_true h2).elim
      | split domain children _ _ _ _ hdom hnode hkids =>
        rw [hsel] at hdom hnode
        exact ⟨domain, children, hdom, hnode, hkids.length_eq⟩

/-- Witness of C5, both branches, with the exact-real scores for `gainRatio`.  In
`fiveOfSix` five of six rows are labelled `Yes` (share above 0.8): the fresh root becomes
a leaf labelled `Yes` and no node is appended.  In `fourOfFive` four of five rows are
labelled `Yes` (share exactly 0.8): the root is not made a leaf, and every tree returned
has the root split on attribute 0 with one child for each of its two values. -/
theorem run_majority_pruning_witness :
    (isLeafNode fiveOfSix.extractAttrValue = false ∧
      (getMajorityLabel fiveOfSix.extractAttrValue).2 * 5
        > fiveOfSix.extractAttrValue.data.length * 4 ∧
      runWith (getSelectedAttributeWith getGainRatio fiveOfSix.extractAttrValue)
          fiveOfSix.extractAttrValue (0 + 1) fiveOfSix.extractAttrValue 0
          [splitNode none "" 0 []] =
        .ok [leafNode (some 0) "" 0 "Yes"]) ∧
    (isLeafNode fourOfFive.extractAttrValue = false ∧
      (getMajorityLabel fourOfFive.extractAttrValue).2 * 5
        = fourOfFive.extractAttrValue.data.length * 4 ∧
      ∀ tree', runWith (getSelectedAttributeWith getGainRatio fourOfFive.extractAttrValue)
          fourOfFive.extractAttrValue (1 + 1) fourOfFive.extractAttrValue 0
          [splitNode none "" 0 []] = .ok tree' →
        ∃ children, tree'[0]? = some (splitNode (some 0) "" 0 children) ∧
          children.length = 2) := by
  refine ⟨⟨by decide, by decide, ?_⟩, ⟨by decide, by decide, ?_⟩⟩
  · obtain ⟨a, hsel, _, hprune, _⟩ :=
      run_majority_pruning getGainRatio fiveOfSix.extractAttrValue fiveOfSix.extractAttrValue
        0 0 [splitNode none "" 0 []] "" (by decide) (by decide)
        ⟨0, by decide, getSelectedAttribute_pos _ _ 0 fiveOfSix_select⟩ rfl rfl
    have h0 : getSelectedAttributeWith getGainRatio fiveOfSix.extractAttrValue
        fiveOfSix.extractAttrValue = 0 := fiveOfSix_select
    have ha : a = 0 := by
      rw [h0] at hsel
      exact_mod_cast hsel.symm
    subst ha
    rw [hprune (by decide)]
    decide
  · obtain ⟨a, hsel, _, _, hsplit⟩ :=
      run_majority_pruning getGainRatio fourOfFive.extractAttrValue
        fourOfFive.extractAttrValue 1 0 [splitNode none "" 0 []] "" (by decide) (by decide)
        ⟨0, by decide, getGainRatio_pos _ 0 fourOfFive_gain⟩ rfl rfl
    have h0 : getSelectedAttributeWith getGainRatio fourOfFive.extractAttrValue
        fourOfFive.extractAttrValue = 0 := fourOfFive_select
    have ha : a = 0 := by
      rw [h0] at hsel
      exact_mod_cast hsel.symm
    subst ha
    intro tree' hrun
    obtain ⟨domain, children, hdom, hnode, hkids⟩ := (hsplit (by decide)).2 tree' hrun
    have hd : domain = ["a", "b"] := by
      have : vecAtInt fourOfFive.extractAttrValue.attrValueList ((0 : Nat) : Int)
          = .ok ["a", "b"] := by decide
      rw [this] at hdom
      exact (Except.ok.inj hdom).symm
    subst hd
    exact ⟨children, hnode, hkids⟩

/-- Claim C6.  Whenever `run`, invoked on a freshly pushed last node, splits the node on
the selected attribute `a` over the subset `table` (labels not all equal, share at most
0.8) and returns, the node has one child per value of `initialTable.attrValueList[a]`,
and for every value `v` at position `i` that no row of the subset holds on `a`, the
`i`-th child is a leaf without children, with `attrValue = v` and label
`getMajorityLabel(table).first`. -/
theorem run_empty_partition_leaf (initialTable table : Table) (fuel nodeIndex : Nat)
    (tree tree' : List Node) (vk : String) (domain : List String)
    (hlen : tree.length = nodeIndex + 1)
    (hfresh : tree[nodeIndex]? = some (splitNode none vk nodeIndex []))
    (hmixed : isLeafNode table = false)
    (hex : exceedsThreshold (getMajorityLabel table).2 table.data.length = false)
    (hdom : vecAtInt initialTable.attrValueList (getSelectedAttribute initialTable table)
      = .ok domain)
    (hrun : run initialTable fuel table nodeIndex tree = .ok tree') :
    ∃ children,
      tree'[nodeIndex]? = some
        (splitNode (some (getSelectedAttribute initialTable table)) vk nodeIndex children) ∧
      children.length = domain.length ∧
      ∀ (i : Nat) (v : String), domain[i]? = some v →
        (∀ row ∈ table.data, cell row (getSelectedAttribute initialTable table).toNat ≠ v) →
        ∃ c, children[i]? = some c ∧
          tree'[c]? = some (leafNode none v c (getMajorityLabel table).1) := by
  obtain ⟨_, hshape⟩ := runWith_shape _ _ _ _ _ _ _ vk hlen hfresh hrun
  cases fuel with
  | zero => exact hshape.elim
  | succ fuel =>
    cases hshape with
    | pureLeaf _ h1 _ _ _ => rw [hmixed] at h1; exact (Bool.false_ne_true h1).elim
    | pruned _ h2 _ _ => rw [hex] at h2; exact (Bool.false_ne_true h2).elim
    | split domain' children _ _ _ _ hdom' hnode hkids =>
      rw [hdom] at hdom'
      injection hdom' with hdom'
      subst hdom'
      refine ⟨children, hnode, hkids.length_eq, ?_⟩
      intro i v hv hnone
      obtain ⟨c, hc, _, _, hleaf, _⟩ := hkids.child_at i v hv
      refine ⟨c, hc, hleaf ?_⟩
      simp only [rowsWith, List.filter_eq_nil_iff, decide_eq_true_eq]
      exact hnone

/-- Witness of C6: the rows of `sixRows` with `A = a` are split on `B`, whose value `z`
none of them holds. -/
theorem run_empty_partition_leaf_witness :
    (∀ row ∈ rowsWith sixRows.data 0 "a", cell row 1 ≠ "z") ∧
    ∃ children,
      ([splitNode (some 0) "" 0 [1], splitNode (some 1) "a" 1 [2, 3, 4],
        leafNode none "x" 2 "Yes", leafNode none "y" 3 "No",
        leafNode none "z" 4 "Yes"] : List Node)[1]? = some
        (splitNode (some (getSelectedAttribute sixRows.extractAttrValue
          { data := rowsWith sixRows.data 0 "a" })) "a" 1 children) ∧
      children.length = ["x", "y", "z"].length ∧
      ∀ (i : Nat) (v : String), ["x", "y", "z"][i]? = some v →
        (∀ row ∈ ({ data := rowsWith sixRows.data 0 "a" } : Table).data,
          cell row (getSelectedAttribute sixRows.extractAttrValue
            { data := rowsWith sixRows.data 0 "a" }).toNat ≠ v) →
        ∃ c, children[i]? = some c ∧
          ([splitNode (some 0) "" 0 [1], splitNode (some 1) "a" 1 [2, 3, 4],
            leafNode none "x" 2 "Yes", leafNode none "y" 3 "No",
            leafNode none "z" 4 "Yes"] : List Node)[c]? = some
            (leafNode none v c
              (getMajorityLabel ({ data := rowsWith sixRows.data 0 "a" } : Table)).1) :=
  ⟨by decide,
    run_empty_partition_leaf sixRows.extractAttrValue { data := rowsWith sixRows.data 0 "a" } 2 1
      [splitNode (some 0) "" 0 [1], splitNode none "a" 1 []] _ "a" ["x", "y", "z"] rfl rfl
      (by decide) (by decide) (by rw [sixRows_select_a]; decide) sixRows_run_a⟩

/-- Claim C7.  For every non-empty subset all of whose rows have the same last field `c`,
`isLeafNode` holds and `run`, with any positive fuel, returns the tree in which the target
node is a leaf with label `c` and is otherwise unchanged (same children), the other nodes
being unchanged and no node appended.  Moreover `isLeafNode` returns true exactly when
all rows share the label of the first row. -/
theorem run_pure_leaf (initialTable table : Table) (fuel nodeIndex : Nat)
    (tree : List Node) (node : Node) (c : String)
    (hne : table.data ≠ []) (hrows : ∀ row ∈ table.data, row.getLast? = some c)
    (hnode : tree[nodeIndex]? = some node) :
    isLeafNode table = true ∧
    run initialTable (fuel + 1) table nodeIndex tree
      = .ok (tree.set nodeIndex { node with isLeaf := true, label := c }) ∧
    (tree.set nodeIndex { node with isLeaf := true, label := c }).length = tree.length ∧
    (∀ t : Table, isLeafNode t = true ↔ ∀ row ∈ t.data, back row = back (t.data.headD [])) := by
  have hleaf : isLeafNode table = true := by
    rw [isLeafNode_iff]
    intro row hr
    rw [back_of_getLast? (hrows row hr)]
    cases hd : table.data with
    | nil => exact (hne hd).elim
    | cons first rest =>
      simp only [List.headD_cons]
      exact (back_of_getLast? (hrows first (by simp [hd]))).symm
  refine ⟨hleaf, ?_, by simp, isLeafNode_iff⟩
  unfold run
  rw [runWith_succ, if_pos hleaf, lastLabel_of_rows hne hrows]
  simp only [Except.bind, setNode_ok _ hnode]

/-- Witness of C7: the table `sameLabel` and a fresh root. -/
theorem run_pure_leaf_witness :
    sameLabel.data ≠ [] ∧ (∀ row ∈ sameLabel.data, row.getLast? = some "Yes") ∧
    isLeafNode sameLabel = true ∧
    run sameLabel.extractAttrValue (0 + 1) sameLabel 0 [splitNode none "" 0 []]
      = .ok (([splitNode none "" 0 []] : List Node).set 0
          { splitNode none "" 0 [] with isLeaf := true, label := "Yes" }) ∧
    (([splitNode none "" 0 []] : List Node).set 0
      { splitNode none "" 0 [] with isLeaf := true, label := "Yes" }).length
      = ([splitNode none "" 0 []] : List Node).length ∧
    (∀ t : Table, isLeafNode t = true ↔ ∀ row ∈ t.data, back row = back (t.data.headD [])) :=
  ⟨by decide, sameLabel_rows,
    run_pure_leaf sameLabel.extractAttrValue sameLabel 0 0 [splitNode none "" 0 []]
      (splitNode none "" 0 []) "Yes" (by decide) sameLabel_rows rfl⟩

/-- Claim C8, evaluated at a failing input.  The table `clash` is not empty, its labels
are not all equal and its only non-label attribute has no positive gain ratio;
`getSelectedAttribute` returns `-1`, and `run` (hence the constructor), with any positive
fuel, reads field `-1` of a row and faults instead of making the node a leaf. -/
theorem run_no_usable_split_faults :
    clash.data ≠ [] ∧ isLeafNode clash.extractAttrValue = false ∧
    (∀ i, i < clash.extractAttrValue.attrName.length - 1 →
      ¬ Dbl.lt (Dbl.fin 0) (getGainRatio clash.extractAttrValue i)) ∧
    getSelectedAttribute clash.extractAttrValue clash.extractAttrValue = -1 ∧
    (∀ fuel, run clash.extractAttrValue (fuel + 1) clash.extractAttrValue 0
      [splitNode none "" 0 []] = .error .outOfRange) ∧
    ∀ fuel, build clash (fuel + 1) = .error .outOfRange := by
  refine ⟨by decide, by decide, ?_, clash_select, ?_, clash_run_faults⟩
  · intro i hi
    have hi' : i < 1 := hi
    have : i = 0 := by omega
    subst this
    rw [clash_gain_ratio]
    exact Dbl.not_lt_nan _
  · intro fuel
    exact runWith_no_split_faults _ _ _ fuel 0 _ (by decide) clash_select

/-- Claim C9.  Let `gainRatio` stand for the values that `getGainRatio` takes in the
machine's arithmetic, whatever they are, and let the header be non-empty.  When some
non-label attribute has a positive gain ratio, the selection returns an index `i` below
`attrName.size() - 1` whose gain ratio is positive and is exceeded by the gain ratio of no
non-label attribute, and no smaller index has the same gain ratio (the first index wins
ties); when no non-label attribute has a positive gain ratio it returns `-1`. -/
theorem getSelectedAttribute_spec (gainRatio : Table → Nat → Dbl)
    (initialTable table : Table) (hattr : initialTable.attrName ≠ []) :
    ((∃ i, i < initialTable.attrName.length - 1 ∧
        Dbl.lt (Dbl.fin 0) (gainRatio table i)) →
      ∃ i, i < initialTable.attrName.length - 1 ∧
        getSelectedAttributeWith gainRatio initialTable table = (i : Int) ∧
        Dbl.lt (Dbl.fin 0) (gainRatio table i) ∧
        (∀ j, j < initialTable.attrName.length - 1 →
          ¬ Dbl.lt (gainRatio table i) (gainRatio table j)) ∧
        (∀ j, j < i → gainRatio table j ≠ gainRatio table i)) ∧
    ((∀ i, i < initialTable.attrName.length - 1 →
        ¬ Dbl.lt (Dbl.fin 0) (gainRatio table i)) →
      getSelectedAttributeWith gainRatio initialTable table = -1) := by
  rcases getSelectedAttributeWith_cases_of_header gainRatio initialTable table hattr with
    ⟨h, hnone⟩ | ⟨i, hi, h⟩
  · exact ⟨fun ⟨i, hi, hp⟩ => (hnone i hi hp).elim, fun _ => h⟩
  · exact ⟨fun _ => ⟨i, hi, h⟩, fun hnone => (hnone i hi h.2.1).elim⟩

/-- Witness of C9: on the table `sixRows`, whose header has three names, scores that are
1 for both attributes (a tie) select attribute 0, the scores 0 and 1 select attribute 1,
and scores that are NaN for both attributes select `-1`. -/
theorem getSelectedAttribute_spec_witness :
    sixRows.extractAttrValue.attrName ≠ [] ∧
    getSelectedAttributeWith (fun _ _ => Dbl.fin 1) sixRows.extractAttrValue
      sixRows.extractAttrValue = 0 ∧
    getSelectedAttributeWith (fun _ i => Dbl.fin (i : ℝ)) sixRows.extractAttrValue
      sixRows.extractAttrValue = 1 ∧
    getSelectedAttributeWith (fun _ _ => Dbl.nan) sixRows.extractAttrValue
      sixRows.extractAttrValue = -1 := by
  have hlen : sixRows.extractAttrValue.attrName.length - 1 = 2 := by decide
  refine ⟨by decide, ?_, ?_, ?_⟩
  · obtain ⟨i, _, hsel, _, _, hfirst⟩ :=
      (getSelectedAttribute_spec (fun _ _ => Dbl.fin 1) sixRows.extractAttrValue
        sixRows.extractAttrValue (by decide)).1
        ⟨0, by decide, by simp [Dbl.lt]⟩
    rw [hsel]
    cases i with
    | zero => rfl
    | succ k => exact (hfirst 0 (Nat.succ_pos k) rfl).elim
  · obtain ⟨i, hi, hsel, hpos, hmax, _⟩ :=
      (getSelectedAttribute_spec (fun _ i => Dbl.fin (i : ℝ)) sixRows.extractAttrValue
        sixRows.extractAttrValue (by decide)).1
        ⟨1, by decide, by simp [Dbl.lt]⟩
    rw [hsel]
    rw [hlen] at hi hmax
    have h1 := hmax 1 (by decide)
    have hi1 : i = 1 := by
      rcases Nat.lt_or_ge i 1 with h | h
      · have h0 : i = 0 := by omega
        subst h0
        simp [Dbl.lt] at hpos
      · omega
    rw [hi1]
    rfl
  · exact (getSelectedAttribute_spec (fun _ _ => Dbl.nan) sixRows.extractAttrValue
      sixRows.extractAttrValue (by decide)).2 (fun i _ => Dbl.not_lt_nan _)

/-- Claim C10.  For every non-empty subset and every attribute `a` on which all rows
hold one and the same value: `getSplitInfoAttrD` is 0, the gain ratio is the NaN of
`0.0 / 0.0` (not an infinity), and `getSelectedAttribute` does not return `a`. -/
theorem single_value_attribute_excluded (initialTable table : Table) (a : Nat) (v : String)
    (hne : table.data ≠ []) (hsingle : ∀ row ∈ table.data, cell row a = v) :
    getSplitInfoAttrD table a = 0 ∧ getGainRatio table a = Dbl.nan ∧
    getSelectedAttribute initialTable table ≠ (a : Int) := by
  refine ⟨getSplitInfoAttrD_single table a v hne hsingle,
    getGainRatio_single table a v hne hsingle, ?_⟩
  intro e
  have hp := getSelectedAttribute_pos initialTable table a e
  rw [getGainRatio_single table a v hne hsingle] at hp
  exact Dbl.not_lt_nan _ hp

/-- Witness of C10: attribute 0 of the table `clash`. -/
theorem single_value_attribute_excluded_witness :
    clash.extractAttrValue.data ≠ [] ∧
    (∀ row ∈ clash.extractAttrValue.data, cell row 0 = "a") ∧
    getSplitInfoAttrD clash.extractAttrValue 0 = 0 ∧
    getGainRatio clash.extractAttrValue 0 = Dbl.nan ∧
    getSelectedAttribute clash.extractAttrValue clash.extractAttrValue ≠ ((0 : Nat) : Int) :=
  ⟨by decide, by decide,
    single_value_attribute_excluded clash.extractAttrValue clash.extractAttrValue 0 "a"
      (by decide) (by decide)⟩

/-- Counterexample to C11: in `eightRows` the attribute `ID` (index 1) determines the
label, the labels are not all equal and the share of the majority label is 6 of 8.  The
root of the built tree splits on attribute 0, not on `ID`, and its second child is not a
leaf: it splits on `ID`, so the tree has three levels. -/
theorem perfect_attribute_not_chosen :
    (∀ r1 ∈ eightRows.data, ∀ r2 ∈ eightRows.data,
      r1[1]? = r2[1]? → r1.getLast? = r2.getLast?) ∧
    (∀ row ∈ eightRows.data, row.length = eightRows.attrName.length) ∧
    1 < eightRows.attrName.length - 1 ∧
    build eightRows 3 = .ok { initialTable := eightRows.extractAttrValue, tree := eightTree } ∧
    eightTree[0]? = some (splitNode (some 0) "" 0 [1, 2]) ∧
    eightTree[2]? = some (splitNode (some 1) "q" 2 [3, 4, 5, 6, 7, 8, 9, 10]) ∧
    (splitNode (some 1) "q" 2 [3, 4, 5, 6, 7, 8, 9, 10]).isLeaf = false :=
  ⟨by decide, by decide, by decide, eightRows_build, by decide, by decide, by decide⟩

/-- Claim C11, amended.  Let `sel` stand for the selection of the split attribute, with
whatever values it takes in the machine's arithmetic.  For every non-empty training table
whose rows have the length of the header: when the attribute `s` that the selection
returns for the whole table is a non-label attribute that determines the label, the
constructor returns one and the same tree for every fuel from the number of rows on; its
root is a leaf or splits on `s`, and every child of the root is a leaf without children,
so the tree has at most two levels.  An attribute that determines the label need not be
the selected one. -/
theorem perfect_attribute_depth (sel : Table → Table → Int) (table : Table) (s : Nat)
    (hne : table.data ≠ [])
    (hwf : ∀ row ∈ table.data, row.length = table.attrName.length)
    (hs : s < table.attrName.length - 1)
    (hsel : isLeafNode table.extractAttrValue = false →
      sel table.extractAttrValue table.extractAttrValue = (s : Int))
    (hdet : ∀ r1 ∈ table.data, ∀ r2 ∈ table.data, cell r1 s = cell r2 s → back r1 = back r2) :
    ∃ (dt : DecisionTree) (root : Node),
      (∀ fuel, table.data.length ≤ fuel → buildWith sel table fuel = .ok dt) ∧
      dt.tree[0]? = some root ∧
      (root.isLeaf = true ∨
        (root.isLeaf = false ∧ root.criteriaAttrIndex = some (s : Int))) ∧
      ∀ c ∈ root.children, ∃ child : Node,
        dt.tree[c]? = some child ∧ child.isLeaf = true ∧ child.children = [] := by
  have hattr : table.attrName ≠ [] := by
    intro e
    rw [e] at hs
    simp at hs
  have hvisited := visited_of_determines (sel table.extractAttrValue) table.extractAttrValue s
    hsel hdet
  have hSel : ∀ S, Visited (sel table.extractAttrValue) table.extractAttrValue S →
      isLeafNode S = false →
      ∃ i : Nat, sel table.extractAttrValue S = (i : Int) ∧ i < table.attrName.length - 1 ∧
        ∃ r1 ∈ S.data, ∃ r2 ∈ S.data, cell r1 i ≠ cell r2 i := by
    intro S hvis hmixed
    rcases hvisited S hvis with rfl | hpure
    · obtain ⟨r1, h1, r2, h2, hlabel⟩ := isLeafNode_false_labels hmixed
      exact ⟨s, hsel hmixed, hs, r1, h1, r2, h2, fun e => hlabel (hdet r1 h1 r2 h2 e)⟩
    · rw [hpure] at hmixed
      exact (Bool.false_ne_true hmixed.symm).elim
  obtain ⟨tree, hbuild⟩ := buildWith_total sel table hne hattr hwf hSel
  have hshape : Shape (sel table.extractAttrValue) table.extractAttrValue tree
      table.data.length table.extractAttrValue "" 0 tree.length :=
    buildWith_shape (hbuild table.data.length (le_refl _))
  have hpos : 0 < table.data.length := List.length_pos.mpr hne
  obtain ⟨n, hn⟩ : ∃ n, table.data.length = n + 1 := ⟨table.data.length - 1, by omega⟩
  rw [hn] at hshape
  cases hshape with
  | pureLeaf label _ _ h3 _ =>
    exact ⟨_, _, hbuild, h3, Or.inl rfl, fun c hc => by simp [leafNode] at hc⟩
  | pruned _ _ h3 _ =>
    exact ⟨_, _, hbuild, h3, Or.inl rfl, fun c hc => by simp [leafNode] at hc⟩
  | split domain children hmixed _ h0 _ _ h5 hkids =>
    refine ⟨_, _, hbuild, h5, Or.inr ⟨rfl, by rw [hsel hmixed]; rfl⟩, ?_⟩
    intro c hc
    rw [hsel hmixed] at hkids
    simp only [Int.toNat_ofNat] at hkids
    obtain ⟨v, _, hcase⟩ := hkids.child_cases c hc
    rcases hcase with ⟨_, hnode⟩ | ⟨_, mid, hp⟩
    · exact ⟨_, hnode, rfl, rfl⟩
    · have hpure : isLeafNode { data := rowsWith table.extractAttrValue.data s v } = true :=
        isLeafNode_rowsWith_of_determines table.data s v hdet
      cases n with
      | zero => exact hp.elim
      | succ n =>
        cases hp with
        | pureLeaf label _ _ h3 _ => exact ⟨_, h3, rfl, rfl⟩
        | pruned hm _ _ _ => rw [hpure] at hm; cases hm
        | split _ _ hm _ _ _ _ _ _ => rw [hpure] at hm; cases hm

/-- Witness of C11, amended: the selection on exact-real scores returns the only attribute
of `fourOfFive`, which determines the label. -/
theorem perfect_attribute_depth_witness :
    fourOfFive.data ≠ [] ∧
    (∀ row ∈ fourOfFive.data, row.length = fourOfFive.attrName.length) ∧
    0 < fourOfFive.attrName.length - 1 ∧
    getSelectedAttribute fourOfFive.extractAttrValue fourOfFive.extractAttrValue
      = ((0 : Nat) : Int) ∧
    (∀ r1 ∈ fourOfFive.data, ∀ r2 ∈ fourOfFive.data,
      cell r1 0 = cell r2 0 → back r1 = back r2) ∧
    ∃ (dt : DecisionTree) (root : Node),
      (∀ fuel, fourOfFive.data.length ≤ fuel →
        buildWith getSelectedAttribute fourOfFive fuel = .ok dt) ∧
      dt.tree[0]? = some root ∧
      (root.isLeaf = true ∨
        (root.isLeaf = false ∧ root.criteriaAttrIndex = some ((0 : Nat) : Int))) ∧
      ∀ c ∈ root.children, ∃ child : Node,
        dt.tree[c]? = some child ∧ child.isLeaf = true ∧ child.children = [] :=
  ⟨by decide, by decide, by decide, fourOfFive_select, by decide,
    perfect_attribute_depth getSelectedAttribute fourOfFive 0 (by decide) (by decide)
      (by decide) (fun _ => fourOfFive_select) (by decide)⟩

/-- Claim C12.  Over exact real arithmetic, `getGain` is `getInfoD` minus `getInfoAttrD`
and is at least 0, for every subset and every attribute index, in particular for every
non-empty subset and every valid attribute index. -/
theorem getGain_formula_nonneg (table : Table) (attrIndex : Nat) :
    getGain table attrIndex = getInfoD table - getInfoAttrD table attrIndex ∧
    0 ≤ getGain table attrIndex :=
  ⟨rfl, getGain_nonneg table attrIndex⟩

/-- Claim C13.  For every non-empty subset whose rows all carry the same label,
`getInfoD` is 0. -/
theorem getInfoD_single_label_zero (table : Table) (hne : table.data ≠ [])
    (hsame : ∀ r1 ∈ table.data, ∀ r2 ∈ table.data, back r1 = back r2) :
    getInfoD table = 0 := by
  cases hd : table.data with
  | nil => exact (hne hd).elim
  | cons row rest =>
    apply getInfoD_pure table (back row) hne
    intro r hr
    exact hsame r hr row (by rw [hd]; simp)

/-- Witness of C13: the two rows of `sameLabel` are both labelled `Yes`. -/
theorem getInfoD_single_label_zero_witness :
    sameLabel.data ≠ [] ∧
    (∀ r1 ∈ sameLabel.data, ∀ r2 ∈ sameLabel.data, back r1 = back r2) ∧
    getInfoD sameLabel = 0 :=
  ⟨by decide, by decide, getInfoD_single_label_zero sameLabel (by decide) (by decide)⟩

/-- Claim C14.  For every subset with exactly two distinct labels, each carried by
exactly half of the rows, `getInfoD` is 1. -/
theorem getInfoD_balanced_labels (table : Table) (c1 c2 : String) (hne : c1 ≠ c2)
    (hrows : table.data ≠ [])
    (hlabels : ∀ row ∈ table.data, back row = c1 ∨ back row = c2)
    (h1 : 2 * table.data.countP (fun row => decide (back row = c1)) = table.data.length)
    (h2 : 2 * table.data.countP (fun row => decide (back row = c2)) = table.data.length) :
    getInfoD table = 1 := by
  have hn : (table.data.length : ℝ) ≠ 0 := by
    have : 0 < table.data.length := List.length_pos.mpr hrows
    exact_mod_cast (ne_of_gt this)
  have hhalf : ∀ c : Nat, 2 * c = table.data.length →
      (c : ℝ) / (table.data.length : ℝ) = 2⁻¹ := by
    intro c hc
    have hc' : (table.data.length : ℝ) = 2 * (c : ℝ) := by exact_mod_cast hc.symm
    have hc0 : (c : ℝ) ≠ 0 := by
      intro h0
      rw [h0] at hc'
      exact hn (by simpa using hc')
    rw [hc']
    field_simp
    ring
  have hterm : entropyTerm 2⁻¹ = 2⁻¹ := by
    have hl : Real.log (2⁻¹) = - Real.log 2 := Real.log_inv 2
    have h2 : Real.log 2 ≠ 0 := ne_of_gt log_two_pos
    unfold entropyTerm
    rw [hl]
    field_simp
    ring
  rw [getInfoD_eq_sum table {c1, c2} (fun row hrow => by
    rcases hlabels row hrow with h | h <;> simp [h])]
  rw [Finset.sum_pair hne, hhalf _ h1, hhalf _ h2, hterm]
  norm_num

/-- Witness of C14: three of the six rows of `sixRows` are labelled `Yes` and three
`No`. -/
theorem getInfoD_balanced_labels_witness :
    "Yes" ≠ "No" ∧ sixRows.data ≠ [] ∧
    (∀ row ∈ sixRows.data, back row = "Yes" ∨ back row = "No") ∧
    2 * sixRows.data.countP (fun row => decide (back row = "Yes")) = sixRows.data.length ∧
    2 * sixRows.data.countP (fun row => decide (back row = "No")) = sixRows.data.length ∧
    getInfoD sixRows = 1 :=
  ⟨by decide, by decide, by decide, by decide, by decide,
    getInfoD_balanced_labels sixRows "Yes" "No" (by decide) (by decide) (by decide)
      (by decide) (by decide)⟩

/-- Claim C15.  For every table as `InputReader` leaves it (`attrValueList` empty, the
state in which the constructor makes its one call of `extractAttrValue`) whose rows all
have `attrName.size()` fields, `extractAttrValue` leaves one list per column; the list of
column `j` is strictly increasing in the order of `std::string`, so free of duplicates,
and holds exactly the values that occur in column `j`. -/
theorem extractAttrValue_sorted_values (table : Table)
    (hempty : table.attrValueList = [])
    (hwf : ∀ row ∈ table.data, row.length = table.attrName.length) :
    table.extractAttrValue.attrValueList.length = table.attrName.length ∧
    ∀ j, j < table.attrName.length →
      ∃ values, table.extractAttrValue.attrValueList[j]? = some values ∧
        List.Pairwise (fun a b => strLt a b = true) values ∧ values.Nodup ∧
        ∀ x, x ∈ values ↔ ∃ row ∈ table.data, row[j]? = some x := by
  refine ⟨extractAttrValue_length table, ?_⟩
  intro j hj
  have hcell : ∀ row ∈ table.data, ∀ x, cell row j = x ↔ row[j]? = some x := by
    intro row hrow x
    have hlt : j < row.length := by rw [hwf row hrow]; exact hj
    simp [cell, List.getD, List.getElem?_eq_getElem hlt]
  refine ⟨columnValues table.data j, extractAttrValue_fresh table hempty j hj,
    columnValues_sorted _ _, pairwise_strLt_nodup _ (columnValues_sorted _ _), ?_⟩
  intro x
  constructor
  · intro hx
    obtain ⟨row, hrow, hc⟩ := columnValues_of_mem _ _ _ hx
    exact ⟨row, hrow, (hcell row hrow x).mp hc⟩
  · rintro ⟨row, hrow, hc⟩
    have := columnValues_mem table.data j row hrow
    rwa [(hcell row hrow x).mpr hc] at this

/-- Witness of C15: the table `sixRows`. -/
theorem extractAttrValue_sorted_values_witness :
    sixRows.attrValueList = [] ∧
    (∀ row ∈ sixRows.data, row.length = sixRows.attrName.length) ∧
    sixRows.extractAttrValue.attrValueList.length = sixRows.attrName.length ∧
    ∀ j, j < sixRows.attrName.length →
      ∃ values, sixRows.extractAttrValue.attrValueList[j]? = some values ∧
        List.Pairwise (fun a b => strLt a b = true) values ∧ values.Nodup ∧
        ∀ x, x ∈ values ↔ ∃ row ∈ sixRows.data, row[j]? = some x :=
  ⟨by decide, by decide, extractAttrValue_sorted_values sixRows (by decide) (by decide)⟩

/-- Claim C16.  For every tree returned by the constructor, `serializeTreeToJson` yields
one record per node, in the order of the nodes: the record at position `k` has
`treeIndex = k` and the `criteriaAttrIndex`, `attrValue`, `isLeaf`, `label` and `children`
of node `k` unchanged; the record at position 0 is the root, with `attrValue = ""`. -/
theorem serializeTreeToJson_records (table : Table) (fuel : Nat) (dt : DecisionTree)
    (h : build table fuel = .ok dt) :
    dt.serializeTreeToJson.length = dt.tree.length ∧
    (∀ k node, dt.tree[k]? = some node →
      dt.serializeTreeToJson[k]? = some
        ({ criteriaAttrIndex := node.criteriaAttrIndex
           attrValue := node.attrValue
           treeIndex := some k
           isLeaf := node.isLeaf
           label := node.label
           children := node.children } : NodeJson)) ∧
    (∃ root, dt.serializeTreeToJson[0]? = some root ∧ root.attrValue = "" ∧
      root.treeIndex = some 0) := by
  refine ⟨by simp [DecisionTree.serializeTreeToJson], ?_, ?_⟩
  · intro k node hk
    have hidx : node.treeIndex = some k :=
      build_forall_nodes h (fun k (node : Node) => node.treeIndex = some k)
        (fun _ _ _ _ => rfl) (fun _ _ _ _ _ _ _ _ _ _ _ _ _ => rfl) k node hk
    rw [serialize_getElem?, hk, ← hidx]
    rfl
  · obtain ⟨root, h0, hv, hi⟩ := build_root h
    exact ⟨nodeToJson root, by rw [serialize_getElem?, h0]; rfl, hv, hi⟩

/-- Witness of C16: the records of the tree of `sixRows`. -/
theorem serializeTreeToJson_records_witness :
    build sixRows 3 = .ok { initialTable := sixRows.extractAttrValue, tree := sixTree } ∧
    (DecisionTree.serializeTreeToJson
      { initialTable := sixRows.extractAttrValue, tree := sixTree }).length
        = sixTree.length ∧
    (∀ k node, sixTree[k]? = some node →
      (DecisionTree.serializeTreeToJson
        { initialTable := sixRows.extractAttrValue, tree := sixTree })[k]? = some
        ({ criteriaAttrIndex := node.criteriaAttrIndex
           attrValue := node.attrValue
           treeIndex := some k
           isLeaf := node.isLeaf
           label := node.label
           children := node.children } : NodeJson)) ∧
    (∃ root, (DecisionTree.serializeTreeToJson
        { initialTable := sixRows.extractAttrValue, tree := sixTree })[0]? = some root ∧
      root.attrValue = "" ∧ root.treeIndex = some 0) :=
  ⟨sixRows_build_three,
    serializeTreeToJson_records sixRows 3
      { initialTable := sixRows.extractAttrValue, tree := sixTree } sixRows_build_three⟩

/-- Claim C17, evaluated at two failing inputs.  The constructor prunes the root of
`prunedOnB` to a leaf, and the record of that leaf holds the attribute index 1, the
attribute selected before the node was pruned.  The root of `sameLabel` is a leaf made by
the pure-leaf check: its `criteriaAttrIndex` was never assigned, neither by `Node()` nor
by `run`, and the record holds that unassigned member. -/
theorem leaf_record_keeps_attribute :
    build prunedOnB 1 = .ok
      { initialTable := prunedOnB.extractAttrValue, tree := [leafNode (some 1) "" 0 "Yes"] } ∧
    DecisionTree.serializeTreeToJson
      { initialTable := prunedOnB.extractAttrValue, tree := [leafNode (some 1) "" 0 "Yes"] }
      = [({ criteriaAttrIndex := some 1
            attrValue := ""
            treeIndex := some 0
            isLeaf := true
            label := "Yes"
            children := [] } : NodeJson)] ∧
    build sameLabel 1 = .ok
      { initialTable := sameLabel.extractAttrValue, tree := [leafNode none "" 0 "Yes"] } ∧
    DecisionTree.serializeTreeToJson
      { initialTable := sameLabel.extractAttrValue, tree := [leafNode none "" 0 "Yes"] }
      = [({ criteriaAttrIndex := none
            attrValue := ""
            treeIndex := some 0
            isLeaf := true
            label := "Yes"
            children := [] } : NodeJson)] :=
  ⟨prunedOnB_build, by decide, sameLabel_build, by decide⟩

/-- The fields of the records that do take their initial values: in the records of every
tree returned by the constructor a leaf has an empty list of children, and a node that is
not a leaf has the empty label and the index of an attribute as `criteriaAttrIndex`.  The
`criteriaAttrIndex` of a leaf is not reset: when the labels of the training table are not
all equal and the majority label has a share above 0.8, the record of the root is a leaf
that holds the index of the attribute selected for the whole table. -/
theorem serialized_unused_fields (table : Table) (fuel : Nat) (dt : DecisionTree)
    (h : build table fuel = .ok dt) :
    (∀ record ∈ dt.serializeTreeToJson,
      (record.isLeaf = true → record.children = []) ∧
      (record.isLeaf = false →
        record.label = "" ∧ ∃ a : Int, 0 ≤ a ∧ record.criteriaAttrIndex = some a)) ∧
    (isLeafNode dt.initialTable = false →
      (getMajorityLabel dt.initialTable).2 * 5 > dt.initialTable.data.length * 4 →
      dt.serializeTreeToJson[0]? = some
        ({ criteriaAttrIndex := some (getSelectedAttribute dt.initialTable dt.initialTable)
           attrValue := ""
           treeIndex := some 0
           isLeaf := true
           label := (getMajorityLabel dt.initialTable).1
           children := [] } : NodeJson)) := by
  refine ⟨?_, ?_⟩
  · intro record hrec
    obtain ⟨node, hnode, rfl⟩ := List.mem_map.mp hrec
    obtain ⟨k, hk⟩ := List.getElem?_of_mem hnode
    exact build_forall_nodes h
      (fun _ (node : Node) => (node.isLeaf = true → node.children = []) ∧
        (node.isLeaf = false →
          node.label = "" ∧ ∃ a : Int, 0 ≤ a ∧ node.criteriaAttrIndex = some a))
      (fun _ _ _ _ => ⟨fun _ => rfl, fun hc => by simp [leafNode] at hc⟩)
      (fun _ S _ _ _ _ _ _ _ h0 _ _ _ =>
        ⟨fun hc => by simp [splitNode] at hc, fun _ => ⟨rfl, _, h0, rfl⟩⟩) k node hk
  · intro hmixed hshare
    have hex : exceedsThreshold (getMajorityLabel dt.initialTable).2
        dt.initialTable.data.length = true := by
      simpa [exceedsThreshold] using hshare
    have hshape := buildWith_shape h
    cases fuel with
    | zero => exact hshape.elim
    | succ n =>
      cases hshape with
      | pureLeaf label hp _ _ _ => rw [hmixed] at hp; cases hp
      | pruned _ _ h3 _ =>
        rw [serialize_getElem?, h3]
        rfl
      | split domain children _ hno _ _ _ _ _ => rw [hex] at hno; cases hno

/-- The records of the tree of `prunedOnB`, an instance of `serialized_unused_fields`. -/
theorem serialized_unused_fields_witness :
    build prunedOnB 1 = .ok
      { initialTable := prunedOnB.extractAttrValue, tree := [leafNode (some 1) "" 0 "Yes"] } ∧
    (∀ record ∈ DecisionTree.serializeTreeToJson
        { initialTable := prunedOnB.extractAttrValue, tree := [leafNode (some 1) "" 0 "Yes"] },
      (record.isLeaf = true → record.children = []) ∧
      (record.isLeaf = false →
        record.label = "" ∧ ∃ a : Int, 0 ≤ a ∧ record.criteriaAttrIndex = some a)) ∧
    (isLeafNode prunedOnB.extractAttrValue = false →
      (getMajorityLabel prunedOnB.extractAttrValue).2 * 5
        > prunedOnB.extractAttrValue.data.length * 4 →
      (DecisionTree.serializeTreeToJson
        { initialTable := prunedOnB.extractAttrValue,
          tree := [leafNode (some 1) "" 0 "Yes"] })[0]? = some
        ({ criteriaAttrIndex :=
             some (getSelectedAttribute prunedOnB.extractAttrValue prunedOnB.extractAttrValue)
           attrValue := ""
           treeIndex := some 0
           isLeaf := true
           label := (getMajorityLabel prunedOnB.extractAttrValue).1
           children := [] } : NodeJson)) :=
  ⟨prunedOnB_build,
    serialized_unused_fields prunedOnB 1
      { initialTable := prunedOnB.extractAttrValue, tree := [leafNode (some 1) "" 0 "Yes"] }
      prunedOnB_build⟩

/-- Claim C18.  In every tree returned by the constructor, the `i`-th child of a node
that is not a leaf and splits on attribute `a` has
`attrValue = initialTable.attrValueList[a][i]`.  For a table as `InputReader` leaves it
(`attrValueList` empty when the constructor makes its one call of `extractAttrValue`),
the children of one node are pairwise distinct in `attrValue`, so that at most one child
matches a given value. -/
theorem child_attr_values (table : Table) (fuel : Nat) (dt : DecisionTree)
    (h : build table fuel = .ok dt) :
    ∀ (k : Nat) (node : Node), dt.tree[k]? = some node → node.isLeaf = false →
      ∃ (a : Int) (domain : List String),
        node.criteriaAttrIndex = some a ∧
        vecAtInt dt.initialTable.attrValueList a = .ok domain ∧
        node.children.length = domain.length ∧
        (∀ (i c : Nat), node.children[i]? = some c →
          ∃ child : Node, dt.tree[c]? = some child ∧ domain[i]? = some child.attrValue) ∧
        (table.attrValueList = [] →
          ∀ (i j ci cj : Nat) (childi childj : Node),
            node.children[i]? = some ci → node.children[j]? = some cj →
            dt.tree[ci]? = some childi → dt.tree[cj]? = some childj →
            childi.attrValue = childj.attrValue → i = j) := by
  obtain ⟨hit, _⟩ := buildWith_inv h
  have key := build_forall_nodes h
    (fun _ (node : Node) => node.isLeaf = false →
      ∃ (a : Int) (domain : List String),
        node.criteriaAttrIndex = some a ∧
        vecAtInt dt.initialTable.attrValueList a = .ok domain ∧
        node.children.length = domain.length ∧
        (∀ (i c : Nat), node.children[i]? = some c →
          ∃ child : Node, dt.tree[c]? = some child ∧ domain[i]? = some child.attrValue))
    (fun _ _ _ _ hc => by simp [leafNode] at hc)
    (fun _ S _ _ _ domain children _ _ _ hdom _ hkids _ =>
      ⟨_, domain, rfl, hdom, hkids.length_eq,
        hkids.child_values (fun _ _ _ _ hp => by
          obtain ⟨node, h1, h2, _⟩ := Shape.node_at hp
          exact ⟨node, h1, h2⟩)⟩)
  intro k node hk hleaf
  obtain ⟨a, domain, h1, h2, h3, h4⟩ := key k node hk hleaf
  refine ⟨a, domain, h1, h2, h3, h4, ?_⟩
  intro hempty i j ci cj childi childj hi hj hci hcj heq
  obtain ⟨x, hx, hxi⟩ := h4 i ci hi
  obtain ⟨y, hy, hyj⟩ := h4 j cj hj
  rw [hci] at hx
  rw [hcj] at hy
  injection hx with hx
  injection hy with hy
  subst hx
  subst hy
  rw [hit] at h2
  have hnd : domain.Nodup := by
    rw [extractAttrValue_fresh_domain table hempty a domain h2]
    exact pairwise_strLt_nodup _ (columnValues_sorted _ _)
  obtain ⟨hilt, hie⟩ := List.getElem?_eq_some.mp hxi
  obtain ⟨hjlt, hje⟩ := List.getElem?_eq_some.mp hyj
  exact (List.Nodup.getElem_inj_iff hnd).mp (by rw [hie, hje, heq])

/-- Witness of C18: the tree of `sixRows`, a table whose `attrValueList` is empty; the
children of each of its three split nodes carry the values of the split attribute in
order, and no two children of one node carry the same value. -/
theorem child_attr_values_witness :
    sixRows.attrValueList = [] ∧
    build sixRows 3 = .ok { initialTable := sixRows.extractAttrValue, tree := sixTree } ∧
    ∀ (k : Nat) (node : Node), sixTree[k]? = some node → node.isLeaf = false →
      ∃ (a : Int) (domain : List String),
        node.criteriaAttrIndex = some a ∧
        vecAtInt sixRows.extractAttrValue.attrValueList a = .ok domain ∧
        node.children.length = domain.length ∧
        (∀ (i c : Nat), node.children[i]? = some c →
          ∃ child : Node, sixTree[c]? = some child ∧ domain[i]? = some child.attrValue) ∧
        ∀ (i j ci cj : Nat) (childi childj : Node),
          node.children[i]? = some ci → node.children[j]? = some cj →
          sixTree[ci]? = some childi → sixTree[cj]? = some childj →
          childi.attrValue = childj.attrValue → i = j := by
  refine ⟨rfl, sixRows_build_three, ?_⟩
  intro k node hk hleaf
  obtain ⟨a, domain, h1, h2, h3, h4, h5⟩ :=
    child_attr_values sixRows 3
      { initialTable := sixRows.extractAttrValue, tree := sixTree } sixRows_build_three
      k node hk hleaf
  exact ⟨a, domain, h1, h2, h3, h4, h5 rfl⟩

/-- Claim C19.  Let `run` split a subset `S` on attribute `a`, the map of row positions
having been built without fault.  In the iteration for the value `v` the rows collected
for the child are exactly the rows of `S` with `row[a] = v`, in their order in `S` (the
order-preserving filter): the child becomes a leaf when there are none, and otherwise the
recursive call receives exactly these rows.  For a table as `InputReader` leaves it
(`attrValueList` empty when the constructor makes its one call of `extractAttrValue`),
every row of `S` whose value of `a` is in `attrValueList[a]` belongs to the partition of
exactly one position of that list. -/
theorem partition_is_filter (table : Table) (a : Int) (m : StrMap (List Nat))
    (hm : buildAttrValueMap a 0 table.data [] = .ok m) :
    (∀ (recurse : Table → Nat → List Node → Except Fault (List Node)) (k : Nat)
        (tree : List Node) (v : String),
      splitStep recurse table m k tree v =
        (setNode tree k
          (fun node => { node with children := node.children ++ [tree.length] })).bind
          (fun tree1 =>
            if (table.data.filter (fun row => decide (row[a.toNat]? = some v))).length = 0 then
              setNode (tree1 ++ [{ attrValue := v, treeIndex := some tree.length }])
                tree.length
                (fun _ => { attrValue := v, treeIndex := some tree.length, isLeaf := true,
                            label := (getMajorityLabel table).1 })
            else
              recurse
                { data := table.data.filter (fun row => decide (row[a.toNat]? = some v)) }
                tree.length
                (tree1 ++ [{ attrValue := v, treeIndex := some tree.length }]))) ∧
    (∀ (source : Table) (domain : List String), source.attrValueList = [] →
      vecAtInt source.extractAttrValue.attrValueList a = .ok domain →
      ∀ row ∈ table.data, (∃ x ∈ domain, row[a.toNat]? = some x) →
        ∃ (i : Nat) (v : String), domain[i]? = some v ∧
          row ∈ table.data.filter (fun r => decide (r[a.toNat]? = some v)) ∧
          ∀ (j : Nat) (w : String), domain[j]? = some w →
            row ∈ table.data.filter (fun r => decide (r[a.toNat]? = some w)) → j = i) := by
  obtain ⟨hvalid, hgroups⟩ := buildAttrValueMap_ok a table.data 0 [] m hm
  have hfilter : ∀ v, rowsWith table.data a.toNat v
      = table.data.filter (fun row => decide (row[a.toNat]? = some v)) := by
    intro v
    unfold rowsWith
    apply List.filter_congr
    intro row hrow
    have hlt := (hvalid row hrow).2
    simp [cell, List.getD, List.getElem?_eq_getElem hlt]
  refine ⟨?_, ?_⟩
  · intro recurse k tree v
    rw [splitStep_eq, hgroups, collectRows_groupRows, hfilter]
    rfl
  · intro source domain hempty hdom row hrow hx
    obtain ⟨x, hxd, hrx⟩ := hx
    have hnd : domain.Nodup := by
      rw [extractAttrValue_fresh_domain source hempty a domain hdom]
      exact pairwise_strLt_nodup _ (columnValues_sorted _ _)
    obtain ⟨i, hi, hix⟩ := List.getElem_of_mem hxd
    refine ⟨i, x, by rw [List.getElem?_eq_getElem hi, hix], ?_, ?_⟩
    · simp [List.mem_filter, hrow, hrx]
    · intro j w hj hw
      simp only [List.mem_filter, decide_eq_true_eq] at hw
      rw [hrx] at hw
      have hwx : x = w := Option.some.inj hw.2
      subst hwx
      obtain ⟨hjlt, hje⟩ := List.getElem?_eq_some.mp hj
      exact (List.Nodup.getElem_inj_iff hnd).mp (by rw [hje, hix])

/-- Witness of C19: the rows of `sixRows`, split on attribute 0.  In the iteration for the
value `a` the recursive call receives the two rows with `A = a`, in their order in the
table, and the row `a, x, Yes` belongs to the partition of position 0 of the list
`a, b, c, d` and to no other. -/
theorem partition_is_filter_witness :
    buildAttrValueMap 0 0 sixRows.data [] = .ok (groupRows 0 0 sixRows.data []) ∧
    sixRows.attrValueList = [] ∧
    vecAtInt sixRows.extractAttrValue.attrValueList 0 = .ok ["a", "b", "c", "d"] ∧
    ["a", "x", "Yes"] ∈ sixRows.data ∧
    (∀ recurse : Table → Nat → List Node → Except Fault (List Node),
      splitStep recurse sixRows (groupRows 0 0 sixRows.data []) 0
          [splitNode (some 0) "" 0 []] "a" =
        recurse { data := [["a", "x", "Yes"], ["a", "y", "No"]] } 1
          [splitNode (some 0) "" 0 [1], splitNode none "a" 1 []]) ∧
    ∃ (i : Nat) (v : String), (["a", "b", "c", "d"] : List String)[i]? = some v ∧
      ["a", "x", "Yes"] ∈ sixRows.data.filter (fun r => decide (r[0]? = some v)) ∧
      ∀ (j : Nat) (w : String), (["a", "b", "c", "d"] : List String)[j]? = some w →
        ["a", "x", "Yes"] ∈ sixRows.data.filter (fun r => decide (r[0]? = some w)) → j = i := by
  have h := partition_is_filter sixRows 0 (groupRows 0 0 sixRows.data []) (by decide)
  refine ⟨by decide, by decide, by decide, by decide, ?_, ?_⟩
  · intro recurse
    rw [h.1 recurse 0 [splitNode (some 0) "" 0 []] "a"]
    rfl
  · exact h.2 sixRows ["a", "b", "c", "d"] (by decide) (by decide) ["a", "x", "Yes"]
      (by decide) ⟨"a", by decide, by decide⟩

/-- Claim C20.  For every tree returned by the constructor and every node `L` of it, in
particular every leaf, let the reaching rows be the training rows, in their order, for
which `dfs` returns `L` (for some fuel, equivalently for the fuel `tree.size()`).  If there is a reaching row,
the label of `L` is the label that `getMajorityLabel` returns for the reaching rows; it is
the label of one of them, and no label is carried by more of them.  If `L` holds no
split attribute, as the leaves made by the pure-leaf check do, every reaching row has
exactly the label of `L`. -/
theorem leaf_label_majority (table : Table) (fuel : Nat) (dt : DecisionTree)
    (h : build table fuel = .ok dt) (L : Nat) (leaf : Node)
    (hL : dt.tree[L]? = some leaf) :
    (∀ row, (∃ n, dfs dt row n 0 = .ok (L : Int))
      ↔ dfs dt row dt.tree.length 0 = .ok (L : Int)) ∧
    (dt.rowsReaching table.data L ≠ [] →
      leaf.label = (getMajorityLabel { data := dt.rowsReaching table.data L }).1 ∧
      (∃ row ∈ dt.rowsReaching table.data L, back row = leaf.label) ∧
      ∀ l, (dt.rowsReaching table.data L).countP (fun row => decide (back row = l))
        ≤ (dt.rowsReaching table.data L).countP
            (fun row => decide (back row = leaf.label))) ∧
    (leaf.criteriaAttrIndex = none →
      ∀ row ∈ dt.rowsReaching table.data L, back row = leaf.label) := by
  obtain ⟨hit, _⟩ := buildWith_inv h
  have hdata : dt.initialTable.data = table.data := by rw [hit]; rfl
  have hrows := Shape.leaf_rows fuel (buildWith_shape h) L
    (fun row => decide (dfs dt row dt.tree.length 0 = .ok (L : Int)))
    (fun row _ => by
      rw [decide_eq_true_iff]
      exact (build_dfs_iff h row L).2)
  rw [hdata] at hrows
  have hspec := getMajorityLabel_spec { data := dt.rowsReaching table.data L }
  refine ⟨fun row => (build_dfs_iff h row L).1, ?_, ?_⟩
  · intro hne
    rcases hrows with hnil | ⟨leaf', hL', _, hlabel, _⟩
    · exact (hne hnil).elim
    · rw [hL] at hL'
      injection hL' with e
      subst e
      have hlabel' : leaf.label
          = (getMajorityLabel { data := dt.rowsReaching table.data L }).1 := hlabel
      refine ⟨hlabel', ?_, ?_⟩
      · obtain ⟨row, hrow, hb⟩ := hspec.2.2 hne
        exact ⟨row, hrow, by rw [hlabel']; exact hb⟩
      · intro l
        rw [hlabel', ← hspec.1]
        exact hspec.2.1 l
  · intro hnone row hrow
    rcases hrows with hnil | ⟨leaf', hL', _, _, hpure⟩
    · have hnil' : dt.rowsReaching table.data L = [] := hnil
      rw [hnil'] at hrow
      simp at hrow
    · rw [hL] at hL'
      injection hL' with e
      subst e
      exact hpure hnone row hrow

/-- Witness of C20, at two leaves below a root that splits.  In the tree of `sixteenRows`
the root splits on attribute 0 and its first child, node 1, is a leaf made by majority
pruning: the eight rows with `A = a` reach it through the root, seven of them labelled
`Yes` and one labelled `No`, and its label is `Yes`, the majority label of these rows.
In the tree of `sixRows` node 2 is a leaf made by the pure-leaf check, two levels below
the root: the one row that reaches it has the label of the leaf. -/
theorem leaf_label_majority_witness :
    (build sixteenRows 2
        = .ok { initialTable := sixteenRows.extractAttrValue, tree := sixteenTree } ∧
      sixteenTree[0]? = some (splitNode (some 0) "" 0 [1, 2]) ∧
      sixteenTree[1]? = some (leafNode (some 1) "a" 1 "Yes") ∧
      DecisionTree.rowsReaching
          { initialTable := sixteenRows.extractAttrValue, tree := sixteenTree }
          sixteenRows.data 1 =
        [["a", "x", "Yes"], ["a", "x", "Yes"], ["a", "x", "Yes"], ["a", "x", "Yes"],
         ["a", "x", "Yes"], ["a", "x", "Yes"], ["a", "x", "Yes"], ["a", "y", "No"]] ∧
      (∀ row : Row,
        (∃ n, dfs { initialTable := sixteenRows.extractAttrValue, tree := sixteenTree }
          row n 0 = .ok ((1 : Nat) : Int))
        ↔ dfs { initialTable := sixteenRows.extractAttrValue, tree := sixteenTree }
          row sixteenTree.length 0 = .ok ((1 : Nat) : Int)) ∧
      "Yes" = (getMajorityLabel
        { data := DecisionTree.rowsReaching
            { initialTable := sixteenRows.extractAttrValue, tree := sixteenTree }
            sixteenRows.data 1 }).1 ∧
      (∃ row ∈ DecisionTree.rowsReaching
          { initialTable := sixteenRows.extractAttrValue, tree := sixteenTree }
          sixteenRows.data 1, back row = "Yes") ∧
      ∀ l, (DecisionTree.rowsReaching
          { initialTable := sixteenRows.extractAttrValue, tree := sixteenTree }
          sixteenRows.data 1).countP (fun row => decide (back row = l))
        ≤ (DecisionTree.rowsReaching
          { initialTable := sixteenRows.extractAttrValue, tree := sixteenTree }
          sixteenRows.data 1).countP (fun row => decide (back row = "Yes"))) ∧
    (build sixRows 3 = .ok { initialTable := sixRows.extractAttrValue, tree := sixTree } ∧
      sixTree[2]? = some (leafNode none "x" 2 "Yes") ∧
      DecisionTree.rowsReaching { initialTable := sixRows.extractAttrValue, tree := sixTree }
          sixRows.data 2 = [["a", "x", "Yes"]] ∧
      ∀ row ∈ DecisionTree.rowsReaching
          { initialTable := sixRows.extractAttrValue, tree := sixTree } sixRows.data 2,
        back row = "Yes") := by
  have hreach : DecisionTree.rowsReaching
      { initialTable := sixteenRows.extractAttrValue, tree := sixteenTree }
      sixteenRows.data 1 ≠ [] := by decide
  have h16 := leaf_label_majority sixteenRows 2
    { initialTable := sixteenRows.extractAttrValue, tree := sixteenTree } sixteenRows_build
    1 (leafNode (some 1) "a" 1 "Yes") rfl
  have h6 := leaf_label_majority sixRows 3
    { initialTable := sixRows.extractAttrValue, tree := sixTree } sixRows_build_three
    2 (leafNode none "x" 2 "Yes") rfl
  exact ⟨⟨sixteenRows_build, rfl, rfl, by decide, h16.1, (h16.2.1 hreach).1,
      (h16.2.1 hreach).2.1, (h16.2.1 hreach).2.2⟩,
    ⟨sixRows_build_three, rfl, by decide, h6.2.2 rfl⟩⟩

/-- Claim C21.  In every tree returned by the constructor, every child index stored in
`tree[k].children` is greater than `k` and smaller than `tree.size()`; every index from 1
to `tree.size() - 1` is listed, once, in the children of exactly one node, and index 0 in
the children of none.  Hence `dfs` from the root never runs out of fuel when the fuel is
at least `tree.size()`, whatever the row, and for every row that has a field for each
non-label attribute it returns `-1` or the position of a leaf. -/
theorem built_tree_rooted (table : Table) (fuel : Nat) (dt : DecisionTree)
    (h : build table fuel = .ok dt) :
    (∀ (k : Nat) (node : Node), dt.tree[k]? = some node →
      ∀ c ∈ node.children, k < c ∧ c < dt.tree.length) ∧
    (∀ c, 1 ≤ c → c < dt.tree.length →
      ∃ (k : Nat) (node : Node), dt.tree[k]? = some node ∧ node.children.count c = 1 ∧
        ∀ (k' : Nat) (node' : Node), dt.tree[k']? = some node' →
          c ∈ node'.children → k' = k) ∧
    (∀ (k : Nat) (node : Node), dt.tree[k]? = some node → 0 ∉ node.children) ∧
    (∀ (row : Row) (n : Nat), dt.tree.length ≤ n → dfs dt row n 0 ≠ .error .outOfFuel) ∧
    (∀ (row : Row) (n : Nat), table.attrName.length - 1 ≤ row.length → dt.tree.length ≤ n →
      ∃ r : Int, dfs dt row n 0 = .ok r ∧
        (r = -1 ∨ ∃ (L : Nat) (leaf : Node),
          r = (L : Int) ∧ dt.tree[L]? = some leaf ∧ leaf.isLeaf = true)) := by
  have hshape := buildWith_shape h
  have hinc := build_children_increasing h
  have hpos : 0 < dt.tree.length := Shape.lt_stop hshape
  refine ⟨hinc, ?_, ?_, ?_, ?_⟩
  · intro c hc1 hc2
    obtain ⟨j, node, _, _, hj, hcount, huniq⟩ := Shape.parented fuel hshape c (by omega) hc2
    refine ⟨j, node, hj, hcount, ?_⟩
    intro k' node' hk' hmem
    exact huniq k' node' (Nat.zero_le _) (List.getElem?_eq_some.mp hk').1 hk' hmem
  · intro k node hk hmem
    have := (hinc k node hk 0 hmem).1
    omega
  · intro row n hn
    exact dfs_not_outOfFuel dt row hinc n 0 hpos (by omega)
  · intro row n hrow hn
    have hcrit : ∀ (j : Nat) (node : Node), dt.tree[j]? = some node → node.isLeaf = false →
        ∃ a : Nat, node.criteriaAttrIndex = some (a : Int) ∧ a < row.length := by
      intro j node hj hleaf
      obtain ⟨a, ha, hlt⟩ := build_split_attribute h j node hj hleaf
      exact ⟨a, ha, by omega⟩
    obtain ⟨r, hr, hcase⟩ := dfs_total dt row hinc hcrit n 0 hpos (by omega)
    refine ⟨r, hr, ?_⟩
    rcases hcase with h1 | ⟨L, hL⟩
    · exact Or.inl h1
    · right
      subst hL
      obtain ⟨leaf, hleaf1, hleaf2⟩ := arrives_leaf (arrives_of_dfs dt row L n 0 hr)
      exact ⟨L, leaf, rfl, hleaf1, hleaf2⟩

/-- Witness of C21: the tree of `sixRows`. -/
theorem built_tree_rooted_witness :
    build sixRows 3 = .ok { initialTable := sixRows.extractAttrValue, tree := sixTree } ∧
    (∀ (k : Nat) (node : Node), sixTree[k]? = some node →
      ∀ c ∈ node.children, k < c ∧ c < sixTree.length) ∧
    (∀ c, 1 ≤ c → c < sixTree.length →
      ∃ (k : Nat) (node : Node), sixTree[k]? = some node ∧ node.children.count c = 1 ∧
        ∀ (k' : Nat) (node' : Node), sixTree[k']? = some node' →
          c ∈ node'.children → k' = k) ∧
    (∀ (k : Nat) (node : Node), sixTree[k]? = some node → 0 ∉ node.children) ∧
    (∀ (row : Row) (n : Nat), sixTree.length ≤ n →
      dfs { initialTable := sixRows.extractAttrValue, tree := sixTree } row n 0
        ≠ .error .outOfFuel) ∧
    (∀ (row : Row) (n : Nat), sixRows.attrName.length - 1 ≤ row.length → sixTree.length ≤ n →
      ∃ r : Int,
        dfs { initialTable := sixRows.extractAttrValue, tree := sixTree } row n 0 = .ok r ∧
        (r = -1 ∨ ∃ (L : Nat) (leaf : Node),
          r = (L : Int) ∧ sixTree[L]? = some leaf ∧ leaf.isLeaf = true)) :=
  ⟨sixRows_build_three,
    built_tree_rooted sixRows 3
      { initialTable := sixRows.extractAttrValue, tree := sixTree } sixRows_build_three⟩

/-- Claim C22.  For an empty row list `getMajorityLabel` returns `("", 0)`.  For every
non-empty row list it returns a pair `(l, c)` such that no label occurs more than `c` times
among the rows, `l` occurs exactly `c` times, and `l` is the label whose `c`-th occurrence
comes earliest: at the row `i` that holds the `c`-th occurrence of `l`, every other label
has occurred fewer than `c` times. -/
theorem getMajorityLabel_characterised (table : Table) :
    (table.data = [] → getMajorityLabel table = ("", 0)) ∧
    (table.data ≠ [] →
      (∀ x, table.data.countP (fun row => decide (back row = x))
        ≤ (getMajorityLabel table).2) ∧
      table.data.countP (fun row => decide (back row = (getMajorityLabel table).1))
        = (getMajorityLabel table).2 ∧
      ∃ (i : Nat) (row : Row), table.data[i]? = some row ∧
        back row = (getMajorityLabel table).1 ∧
        (table.data.take (i + 1)).countP
          (fun row => decide (back row = (getMajorityLabel table).1))
          = (getMajorityLabel table).2 ∧
        ∀ x, x ≠ (getMajorityLabel table).1 →
          (table.data.take (i + 1)).countP (fun row => decide (back row = x))
            < (getMajorityLabel table).2) := by
  refine ⟨getMajorityLabel_nil table, ?_⟩
  intro hne
  obtain ⟨_, _, h3, h4, h5⟩ := majority_fold_first table.data hne
  exact ⟨h4, h3.symm, h5⟩

end Crop
